import Mathlib

/-!
Verification development for the `influai-scraper` ingestion core.

The Python modules `utils/ingest.py` and `replay_outbox.py` are shallowly
embedded below.  Python `str` values are modelled as `List Char` (Unicode
scalar sequences), `bytes` as `List Nat` (each element < 256), and Python
dicts carrying document fields as insertion-ordered association lists.
The parts of CPython's standard library that the code calls
(`urllib.parse.urlsplit`, `parse_qsl`, `urlencode`, `urlunsplit`, the
`hostname` accessor, `hashlib.sha256`, `str.strip`, ...) are embedded from
the CPython 3.11 sources so that the embedded `canonicalize_url` and
`content_hash` compute exactly what the Python functions compute.
-/

/-- Python `str` modelled as a list of Unicode scalar values. -/
abbrev Str := List Char

/-- Python `bytes` modelled as a list of byte values (< 256). -/
abbrev Bytes := List Nat

/-- The set of characters stripped by Python's default `str.strip()` /
`str.isspace()`: ASCII whitespace, the C1 and Unicode space separators. -/
def pyIsSpace (c : Char) : Bool :=
  let n := c.toNat
  (9 ≤ n && n ≤ 13) || n == 32 || (28 ≤ n && n ≤ 31) || n == 0x85 || n == 0xa0 ||
  n == 0x1680 || (0x2000 ≤ n && n ≤ 0x200a) || n == 0x2028 || n == 0x2029 ||
  n == 0x202f || n == 0x205f || n == 0x3000

/-- Python `s.strip()` with no argument (strip whitespace from both ends). -/
def pyStrip (s : Str) : Str :=
  ((s.dropWhile pyIsSpace).reverse.dropWhile pyIsSpace).reverse

/-- Python `s.lstrip(chars)` for a character predicate. -/
def pyLstrip (p : Char → Bool) (s : Str) : Str := s.dropWhile p

/-- Python `s.rstrip(chars)` for a character predicate. -/
def pyRstrip (p : Char → Bool) (s : Str) : Str := (s.reverse.dropWhile p).reverse

/-- ASCII lower-casing of one character (Python `str.lower()` restricted to
the ASCII range; all strings handled by the theorems below are ASCII). -/
def asciiLower (c : Char) : Char :=
  if 65 ≤ c.toNat ∧ c.toNat ≤ 90 then Char.ofNat (c.toNat + 32) else c

/-- Python `s.lower()`. -/
def pyLower (s : Str) : Str := s.map asciiLower

/-- Python `s.find(c, start)`: index of the first occurrence of `c` at or
after position `start`, as an `Option` (Python returns `-1` for `none`). -/
def pyFindFrom (c : Char) (start : Nat) (s : Str) : Option Nat :=
  match (s.drop start).findIdx? (· == c) with
  | some j => some (start + j)
  | none => none

/-- Python `s.find(c)`. -/
def pyFind (c : Char) (s : Str) : Option Nat := pyFindFrom c 0 s

/-- Python `c in s`. -/
def pyContains (s : Str) (c : Char) : Bool := s.contains c

/-- Python `s.split(c, 1)`: split at the first occurrence of `c`;
`none` in the second component when `c` does not occur. -/
def pySplit1 (c : Char) (s : Str) : Str × Option Str :=
  let a := s.takeWhile (· ≠ c)
  if a.length = s.length then (s, none) else (a, some (s.drop (a.length + 1)))

/-- Helper for `pySplitAll`: returns the first segment and the remaining
segments of the split. -/
def pySplitAllGo (c : Char) : Str → Str × List Str
  | [] => ([], [])
  | x :: xs =>
    let r := pySplitAllGo c xs
    if x = c then ([], r.1 :: r.2) else (x :: r.1, r.2)

/-- Python `s.split(c)` (no maxsplit): always returns at least one segment;
`"".split(c) = [""]`. -/
def pySplitAll (c : Char) (s : Str) : List Str :=
  let r := pySplitAllGo c s
  r.1 :: r.2

/-- Python `sep.join(parts)` for a one-character separator. -/
def pyJoin (c : Char) : List Str → Str
  | [] => []
  | [s] => s
  | s :: rest => s ++ c :: pyJoin c rest

/-- Python `s.partition(c)`: `(before, sep-found?, after)`;
when `c` is absent the result is `(s, false, "")`. -/
def pyPartition (c : Char) (s : Str) : Str × Bool × Str :=
  let a := s.takeWhile (· ≠ c)
  if a.length = s.length then (s, false, []) else (a, true, s.drop (a.length + 1))

/-- Python `s.rpartition(c)`: split at the last occurrence of `c`;
when `c` is absent the result is `("", false, s)`. -/
def pyRpartition (c : Char) (s : Str) : Str × Bool × Str :=
  let r := pyPartition c s.reverse
  if r.2.1 then (r.2.2.reverse, true, r.1.reverse) else ([], false, s)

/-- Python `s.replace(old, new)` for one-character `old`/`new`. -/
def pyReplaceChar (old new : Char) (s : Str) : Str :=
  s.map (fun c => if c = old then new else c)

/-- Python `s.replace(c, "")`: delete every occurrence of the character. -/
def pyDeleteChar (c : Char) (s : Str) : Str := s.filter (· ≠ c)

/-- Python `s.startswith(p)`. -/
def pyStartswith (p : Str) (s : Str) : Bool := p.isPrefixOf s

/-- Python `s.endswith(c)` for a single character. -/
def pyEndswith (c : Char) (s : Str) : Bool := s.getLast? == some c

/-- Python string `<` (lexicographic comparison by code point). -/
def strLt : Str → Str → Bool
  | [], [] => false
  | [], _ :: _ => true
  | _ :: _, [] => false
  | a :: as, b :: bs =>
    if a.toNat < b.toNat then true
    else if a.toNat = b.toNat then strLt as bs
    else false

/-! ## UTF-8 codec (CPython `str.encode('utf-8')` / `bytes.decode('utf-8', 'replace')`) -/

/-- UTF-8 encoding of one Unicode scalar value. -/
def utf8EncodeChar (c : Char) : Bytes :=
  let n := c.toNat
  if n < 0x80 then [n]
  else if n < 0x800 then [0xC0 + n / 64, 0x80 + n % 64]
  else if n < 0x10000 then [0xE0 + n / 4096, 0x80 + n / 64 % 64, 0x80 + n % 64]
  else [0xF0 + n / 262144, 0x80 + n / 4096 % 64, 0x80 + n / 64 % 64, 0x80 + n % 64]

/-- Python `s.encode('utf-8')`. -/
def utf8Encode (s : Str) : Bytes := s.flatMap utf8EncodeChar

/-- Is `b` a UTF-8 continuation byte (`0x80..0xBF`)? -/
def isCont (b : Nat) : Bool := 0x80 ≤ b && b ≤ 0xBF

/-- The Unicode replacement character U+FFFD. -/
def replChar : Char := Char.ofNat 0xFFFD

/-- How many continuation bytes of `bs` validly extend the lead byte `b0`
(bounded by what remains a legal prefix of one UTF-8 sequence). -/
def utf8ValidCont (b0 : Nat) (bs : Bytes) : Nat :=
  if 0xC2 ≤ b0 && b0 ≤ 0xDF then
    match bs with
    | b1 :: _ => if isCont b1 then 1 else 0
    | [] => 0
  else if b0 == 0xE0 then
    match bs with
    | b1 :: b2 :: _ =>
      if 0xA0 ≤ b1 && b1 ≤ 0xBF then (if isCont b2 then 2 else 1) else 0
    | [b1] => if 0xA0 ≤ b1 && b1 ≤ 0xBF then 1 else 0
    | [] => 0
  else if (0xE1 ≤ b0 && b0 ≤ 0xEC) || b0 == 0xEE || b0 == 0xEF then
    match bs with
    | b1 :: b2 :: _ => if isCont b1 then (if isCont b2 then 2 else 1) else 0
    | [b1] => if isCont b1 then 1 else 0
    | [] => 0
  else if b0 == 0xED then
    match bs with
    | b1 :: b2 :: _ =>
      if 0x80 ≤ b1 && b1 ≤ 0x9F then (if isCont b2 then 2 else 1) else 0
    | [b1] => if 0x80 ≤ b1 && b1 ≤ 0x9F then 1 else 0
    | [] => 0
  else if b0 == 0xF0 then
    match bs with
    | b1 :: rest =>
      if 0x90 ≤ b1 && b1 ≤ 0xBF then 1 + utf8ValidCont 0xE1 rest else 0
    | [] => 0
  else if 0xF1 ≤ b0 && b0 ≤ 0xF3 then
    match bs with
    | b1 :: rest => if isCont b1 then 1 + utf8ValidCont 0xE1 rest else 0
    | [] => 0
  else if b0 == 0xF4 then
    match bs with
    | b1 :: rest =>
      if 0x80 ≤ b1 && b1 ≤ 0x8F then 1 + utf8ValidCont 0xE1 rest else 0
    | [] => 0
  else 0

/-- How many continuation bytes the lead byte `b0` requires in total. -/
def utf8Need (b0 : Nat) : Nat :=
  if 0xC2 ≤ b0 && b0 ≤ 0xDF then 1
  else if 0xE0 ≤ b0 && b0 ≤ 0xEF then 2
  else if 0xF0 ≤ b0 && b0 ≤ 0xF4 then 3
  else 0

/-- Scalar value of a complete UTF-8 sequence `b0 :: conts`. -/
def utf8Scalar (b0 : Nat) (conts : Bytes) : Nat :=
  match conts with
  | [] => b0
  | [b1] => (b0 - 0xC0) * 64 + (b1 - 0x80)
  | [b1, b2] => (b0 - 0xE0) * 4096 + (b1 - 0x80) * 64 + (b2 - 0x80)
  | b1 :: b2 :: b3 :: _ =>
    (b0 - 0xF0) * 262144 + (b1 - 0x80) * 4096 + (b2 - 0x80) * 64 + (b3 - 0x80)

/-- Fuel-driven worker for `utf8DecodeReplace` (structural in the fuel so
that concrete computations reduce in the kernel; the fuel is the byte
count, which bounds the number of steps). -/
def utf8DecodeGo : Nat → Bytes → Str
  | _, [] => []
  | 0, _ :: _ => []
  | fuel + 1, b0 :: rest =>
    if b0 < 0x80 then Char.ofNat b0 :: utf8DecodeGo fuel rest
    else
      let k := utf8ValidCont b0 rest
      if k = utf8Need b0 ∧ 0 < k then
        Char.ofNat (utf8Scalar b0 (rest.take k)) :: utf8DecodeGo fuel (rest.drop k)
      else
        replChar :: utf8DecodeGo fuel (rest.drop k)

/-- Python `bytes.decode('utf-8', errors='replace')`: valid sequences decode
to their scalar; each maximal invalid subpart becomes one U+FFFD. -/
def utf8DecodeReplace (bs : Bytes) : Str := utf8DecodeGo bs.length bs

/-! ## Percent-encoding: CPython `urllib.parse` quote/unquote -/

/-- Hex digit value of a character, if it is one (`0-9a-fA-F`). -/
def hexDigitVal (c : Char) : Option Nat :=
  let n := c.toNat
  if 48 ≤ n ∧ n ≤ 57 then some (n - 48)
  else if 97 ≤ n ∧ n ≤ 102 then some (n - 87)
  else if 65 ≤ n ∧ n ≤ 70 then some (n - 55)
  else none

/-- Hex digit value of a byte (used when scanning `bytes` for `%XX`). -/
def hexByteVal (b : Nat) : Option Nat :=
  if 48 ≤ b ∧ b ≤ 57 then some (b - 48)
  else if 97 ≤ b ∧ b ≤ 102 then some (b - 87)
  else if 65 ≤ b ∧ b ≤ 70 then some (b - 55)
  else none

/-- `bytes.split(b'%')` on a byte list. -/
def bytesSplitPercent (bs : Bytes) : List Bytes :=
  let r := go bs
  r.1 :: r.2
where
  go : Bytes → Bytes × List Bytes
    | [] => ([], [])
    | x :: xs =>
      let r := go xs
      if x = 37 then ([], r.1 :: r.2) else (x :: r.1, r.2)

/-- One `%`-chunk of `unquote_to_bytes`: a chunk starting with two hex
digits contributes the decoded byte, anything else keeps its `%`. -/
def unquoteItem (item : Bytes) : Bytes :=
  match item with
  | h1 :: h2 :: rest =>
    match hexByteVal h1, hexByteVal h2 with
    | some v1, some v2 => (v1 * 16 + v2) :: rest
    | _, _ => 37 :: item
  | _ => 37 :: item

/-- CPython `urllib.parse.unquote_to_bytes` on the UTF-8 encoding of a string:
split on `%`; a chunk starting with two hex digits contributes that byte. -/
def unquote_to_bytes (s : Str) : Bytes :=
  let bs := utf8Encode s
  match bytesSplitPercent bs with
  | [] => bs
  | [_] => bs
  | first :: items => first ++ items.flatMap unquoteItem

/-- Split a string into maximal runs of ASCII characters, as CPython's
`_asciire.split` does inside `unquote`: the result is the leading
non-ASCII run followed by alternating (ASCII run, following non-ASCII run)
pairs. -/
def asciiRuns : Str → Str × List (Str × Str)
  | [] => ([], [])
  | c :: cs =>
    let r := asciiRuns cs
    if c.toNat ≤ 0x7f then
      match r with
      | ([], (a, na) :: rest) => ([], (c :: a, na) :: rest)
      | (lead, runs) => ([], ([c], lead) :: runs)
    else
      (c :: r.1, r.2)

/-- CPython `urllib.parse.unquote(s, 'utf-8', 'replace')`. -/
def pyUnquote (s : Str) : Str :=
  if ¬ pyContains s '%' then s
  else
    let r := asciiRuns s
    r.1 ++ (r.2.flatMap fun ar => utf8DecodeReplace (unquote_to_bytes ar.1) ++ ar.2)

/-- The byte set CPython never percent-encodes (`_ALWAYS_SAFE`):
ASCII letters, digits, and `_.-~`. -/
def alwaysSafeByte (b : Nat) : Bool :=
  (65 ≤ b && b ≤ 90) || (97 ≤ b && b ≤ 122) || (48 ≤ b && b ≤ 57) ||
  b == 95 || b == 46 || b == 45 || b == 126

/-- Upper-case hex digit for a value < 16. -/
def hexUpperDigit (n : Nat) : Char :=
  if n < 10 then Char.ofNat (48 + n) else Char.ofNat (55 + n)

/-- `'%XY'` for a byte. -/
def percentEscape (b : Nat) : Str := ['%', hexUpperDigit (b / 16), hexUpperDigit (b % 16)]

/-- CPython `urllib.parse.quote_from_bytes(bs, safe)`; `safe` is a byte set. -/
def quote_from_bytes (bs : Bytes) (safe : List Nat) : Str :=
  if bs = [] then []
  else if bs.all (fun b => alwaysSafeByte b || safe.contains b) then
    bs.map Char.ofNat
  else
    bs.flatMap fun b =>
      if alwaysSafeByte b || safe.contains b then [Char.ofNat b] else percentEscape b

/-- CPython `urllib.parse.quote(s, safe)` for a string argument:
UTF-8 encode, then `quote_from_bytes` (only ASCII `safe` bytes are kept). -/
def pyQuote (s : Str) (safe : Str) : Str :=
  if s = [] then []
  else quote_from_bytes (utf8Encode s) ((safe.filter (fun c => c.toNat < 128)).map Char.toNat)

/-- CPython `urllib.parse.quote_plus(s, safe)`: like `quote` but spaces
become `+` (spaces are made safe for `quote`, then replaced). -/
def quote_plus (s : Str) (safe : Str) : Str :=
  if ¬ pyContains s ' ' then pyQuote s safe
  else pyReplaceChar ' ' '+' (pyQuote s (safe ++ [' ']))

/-! ## CPython `urllib.parse.parse_qsl` / `urlencode` -/

/-- One `name=value` segment of a query string, as handled inside
`parse_qsl(qs, keep_blank_values=True)`: empty segments are skipped,
a segment without `=` gets an empty value, then `+` becomes space and
percent-escapes are decoded. -/
def parseQslSegment (name_value : Str) : List (Str × Str) :=
  if name_value = [] then []
  else
    match pySplit1 '=' name_value with
    | (n, some v) =>
      [(pyUnquote (pyReplaceChar '+' ' ' n), pyUnquote (pyReplaceChar '+' ' ' v))]
    | (n, none) =>
      [(pyUnquote (pyReplaceChar '+' ' ' n), pyUnquote (pyReplaceChar '+' ' ' []))]

/-- CPython `parse_qsl(qs, keep_blank_values=True)` (3.11 semantics:
the separator is `&` only). -/
def parse_qsl (qs : Str) : List (Str × Str) :=
  let query_args := if qs = [] then [] else pySplitAll '&' qs
  query_args.flatMap parseQslSegment

/-- Sort key comparison used by `q.sort(key=lambda kv: (kv[0].lower(), kv[1]))`:
Python tuple `<` on `(name.lower(), value)`, strings compared by code point. -/
def qslKeyLt (x y : Str × Str) : Bool :=
  strLt (pyLower x.1) (pyLower y.1) ||
  (pyLower x.1 == pyLower y.1 && strLt x.2 y.2)

/-- Stable insertion of `x` into a sorted list: `x` goes after every element
whose key is less than or equal to its own (preserving input order of
equal-key elements, as Python's stable `list.sort` does). -/
def pyInsertSorted (x : Str × Str) : List (Str × Str) → List (Str × Str)
  | [] => [x]
  | y :: ys => if qslKeyLt x y then x :: y :: ys else y :: pyInsertSorted x ys

/-- Python's stable `list.sort(key=lambda kv: (kv[0].lower(), kv[1]))`,
modelled as a stable insertion sort (the output — equal-key elements in
input order — is the same for any stable sort). -/
def pySortQsl (l : List (Str × Str)) : List (Str × Str) :=
  l.foldl (fun acc x => pyInsertSorted x acc) []

/-- CPython `urlencode(q, doseq=True)` for string pairs: each name and value
is `quote_plus`-encoded with `safe=''` and pairs are joined with `&`. -/
def urlencode (q : List (Str × Str)) : Str :=
  pyJoin '&' (q.map fun kv => quote_plus kv.1 [] ++ '=' :: quote_plus kv.2 [])

/-! ## CPython `urllib.parse.urlsplit` / `urlunsplit` (3.11 semantics) -/

/-- The five components produced by `urlsplit`. -/
structure SplitRes where
  scheme : Str
  netloc : Str
  path : Str
  query : Str
  fragment : Str
deriving DecidableEq, Repr

/-- `_WHATWG_C0_CONTROL_OR_SPACE`: code points `0x00`-`0x20`. -/
def isC0OrSpace (c : Char) : Bool := c.toNat ≤ 0x20

/-- Is the character one of `_UNSAFE_URL_BYTES_TO_REMOVE` (`\t`, `\r`, `\n`)? -/
def isUnsafeUrlByte (c : Char) : Bool := c == '\t' || c == '\r' || c == '\n'

/-- `scheme_chars`: ASCII letters, digits and `+-.`. -/
def isSchemeChar (c : Char) : Bool :=
  (97 ≤ c.toNat && c.toNat ≤ 122) || (65 ≤ c.toNat && c.toNat ≤ 90) ||
  (48 ≤ c.toNat && c.toNat ≤ 57) || c == '+' || c == '-' || c == '.'

/-- Python `c.isascii() and c.isalpha()` (an ASCII letter). -/
def isAsciiAlpha (c : Char) : Bool :=
  (97 ≤ c.toNat && c.toNat ≤ 122) || (65 ≤ c.toNat && c.toNat ≤ 90)

/-- CPython `_splitnetloc(url, start)`: cut at the earliest of `/`, `?`, `#`
at or after `start`; returns `(url[start:delim], url[delim:])`. -/
def _splitnetloc (url : Str) (start : Nat) : Str × Str :=
  let delim := url.length
  let delim := match pyFindFrom '/' start url with | some w => min delim w | none => delim
  let delim := match pyFindFrom '?' start url with | some w => min delim w | none => delim
  let delim := match pyFindFrom '#' start url with | some w => min delim w | none => delim
  ((url.drop start).take (delim - start), url.drop delim)

/-- Is `s` a valid decimal IPv4 octet (`0`-`255`, no leading zeros)? -/
def isIpv4Octet (s : Str) : Bool :=
  s ≠ [] && s.length ≤ 3 && s.all (fun c => '0' ≤ c && c ≤ '9') &&
  (s.length == 1 || s.head? ≠ some '0') &&
  (s.foldl (fun a c => a * 10 + (c.toNat - 48)) 0) ≤ 255

/-- Is `s` a dotted-quad IPv4 address as accepted by `ipaddress.ip_address`? -/
def isIpv4 (s : Str) : Bool :=
  match pySplitAll '.' s with
  | [a, b, c, d] => isIpv4Octet a && isIpv4Octet b && isIpv4Octet c && isIpv4Octet d
  | _ => false

/-- Is `s` a run of 1-4 hex digits (an IPv6 group)? -/
def isHexGroup (s : Str) : Bool :=
  s ≠ [] && s.length ≤ 4 && s.all (fun c => (hexDigitVal c).isSome)

/-- Validity of the body of an IPv6 address (without a zone), given as the
groups obtained by splitting on `:`.  Python's `ipaddress` accepts at most
one `::` (which appears as adjacent empty groups), a final dotted-quad
standing for two groups, and exactly eight groups when no `::` occurs. -/
def isIpv6Groups (gs : List Str) : Bool :=
  let n := gs.length
  let emptyIdx := gs.findIdx? (· = [])
  let hasV4 := match gs.getLast? with | some g => g.contains '.' | none => false
  let lastOk := match gs.getLast? with
    | some g => if g.contains '.' then isIpv4 g else isHexGroup g
    | none => false
  let headGroups := gs.dropLast
  match emptyIdx with
  | none =>
    n == 8 - (if hasV4 then 1 else 0) && headGroups.all isHexGroup && lastOk
  | some _ =>
    -- a `::` was present; normalise "::x", "x::" and "::" edge shapes
    let gs' := gs
    let ok ( l : List Str) : Bool :=
      -- groups with exactly one empty marker, non-empty groups valid,
      -- and strictly fewer than the full count of groups
      ((l.filter (· = [])).length == 1) &&
      (l.filter (· ≠ [])).all (fun g => if g.contains '.' then isIpv4 g else isHexGroup g) &&
      ((l.filter (· ≠ [])).length + (if hasV4 then 1 else 0)) ≤ 7 &&
      -- a dotted quad may only stand last
      (match l.filter (· ≠ []) with
       | [] => true
       | gs'' => gs''.dropLast.all (fun g => ¬ g.contains '.'))
    -- collapse the doubled empties produced by leading/trailing `::`
    match gs' with
    | [] => false
    | _ =>
      let collapsed :=
        match gs' with
        | [] :: [] :: rest => [] :: rest
        | other => other
      let collapsed2 :=
        match collapsed.reverse with
        | [] :: [] :: rest => ([] :: rest).reverse
        | _ => collapsed
      ok collapsed2

/-- Is `s` a textual IPv6 address (optionally with a `%zone` suffix), as
accepted by `ipaddress.ip_address`? -/
def isIpv6 (s : Str) : Bool :=
  let p := pyPartition '%' s
  let addr := p.1
  let zoneOk := if p.2.1 then p.2.2 ≠ [] && ¬ p.2.2.contains '%' else true
  zoneOk && isIpv6Groups (pySplitAll ':' addr)

/-- CPython 3.11 `_check_bracketed_host`: `v`-prefixed IPvFuture literals
must match `v<hex>+\..+`; otherwise the host must parse as an IP address
and must not be IPv4. `true` means the check passes. -/
def checkBracketedHost (host : Str) : Bool :=
  match host with
  | 'v' :: rest =>
    let hexPart := rest.takeWhile (fun c => (hexDigitVal c).isSome)
    let tail := rest.drop hexPart.length
    hexPart ≠ [] && (match tail with | '.' :: t => t ≠ [] | _ => false)
  | _ => ¬ isIpv4 host && isIpv6 host

/-- CPython 3.11 `urlsplit(url)` (default `scheme=''`, `allow_fragments=True`).
`none` models a raised `ValueError`.  The `_checknetloc` NFKC check is
modelled as passing: it can only raise for non-ASCII netlocs whose NFKC
normalisation introduces separators, and no such netloc is considered in
the theorems below.  The scheme stage: detect and strip `scheme:`. -/
def schemeSplitFn (url2 : Str) : Str × Str :=
  match pyFind ':' url2, url2 with
  | some i, c0 :: _ =>
    if 0 < i ∧ isAsciiAlpha c0 ∧ (url2.take i).all isSchemeChar then
      (pyLower (url2.take i), url2.drop (i + 1))
    else ([], url2)
  | _, _ => ([], url2)

/-- The netloc stage of `urlsplit`: when the rest starts with `//`, cut the
netloc with `_splitnetloc` and apply the bracket checks (`none` models the
raised `ValueError`). -/
def netlocSplitFn (url3 : Str) : Option (Str × Str) :=
  if url3.take 2 = ['/', '/'] then
    let r := _splitnetloc url3 2
    let netloc := r.1
    if (netloc.contains '[' && ¬ netloc.contains ']') ||
       (netloc.contains ']' && ¬ netloc.contains '[') then none
    else if netloc.contains '[' && netloc.contains ']' then
      let bracketed := (pyPartition ']' (pyPartition '[' netloc).2.2).1
      if checkBracketedHost bracketed then some (netloc, r.2) else none
    else some (netloc, r.2)
  else some ([], url3)

/-- The fragment stage of `urlsplit`: split at the first `#` when present. -/
def fragSplitFn (url4 : Str) : Str × Str :=
  if pyContains url4 '#' then
    match pySplit1 '#' url4 with
    | (a, some b) => (a, b)
    | (a, none) => (a, [])
  else (url4, [])

/-- The query stage of `urlsplit`: split at the first `?` when present. -/
def querySplitFn (s : Str) : Str × Str :=
  if pyContains s '?' then
    match pySplit1 '?' s with
    | (a, some b) => (a, b)
    | (a, none) => (a, [])
  else (s, [])

def urlsplit (url0 : Str) : Option SplitRes :=
  let url1 := pyLstrip isC0OrSpace url0
  let url2 := url1.filter (fun c => ¬ isUnsafeUrlByte c)
  let ss := schemeSplitFn url2
  match netlocSplitFn ss.2 with
  | none => none
  | some (netloc, url4) =>
    let fs := fragSplitFn url4
    let qs := querySplitFn fs.1
    some ⟨ss.1, netloc, qs.1, qs.2, fs.2⟩

/-- `uses_netloc` from CPython's `urllib.parse` (schemes that imply `//`). -/
def uses_netloc : List Str :=
  ["", "ftp", "http", "gopher", "nntp", "telnet", "imap", "wais", "file",
   "mms", "https", "shttp", "snews", "prospero", "rtsp", "rtsps", "rtspu",
   "rsync", "svn", "svn+ssh", "sftp", "nfs", "git", "git+ssh", "ws",
   "wss"].map String.toList

/-- CPython `urlunsplit`. -/
def urlunsplit (r : SplitRes) : Str :=
  let url := r.path
  let url :=
    if r.netloc ≠ [] ∨ (r.scheme ≠ [] ∧ r.scheme ∈ uses_netloc ∧ url.take 2 ≠ ['/', '/']) then
      let url' := if url ≠ [] ∧ url.take 1 ≠ ['/'] then '/' :: url else url
      '/' :: '/' :: (r.netloc ++ url')
    else url
  let url := if r.scheme ≠ [] then r.scheme ++ ':' :: url else url
  let url := if r.query ≠ [] then url ++ '?' :: r.query else url
  if r.fragment ≠ [] then url ++ '#' :: r.fragment else url

/-- The hostname part of `SplitResult._hostinfo`: text after the last `@`,
then either the bracketed host or the text before the first `:`. -/
def hostinfoHostname (netloc : Str) : Str :=
  let hostinfo := (pyRpartition '@' netloc).2.2
  let br := pyPartition '[' hostinfo
  if br.2.1 then (pyPartition ']' br.2.2).1
  else (pyPartition ':' hostinfo).1

/-- CPython's `SplitResult.hostname` property coerced through the code's
`(parts.hostname or "")`: empty when the raw hostname is empty, otherwise
the hostname lower-cased (a `%zone` suffix of a scoped address is kept
with its case, per the property's implementation). -/
def hostnameOrEmpty (netloc : Str) : Str :=
  let h := hostinfoHostname netloc
  if h = [] then []
  else
    let p := pyPartition '%' h
    pyLower p.1 ++ (if p.2.1 then '%' :: p.2.2 else [])

/-! ## SHA-256 (`hashlib.sha256(...).hexdigest()`), FIPS 180-4 -/

/-- 32-bit word arithmetic: truncation. -/
def w32 (n : Nat) : Nat := n % 4294967296

/-- 32-bit rotate right. -/
def rotr (n : Nat) (x : Nat) : Nat :=
  w32 (x / 2 ^ n + x % 2 ^ n * 2 ^ (32 - n))

/-- 32-bit shift right. -/
def shr (n : Nat) (x : Nat) : Nat := x / 2 ^ n

/-- Bitwise XOR (on `Nat`, used on 32-bit words). -/
def bxor (a b : Nat) : Nat := Nat.xor a b

/-- Bitwise AND. -/
def band (a b : Nat) : Nat := Nat.land a b

/-- Bitwise complement within 32 bits. -/
def bnot32 (a : Nat) : Nat := 4294967295 - a

/-- SHA-256 round constants. -/
def sha256K : List Nat :=
  [1116352408, 1899447441, 3049323471, 3921009573, 961987163, 1508970993,
   2453635748, 2870763221, 3624381080, 310598401, 607225278, 1426881987,
   1925078388, 2162078206, 2614888103, 3248222580, 3835390401, 4022224774,
   264347078, 604807628, 770255983, 1249150122, 1555081692, 1996064986,
   2554220882, 2821834349, 2952996808, 3210313671, 3336571891, 3584528711,
   113926993, 338241895, 666307205, 773529912, 1294757372, 1396182291,
   1695183700, 1986661051, 2177026350, 2456956037, 2730485921, 2820302411,
   3259730800, 3345764771, 3516065817, 3600352804, 4094571909, 275423344,
   430227734, 506948616, 659060556, 883997877, 958139571, 1322822218,
   1537002063, 1747873779, 1955562222, 2024104815, 2227730452, 2361852424,
   2428436474, 2756734187, 3204031479, 3329325298]

/-- SHA-256 initial hash value. -/
def sha256H0 : List Nat :=
  [1779033703, 3144134277, 1013904242, 2773480762,
   1359893119, 2600822924, 528734635, 1541459225]

/-- Message padding: append `0x80`, zeros, and the 64-bit bit length. -/
def sha256Pad (msg : Bytes) : Bytes :=
  let l := msg.length
  let zeros := (64 - (l + 9) % 64) % 64
  let bitLen := l * 8
  msg ++ [0x80] ++ List.replicate zeros 0 ++
    [bitLen / 2 ^ 56 % 256, bitLen / 2 ^ 48 % 256, bitLen / 2 ^ 40 % 256,
     bitLen / 2 ^ 32 % 256, bitLen / 2 ^ 24 % 256, bitLen / 2 ^ 16 % 256,
     bitLen / 2 ^ 8 % 256, bitLen % 256]

/-- Big-endian 32-bit words from bytes. -/
def bytesToWords : Bytes → List Nat
  | b0 :: b1 :: b2 :: b3 :: rest =>
    (b0 * 2 ^ 24 + b1 * 2 ^ 16 + b2 * 2 ^ 8 + b3) :: bytesToWords rest
  | _ => []

/-- Extend 16 words to the 64-entry message schedule. -/
def sha256Schedule (w : List Nat) (i : Nat) : List Nat :=
  match i with
  | 0 => w
  | j + 1 =>
    let w' := sha256Schedule w j
    let t := 16 + j
    let g := fun k => w'.getD k 0
    let s0 := bxor (bxor (rotr 7 (g (t - 15))) (rotr 18 (g (t - 15)))) (shr 3 (g (t - 15)))
    let s1 := bxor (bxor (rotr 17 (g (t - 2))) (rotr 19 (g (t - 2)))) (shr 10 (g (t - 2)))
    w' ++ [w32 (g (t - 16) + s0 + g (t - 7) + s1)]

/-- One round of the SHA-256 compression function. -/
def sha256Round (st : List Nat) (kw : Nat × Nat) : List Nat :=
  match st with
  | [a, b, c, d, e, f, g, h] =>
    let s1 := bxor (bxor (rotr 6 e) (rotr 11 e)) (rotr 25 e)
    let ch := bxor (band e f) (band (bnot32 e) g)
    let t1 := w32 (h + s1 + ch + kw.1 + kw.2)
    let s0 := bxor (bxor (rotr 2 a) (rotr 13 a)) (rotr 22 a)
    let mj := bxor (bxor (band a b) (band a c)) (band b c)
    let t2 := w32 (s0 + mj)
    [w32 (t1 + t2), a, b, c, w32 (d + t1), e, f, g]
  | other => other

/-- Compress one 64-byte block into the running hash. -/
def sha256Block (h : List Nat) (block : Bytes) : List Nat :=
  let w := sha256Schedule (bytesToWords block) 48
  let st := (sha256K.zip w).foldl sha256Round h
  (h.zip st).map fun p => w32 (p.1 + p.2)

/-- Fold the compression over the given number of 64-byte blocks. -/
def sha256Iter : Nat → List Nat → Bytes → List Nat
  | 0, h, _ => h
  | n + 1, h, padded => sha256Iter n (sha256Block h (padded.take 64)) (padded.drop 64)

/-- Fold the compression over all 64-byte blocks of the padded message. -/
def sha256Blocks (h : List Nat) (padded : Bytes) : List Nat :=
  sha256Iter (padded.length / 64) h padded

/-- Lower-case hex digit. -/
def hexLowerDigit (n : Nat) : Char :=
  if n < 10 then Char.ofNat (48 + n) else Char.ofNat (87 + n)

/-- `hashlib.sha256(bs).hexdigest()`: lower-case hex of the 32-byte digest. -/
def sha256Hex (msg : Bytes) : Str :=
  (sha256Blocks sha256H0 (sha256Pad msg)).flatMap fun word =>
    [hexLowerDigit (word / 2 ^ 28 % 16), hexLowerDigit (word / 2 ^ 24 % 16),
     hexLowerDigit (word / 2 ^ 20 % 16), hexLowerDigit (word / 2 ^ 16 % 16),
     hexLowerDigit (word / 2 ^ 12 % 16), hexLowerDigit (word / 2 ^ 8 % 16),
     hexLowerDigit (word / 2 ^ 4 % 16), hexLowerDigit (word % 16)]

/-! ## `utils/ingest.py`: `canonicalize_url` and `content_hash` -/

/-- `TRACKING_PARAMS` from `utils/ingest.py`. -/
def TRACKING_PARAMS : List Str :=
  ["utm_source", "utm_medium", "utm_campaign", "utm_term", "utm_content",
   "gclid", "fbclid", "mc_cid", "mc_eid", "ref", "ref_src", "igshid"].map String.toList

/-- The host stage of `canonicalize_url`:
`host = (parts.hostname or "").lower()`, then strip one leading `www.`. -/
def hostCanon (netloc : Str) : Str :=
  let host := pyLower (hostnameOrEmpty netloc)
  if pyStartswith "www.".toList host then host.drop 4 else host

/-- The path stage of `canonicalize_url`: empty path becomes `/`; any other
trailing `/` is stripped (`path.rstrip("/")`). -/
def pathCanon (p : Str) : Str :=
  let path := if p = [] then ['/'] else p
  if path ≠ ['/'] ∧ pyEndswith '/' path then pyRstrip (· == '/') path else path

/-- The query stage of `canonicalize_url`: parse, drop tracking parameters
(by lower-cased name), stable-sort by `(name.lower(), value)`. -/
def qCanon (query : Str) : List (Str × Str) :=
  pySortQsl ((parse_qsl query).filter fun kv => ¬ TRACKING_PARAMS.contains (pyLower kv.1))

/-- The successful (no-exception) body of `canonicalize_url` given the split
result of the stripped input. -/
def canonicalizeParts (parts : SplitRes) : Str :=
  urlunsplit ⟨parts.scheme, hostCanon parts.netloc, pathCanon parts.path,
              urlencode (qCanon parts.query), []⟩

/-- `canonicalize_url(u)` from `utils/ingest.py`: strip, split, lower-case and
de-`www.` the hostname, drop tracking parameters, sort the query, normalise
the path, drop the fragment, reassemble.  A parse failure (the `except`
branch) returns the stripped input. -/
def canonicalize_url (u : Str) : Str :=
  let su := pyStrip u
  match urlsplit su with
  | none => su
  | some parts => canonicalizeParts parts

/-- `content_hash(text)` from `utils/ingest.py`: `None` for empty or
whitespace-only input, otherwise the SHA-256 hex digest of the UTF-8
encoded trimmed text. -/
def content_hash (text : Str) : Option Str :=
  let t := pyStrip text
  if t = [] then none
  else some (sha256Hex (utf8Encode t))

/-! ## Documents: Python dicts as insertion-ordered association lists -/

/-- A document field value: a string or JSON `null`.  (The only non-string
value the ingestion code ever writes into a document field is the
`created_at: True` creation marker, which lives on the store side and is
modelled as a flag on the stored record.) -/
inductive Val where
  | vStr (s : Str)
  | vNull
deriving DecidableEq, Repr

/-- Update-or-append on an association list: the semantics of `d[k] = v` on a
Python dict (an existing key keeps its position; a new key is appended). -/
def assocUpd {α : Type} : List (Str × α) → Str → α → List (Str × α)
  | [], k, v => [(k, v)]
  | (k', v') :: rest, k, v =>
    if k' = k then (k, v) :: rest else (k', v') :: assocUpd rest k v

/-- A document: a Python dict with string keys, insertion-ordered. -/
abbrev Doc := List (Str × Val)

/-- Python `d.get(k)` (`None` both for a missing key and an explicit null is
distinguished here: `none` = missing, `some vNull` = explicit null). -/
def dget (d : Doc) (k : Str) : Option Val := (d.find? (·.1 == k)).map (·.2)

/-- Python `d[k] = v`. -/
def dset (d : Doc) (k : Str) (v : Val) : Doc := assocUpd d k v

/-- Python `d.setdefault(k, v)`. -/
def dsetdefault (d : Doc) (k : Str) (v : Val) : Doc :=
  if (dget d k).isSome then d else dset d k v

/-- The string the code obtains from `(r.get(k) or "")` (and from
`r.get(k, "")` fed into `content_hash`, whose `(text or "")` gives the same
result): the stored string, or `""` when the key is missing or null. -/
def dgetStr (d : Doc) (k : Str) : Str :=
  match dget d k with
  | some (.vStr s) => s
  | _ => []

/-! ## `utils/ingest.py`: the ingestion client -/

/-- One `update_one(filter, {"$set": r, "$setOnInsert": {"created_at": True}},
upsert=True)` call issued by the direct-store (mongo) path. -/
structure UpsertOp where
  field : Str
  value : Str
  doc : Doc
deriving DecidableEq, Repr

/-- The body of the mongo-mode loop for one document `r`: computes the
augmented (in-place mutated) document and the chosen upsert filter, or
`none` when the document is skipped (`continue`). -/
def mongoItem (r : Doc) : Doc × Option (Str × Str) :=
  let url := pyStrip (dgetStr r "url".toList)
  let url_canon := if url ≠ [] then canonicalize_url url else []
  let r1 := dsetdefault r "title".toList (.vStr [])
  let r2 := dsetdefault r1 "content".toList (.vStr [])
  let r3 := dsetdefault r2 "topic".toList (.vStr [])
  let r4 := dsetdefault r3 "source".toList (.vStr [])
  let r5 := dset r4 "url".toList (.vStr url)
  let r6 := dset r5 "url_canon".toList (.vStr url_canon)
  let h := content_hash (dgetStr r6 "content".toList)
  let r7 := match h with
    | some hv => dset r6 "content_hash".toList (.vStr hv)
    | none => r6
  -- `if url_canon: … elif h: … else: if not url: continue; …`
  -- (`h` is `None` or a 64-character hex digest, so Python truthiness of `h`
  -- coincides with `h.isSome`)
  let key : Option (Str × Str) :=
    if url_canon ≠ [] then some ("url_canon".toList, url_canon)
    else match h with
    | some hv => some ("content_hash".toList, hv)
    | none => if url = [] then none else some ("url".toList, url)
  (r7, key)

/-- The whole mongo-mode loop: the caller's documents after the loop (each
dict is mutated in place), the upsert operations issued in order, and the
`upserts` counter. -/
def mongoLoop : List Doc → List Doc × List UpsertOp × Nat
  | [] => ([], [], 0)
  | r :: rest =>
    let ⟨r', key⟩ := mongoItem r
    let ⟨ds, ops, n⟩ := mongoLoop rest
    match key with
    | some kv => (r' :: ds, ⟨kv.1, kv.2, r'⟩ :: ops, n + 1)
    | none => (r' :: ds, ops, n)

/-- A stored record in the direct-store collection: its fields plus whether
the `created_at` marker was ever written (`$setOnInsert`). -/
structure StoredDoc where
  fields : Doc
  created_at : Bool
deriving DecidableEq, Repr

/-- The direct-store collection. -/
abbrev MStore := List StoredDoc

/-- Does a stored record match the upsert filter `{field: value}`? -/
def matchesFilter (sd : StoredDoc) (op : UpsertOp) : Bool :=
  dget sd.fields op.field == some (.vStr op.value)

/-- `$set`: write every field of `r` into the stored fields. -/
def applySet (fields : Doc) (r : Doc) : Doc :=
  r.foldl (fun acc kv => dset acc kv.1 kv.2) fields

/-- `update_one(filter, {"$set": r, "$setOnInsert": {"created_at": True}},
upsert=True)`: update the first matching record ($set only), or insert a
new record with the `created_at` marker. -/
def applyUpsert : MStore → UpsertOp → MStore
  | [], op => [⟨applySet [] op.doc, true⟩]
  | sd :: rest, op =>
    if matchesFilter sd op then ⟨applySet sd.fields op.doc, sd.created_at⟩ :: rest
    else sd :: applyUpsert rest op

/-- Outcome of one `requests.post(f"{BACKEND_URL}/ingest", json=…)` call:
a successful 2xx JSON response carrying `upserts`/`skipped` counts, or any
raised exception / non-2xx status. -/
inductive HttpResp where
  | ok (upserts skipped : Nat)
  | err
deriving DecidableEq, Repr

/-- The result dict of `ingest_items` / `_post_batches`. -/
inductive IngestResult where
  | httpOk (upserts skipped : Nat)   -- `{"ok": True, "upserts": u, "skipped": s}`
  | mongoOk (upserts : Nat)          -- `{"ok": True, "upserts": u, "mode": "mongo"}`
  | emptyOk                          -- `{"ok": True, "upserts": 0, "mode": MODE}`
  | queued (n : Nat)                 -- `{"ok": False, "queued": n, "outbox": …, "error": …}`
deriving DecidableEq, Repr

/-- Python's `ok` field of the result. -/
def IngestResult.isOk : IngestResult → Bool
  | .queued _ => false
  | _ => true

/-- Observable behaviour of `_post_batches`: the returned dict, the payload
of every POST issued (in order), the number of `time.sleep(2)` calls, the
documents appended to the outbox file, and the number of `alert` calls. -/
structure PostOut where
  result : IngestResult
  posts : List (List Doc)
  sleeps : Nat
  outbox : List Doc
  alerts : Nat
deriving DecidableEq, Repr

/-- `range(0, total, step)` for `step ≥ 1`. -/
def rangeStep (total step : Nat) : List Nat :=
  (List.range ((total + step - 1) / step)).map (· * step)

/-- The `for i in range(0, total, B)` loop of `_post_batches`, parameterised
by the network oracle `http i a` (outcome of the POST for the sub-batch
starting at `i`, attempt `a ∈ {0, 1}`).  Each POST's payload is recorded:
the body is `json=items` — the whole list — even though the sub-batch
`batch = items[i:i+B]` is computed (and left unused) by the source. -/
def postBatchesGo (http : Nat → Nat → HttpResp) (items : List Doc) (B : Nat) :
    List Nat → Nat × Nat × List (List Doc) × Nat → PostOut
  | [], (u, s, posts, sleeps) => ⟨.httpOk u s, posts, sleeps, [], 0⟩
  | i :: rest, (u, s, posts, sleeps) =>
    let batch := (items.drop i).take B
    match http i 0 with
    | .ok du ds => postBatchesGo http items B rest (u + du, s + ds, posts ++ [items], sleeps)
    | .err =>
      -- `if attempt == 0: time.sleep(2)`, then the second attempt
      match http i 1 with
      | .ok du ds =>
        postBatchesGo http items B rest (u + du, s + ds, posts ++ [items, items], sleeps + 1)
      | .err =>
        -- both attempts failed → outbox the remaining batches and alert
        let remaining := items.drop i
        ⟨.queued remaining.length, posts ++ [items, items], sleeps + 1, remaining, 1⟩

/-- `_post_batches(items)`.  The best-effort `_warm_up_backend()` GET has no
observable effect on any result and is not modelled. -/
def _post_batches (http : Nat → Nat → HttpResp) (B : Nat) (items : List Doc) : PostOut :=
  if items.length = 0 then ⟨.httpOk 0 0, [], 0, [], 0⟩
  else postBatchesGo http items B (rangeStep items.length B) (0, 0, [], 0)

/-- The sink mode (`INGEST_MODE` env var): `"http"` or `"mongo"`. -/
inductive Mode where
  | http
  | mongo
deriving DecidableEq, Repr

/-- Observable behaviour of one `ingest_items` call: the returned dict, the
state of the caller's list of documents after the call (mongo mode mutates
the dicts in place), the POSTs issued, the sleeps, the outbox appends, the
alerts, and the upsert operations issued against the direct store. -/
structure IngestOut where
  result : IngestResult
  itemsAfter : List Doc
  posts : List (List Doc)
  sleeps : Nat
  outbox : List Doc
  alerts : Nat
  store : List UpsertOp
deriving DecidableEq, Repr

/-- `ingest_items(items)` from `utils/ingest.py`, parameterised by the mode,
whether `MONGO_URI` is configured, the HTTP oracle and `INGEST_BATCH_SIZE`.
Mongo-store round trips are modelled as non-raising (an exception would
route through the same outer handler that queues everything to the outbox
and alerts, exactly as the missing-`MONGO_URI` case does). -/
def ingest_items (mode : Mode) (mongoUriSet : Bool) (http : Nat → Nat → HttpResp)
    (B : Nat) (items : List Doc) : IngestOut :=
  if items = [] then ⟨.emptyOk, items, [], 0, [], 0, []⟩
  else match mode with
  | .mongo =>
    if ¬ mongoUriSet then
      -- `raise RuntimeError("MONGO_URI missing for direct ingest")`, caught by
      -- the outer `except`: outbox everything, alert, return not-ok
      ⟨.queued items.length, items, [], 0, items, 1, []⟩
    else
      let ⟨items', ops, n⟩ := mongoLoop items
      ⟨.mongoOk n, items', [], 0, [], 0, ops⟩
  | .http =>
    let p := _post_batches http B items
    ⟨p.result, items, p.posts, p.sleeps, p.outbox, p.alerts, []⟩

/-! ## `replay_outbox.py` -/

/-- `_dedupe_by_url(items)`: a Python dict keyed on the raw stripped `url`
(records with an empty or missing `url` never enter the dict), then
`list(by_url.values())` — last write wins, keys keep first-insertion
order. -/
def _dedupe_by_url (items : List Doc) : List Doc :=
  (items.foldl
    (fun m r =>
      let url := pyStrip (dgetStr r "url".toList)
      if url ≠ [] then assocUpd m url r else m)
    []).map (·.2)

/-- Did the retry loop for the chunk starting at `i` ever see a successful
`ingest_items` result?  `ok i a` is the oracle outcome of attempt
`a ∈ {1, …, maxRetries}` (an exception and a `{"ok": False}` result are
both failures). -/
def chunkDelivered (ok : Nat → Nat → Bool) (i maxRetries : Nat) : Bool :=
  (List.range maxRetries).any fun a => ok i (a + 1)

/-- Observable behaviour of one replay run: the chunks that were delivered
(final `ingest_items` result ok), the records appended back to the live
outbox, and the process exit code. -/
structure ReplayOut where
  delivered : List (List Doc)
  requeued : List Doc
  exitCode : Nat
deriving DecidableEq, Repr

/-- `main()` from `replay_outbox.py`, given the records successfully parsed
from the claimed outbox file (`_iter_jsonl` — malformed lines already
skipped) and the per-chunk/per-attempt delivery oracle.  The requeue write
is modelled as succeeding; when it raises, the source also exits 2 with
the failed chunks non-empty, so the exit-code contract is unchanged. -/
def replay_main (chunkSize maxRetries : Nat) (ok : Nat → Nat → Bool)
    (outboxExists : Bool) (pending0 : List Doc) : ReplayOut :=
  if ¬ outboxExists then ⟨[], [], 0⟩          -- "No outbox."
  else if pending0 = [] then ⟨[], [], 0⟩      -- "Outbox empty."
  else
    let pending := _dedupe_by_url pending0
    let starts := rangeStep pending.length chunkSize
    let df := starts.foldl
      (fun (acc : List (List Doc) × List Doc) i =>
        let chunk := (pending.drop i).take chunkSize
        if chunkDelivered ok i maxRetries then (acc.1 ++ [chunk], acc.2)
        else (acc.1, acc.2 ++ chunk))
      ([], [])
    ⟨df.1, df.2, if df.2 = [] then 0 else 2⟩

/-! ## Named pieces of the mongo-mode loop body (for the theorems below) -/

/-- The `url` local of the mongo loop body: `(r.get("url") or "").strip()`. -/
def mongoUrl (r : Doc) : Str := pyStrip (dgetStr r "url".toList)

/-- The `url_canon` local: `canonicalize_url(url) if url else ""`. -/
def mongoCanon (r : Doc) : Str :=
  if mongoUrl r ≠ [] then canonicalize_url (mongoUrl r) else []

/-- The `h` local: `content_hash(r.get("content", ""))` (the defaulting
`setdefault` calls and the `url`/`url_canon` writes that precede it do not
change the `content` value the hash reads). -/
def mongoHash (r : Doc) : Option Str := content_hash (dgetStr r "content".toList)

/-- The raw-url key of a replay outbox record: `(r.get("url") or "").strip()`,
as used by `_dedupe_by_url`. -/
def urlKey (r : Doc) : Str := pyStrip (dgetStr r "url".toList)

/-- Keep the first occurrence of every element, in order (the key order of a
Python dict built by repeated insertion). -/
def firstDedup : List Str → List Str
  | [] => []
  | u :: us => u :: (firstDedup us).filter (· ≠ u)

/-- Declarative description of `_dedupe_by_url` (the amended C6): the
surviving records are indexed by the distinct non-empty raw url keys in
order of first occurrence, and each key maps to the **last** record in
input order bearing it. -/
def dedupeSpec (items : List Doc) : List Doc :=
  (firstDedup ((items.map urlKey).filter (· ≠ []))).filterMap
    fun u => items.reverse.find? fun r => urlKey r == u

/-! ## Characterisations of the percent-encoding pipeline (proof artefacts) -/

/-- Scanning characterisation of `unquote_to_bytes` (proved equal to the
split-on-`%` form in the lemmas below): `%XY` with two hex digits becomes
one byte, any other `%` stays literal. -/
def unquoteScanGo : Nat → Bytes → Bytes
  | _, [] => []
  | 0, bs => bs
  | fuel + 1, 37 :: h1 :: h2 :: rest' =>
    match hexByteVal h1, hexByteVal h2 with
    | some v1, some v2 => (v1 * 16 + v2) :: unquoteScanGo fuel rest'
    | _, _ => 37 :: unquoteScanGo fuel (h1 :: h2 :: rest')
  | fuel + 1, 37 :: rest => 37 :: unquoteScanGo fuel rest
  | fuel + 1, b :: rest => b :: unquoteScanGo fuel rest

/-- Entry point of the scanning characterisation. -/
def unquoteScan (bs : Bytes) : Bytes := unquoteScanGo bs.length bs

/-- Is the byte of this character in `_ALWAYS_SAFE` (never percent-encoded
with `safe=''`)? -/
def safeChar (c : Char) : Bool := alwaysSafeByte c.toNat

/-- Per-character form of `quote_plus(s, safe='')` for ASCII strings:
safe characters pass through, space becomes `+`, everything else becomes
an upper-case percent escape. -/
def encChar (c : Char) : Str :=
  if safeChar c then [c] else if c = ' ' then ['+'] else percentEscape c.toNat

/-- Per-string form of `quote_plus(s, safe='')` for ASCII strings. -/
def encStr (s : Str) : Str := s.flatMap encChar

/-! ## Concrete instances used by witnesses and counterexamples -/

/-- Build a document from string fields. -/
def mkD (l : List (String × String)) : Doc :=
  l.map fun p => (p.1.toList, Val.vStr p.2.toList)

/-- HTTP oracle: every POST succeeds with one upsert. -/
def oracleOk : Nat → Nat → HttpResp := fun _ _ => .ok 1 0

/-- HTTP oracle: both attempts fail for every sub-batch starting at index
`≥ 2`; earlier sub-batches succeed. -/
def oracleFailFrom2 : Nat → Nat → HttpResp :=
  fun i _ => if 2 ≤ i then .err else .ok 1 0

/-- Replay oracle: every chunk succeeds on the first attempt. -/
def replayOk : Nat → Nat → Bool := fun _ _ => true

/-- Documents for the remote-sink scenarios. -/
def docA : Doc := mkD [("url", "http://a.example/1"), ("content", "alpha")]

def docB : Doc := mkD [("url", "http://a.example/2"), ("content", "beta")]

def docC : Doc := mkD [("url", "http://a.example/3"), ("content", "gamma")]

def docD : Doc := mkD [("url", "http://a.example/4"), ("content", "delta")]

/-- A parsed outbox record with no `url` field at all. -/
def docNoUrl : Doc := mkD [("title", "orphan")]

/-- A document for the mongo-mode mutation counterexample. -/
def docM : Doc := mkD [("url", "http://www.A.com/x/"), ("content", "x")]

/-- Two outbox records whose raw urls differ but canonicalize identically. -/
def recWww : Doc := mkD [("url", "http://www.a.com/"), ("title", "1")]

def recBare : Doc := mkD [("url", "http://a.com/"), ("title", "2")]


def sdK : StoredDoc := ⟨[("url_canon".toList, Val.vStr "u".toList)], false⟩

def opK : UpsertOp := ⟨"url_canon".toList, "u".toList, mkD [("url_canon", "u"), ("title", "t")]⟩

/-! # Lemmas: Python-dict association lists -/

/-- The per-byte output of `quote_plus(s, safe='')` followed by the query
parser's `+` → space replacement: a safe byte stays itself, a space stays a
space, anything else is a percent escape.  (Worker for the `parse_qsl` ∘
`urlencode` round-trip proofs; not part of the embedded code.) -/
def decPlusByte (b : Nat) : Str :=
  if alwaysSafeByte b then [Char.ofNat b]
  else if b = 32 then [' ']
  else percentEscape b

/-- Byte-level image of `decPlusByte` under ASCII UTF-8 encoding. -/
def decPlusBytes (b : Nat) : Bytes :=
  if alwaysSafeByte b then [b]
  else if b = 32 then [32]
  else [37, (hexUpperDigit (b / 16)).toNat, (hexUpperDigit (b % 16)).toNat]

/-- Character class of everything `quote_plus(s, '')` can emit: safe
characters, `+`, `%`, and upper-case hex digits. -/
def quotedChar (x : Char) : Bool :=
  alwaysSafeByte x.toNat || x == '+' || x == '%' ||
  (48 ≤ x.toNat && x.toNat ≤ 57) || (65 ≤ x.toNat && x.toNat ≤ 70)

theorem assocUpd_find?_eq {β : Type} (m : List (Str × β)) (k : Str) (v : β) :
    (assocUpd m k v).find? (·.1 == k) = some (k, v) := by
  induction m with
  | nil => simp [assocUpd]
  | cons p rest ih =>
    obtain ⟨k', v'⟩ := p
    by_cases h : k' = k
    · subst h
      simp [assocUpd]
    · have hb : (k' == k) = false := by simpa using h
      simp [assocUpd, h, List.find?, hb, ih]

theorem assocUpd_find?_ne {β : Type} (m : List (Str × β)) (k k' : Str) (v : β)
    (h : k' ≠ k) : (assocUpd m k v).find? (·.1 == k') = m.find? (·.1 == k') := by
  have hkk : (k == k') = false := by simpa using fun e => h e.symm
  induction m with
  | nil => simp [assocUpd, List.find?, hkk]
  | cons p rest ih =>
    obtain ⟨k0, v0⟩ := p
    by_cases hk : k0 = k
    · subst hk
      simp [assocUpd, List.find?, hkk]
    · by_cases hk' : k0 = k'
      · subst hk'
        simp [assocUpd, hk, List.find?]
      · have hb : (k0 == k') = false := by simpa using hk'
        simp [assocUpd, hk, List.find?, hb, ih]

theorem dget_dset_eq (d : Doc) (k : Str) (v : Val) : dget (dset d k v) k = some v := by
  simp [dget, dset, assocUpd_find?_eq]

theorem dget_dset_ne (d : Doc) (k k' : Str) (v : Val) (h : k' ≠ k) :
    dget (dset d k v) k' = dget d k' := by
  simp [dget, dset, assocUpd_find?_ne _ _ _ _ h]

theorem dget_dsetdefault_ne (d : Doc) (k k' : Str) (v : Val) (h : k' ≠ k) :
    dget (dsetdefault d k v) k' = dget d k' := by
  unfold dsetdefault
  split
  · rfl
  · exact dget_dset_ne d k k' v h

theorem dgetStr_dset_ne (d : Doc) (k k' : Str) (v : Val) (h : k' ≠ k) :
    dgetStr (dset d k v) k' = dgetStr d k' := by
  simp [dgetStr, dget_dset_ne d k k' v h]

theorem dgetStr_dsetdefault_ne (d : Doc) (k k' : Str) (v : Val) (h : k' ≠ k) :
    dgetStr (dsetdefault d k v) k' = dgetStr d k' := by
  simp [dgetStr, dget_dsetdefault_ne d k k' v h]

theorem dgetStr_dsetdefault_empty (d : Doc) (k : Str) :
    dgetStr (dsetdefault d k (.vStr [])) k = dgetStr d k := by
  unfold dsetdefault
  split
  · rfl
  · next hn =>
    simp only [dgetStr, dget_dset_eq]
    cases hd : dget d k
    · rfl
    · rw [hd] at hn
      simp at hn

/-! # Lemmas: the mongo-mode loop body -/

theorem mongoUrl_fold (r : Doc) : pyStrip (dgetStr r "url".toList) = mongoUrl r := rfl

theorem mongoCanon_fold (r : Doc) :
    (if mongoUrl r ≠ [] then canonicalize_url (mongoUrl r) else []) = mongoCanon r := rfl

theorem mongoHash_fold (r : Doc) :
    content_hash (dgetStr r "content".toList) = mongoHash r := rfl

theorem mongoItem_content (r : Doc) :
    dgetStr
      (dset
        (dset
          (dsetdefault (dsetdefault (dsetdefault (dsetdefault r "title".toList (.vStr []))
            "content".toList (.vStr [])) "topic".toList (.vStr [])) "source".toList (.vStr []))
          "url".toList (.vStr (mongoUrl r)))
        "url_canon".toList (.vStr (mongoCanon r)))
      "content".toList = dgetStr r "content".toList := by
  rw [dgetStr_dset_ne _ _ _ _ (by decide), dgetStr_dset_ne _ _ _ _ (by decide),
      dgetStr_dsetdefault_ne _ _ _ _ (by decide), dgetStr_dsetdefault_ne _ _ _ _ (by decide),
      dgetStr_dsetdefault_empty, dgetStr_dsetdefault_ne _ _ _ _ (by decide)]

theorem mongoItem_snd (r : Doc) :
    (mongoItem r).2 =
      if mongoCanon r ≠ [] then some ("url_canon".toList, mongoCanon r)
      else
        match mongoHash r with
        | some hv => some ("content_hash".toList, hv)
        | none => if mongoUrl r = [] then none else some ("url".toList, mongoUrl r) := by
  simp only [mongoItem]
  rw [mongoUrl_fold, mongoCanon_fold, mongoItem_content, mongoHash_fold]

theorem mongoItem_url_canon (r : Doc) :
    dget (mongoItem r).1 "url_canon".toList = some (.vStr (mongoCanon r)) := by
  simp only [mongoItem]
  rw [mongoUrl_fold, mongoCanon_fold, mongoItem_content, mongoHash_fold]
  cases hm : mongoHash r
  · exact dget_dset_eq _ _ _
  · rw [dget_dset_ne _ _ _ _ (by decide)]
    exact dget_dset_eq _ _ _

theorem mongoItem_content_hash (r : Doc) (hv : Str) (h : mongoHash r = some hv) :
    dget (mongoItem r).1 "content_hash".toList = some (.vStr hv) := by
  simp only [mongoItem]
  rw [mongoUrl_fold, mongoCanon_fold, mongoItem_content, mongoHash_fold, h]
  exact dget_dset_eq _ _ _

theorem mongoLoop_cons (r : Doc) (rest : List Doc) :
    mongoLoop (r :: rest) =
      match (mongoItem r).2 with
      | some kv => ((mongoItem r).1 :: (mongoLoop rest).1,
          UpsertOp.mk kv.1 kv.2 (mongoItem r).1 :: (mongoLoop rest).2.1,
          (mongoLoop rest).2.2 + 1)
      | none =>
          ((mongoItem r).1 :: (mongoLoop rest).1, (mongoLoop rest).2.1,
           (mongoLoop rest).2.2) := by
  show (let ⟨r', key⟩ := mongoItem r
        let ⟨ds, ops, n⟩ := mongoLoop rest
        match key with
        | some kv => (r' :: ds, UpsertOp.mk kv.1 kv.2 r' :: ops, n + 1)
        | none => (r' :: ds, ops, n)) = _
  obtain ⟨r', key⟩ := mongoItem r
  obtain ⟨ds, ops, n⟩ := mongoLoop rest
  rfl

theorem mongoLoop_fst (items : List Doc) :
    (mongoLoop items).1 = items.map fun r => (mongoItem r).1 := by
  induction items with
  | nil => rfl
  | cons r rest ih =>
    rw [mongoLoop_cons]
    cases hk : (mongoItem r).2 <;> simp [ih]

theorem mongoLoop_ops (items : List Doc) :
    (mongoLoop items).2.1 = items.filterMap fun r =>
      ((mongoItem r).2).map fun kv => UpsertOp.mk kv.1 kv.2 (mongoItem r).1 := by
  induction items with
  | nil => rfl
  | cons r rest ih =>
    rw [mongoLoop_cons, List.filterMap_cons]
    cases hk : (mongoItem r).2 <;> simp [hk, ih]

theorem mongoLoop_count (items : List Doc) :
    (mongoLoop items).2.2 = (mongoLoop items).2.1.length := by
  induction items with
  | nil => rfl
  | cons r rest ih =>
    rw [mongoLoop_cons]
    cases hk : (mongoItem r).2 <;> simp [ih]

theorem dget_cons_self (k : Str) (v : Val) (d : Doc) : dget ((k, v) :: d) k = some v := by
  have hbt : (((k, v) : Str × Val).1 == k) = true := by simp
  simp only [dget, List.find?]
  rw [hbt]
  rfl

theorem dget_cons_ne (k0 : Str) (v0 : Val) (d : Doc) (k : Str) (h : k ≠ k0) :
    dget ((k0, v0) :: d) k = dget d k := by
  have hbf : (((k0, v0) : Str × Val).1 == k) = false := by simpa using fun e => h e.symm
  simp only [dget, List.find?]
  rw [hbf]

theorem dget_applySet_not_mem (f r : Doc) (k : Str) (h : k ∉ r.map Prod.fst) :
    dget (applySet f r) k = dget f k := by
  induction r generalizing f with
  | nil => rfl
  | cons p rest ih =>
    obtain ⟨k0, v0⟩ := p
    have hk : k ≠ k0 := fun e => h (by rw [e]; exact List.mem_cons_self _ _)
    have hrest : k ∉ rest.map Prod.fst := fun hm => h (List.mem_cons_of_mem _ hm)
    show dget (applySet (dset f k0 v0) rest) k = dget f k
    rw [ih _ hrest, dget_dset_ne _ _ _ _ hk]

theorem dget_applySet_mem (f r : Doc) (k : Str) (v : Val)
    (hv : dget r k = some v) (hnd : (r.map Prod.fst).Nodup) :
    dget (applySet f r) k = some v := by
  induction r generalizing f with
  | nil => simp [dget] at hv
  | cons p rest ih =>
    obtain ⟨k0, v0⟩ := p
    have hnd' := List.nodup_cons.mp hnd
    by_cases hk : k0 = k
    · subst hk
      rw [dget_cons_self] at hv
      obtain rfl : v0 = v := by injection hv
      show dget (applySet (dset f k0 v0) rest) k0 = some v0
      rw [dget_applySet_not_mem _ _ _ hnd'.1, dget_dset_eq]
    · rw [dget_cons_ne _ _ _ _ (fun e => hk e.symm)] at hv
      exact ih (dset f k0 v0) hv hnd'.2

theorem applyUpsert_insert (st : MStore) (op : UpsertOp)
    (h : ∀ sd ∈ st, matchesFilter sd op = false) :
    applyUpsert st op = st ++ [⟨applySet [] op.doc, true⟩] := by
  induction st with
  | nil => rfl
  | cons sd rest ih =>
    have h1 := h sd (by simp)
    show (if matchesFilter sd op then _ else sd :: applyUpsert rest op) = _
    rw [if_neg (by simp [h1]), ih (fun x hx => h x (by simp [hx]))]
    rfl

theorem applyUpsert_update (pre : MStore) (sd : StoredDoc) (post : MStore) (op : UpsertOp)
    (hpre : ∀ sd' ∈ pre, matchesFilter sd' op = false)
    (hm : matchesFilter sd op = true) :
    applyUpsert (pre ++ sd :: post) op =
      pre ++ ⟨applySet sd.fields op.doc, sd.created_at⟩ :: post := by
  induction pre with
  | nil =>
    show (if matchesFilter sd op then _ else _) = _
    rw [if_pos (by simp [hm])]
    rfl
  | cons sd' rest ih =>
    have h1 := hpre sd' (by simp)
    show (if matchesFilter sd' op then _ else sd' :: applyUpsert (rest ++ sd :: post) op) = _
    rw [if_neg (by simp [h1]), ih (fun x hx => hpre x (by simp [hx]))]
    rfl

theorem ingest_http_itemsAfter (muri : Bool) (http : Nat → Nat → HttpResp) (B : Nat)
    (items : List Doc) : (ingest_items .http muri http B items).itemsAfter = items := by
  cases items <;> rfl

theorem ingest_mongo_itemsAfter (http : Nat → Nat → HttpResp) (B : Nat) (items : List Doc) :
    (ingest_items .mongo true http B items).itemsAfter = items.map fun r => (mongoItem r).1 := by
  cases items with
  | nil => rfl
  | cons r rest =>
    have step : (ingest_items .mongo true http B (r :: rest)).itemsAfter =
        (mongoLoop (r :: rest)).1 := by
      show (let ⟨items', ops, n⟩ := mongoLoop (r :: rest)
            (⟨.mongoOk n, items', [], 0, [], 0, ops⟩ : IngestOut)).itemsAfter = _
      obtain ⟨a, b, c⟩ := mongoLoop (r :: rest)
      rfl
    rw [step, mongoLoop_fst]

theorem postBatchesGo_posts (http : Nat → Nat → HttpResp) (items : List Doc) (B : Nat)
    (starts : List Nat) (u s sleeps : Nat) (posts : List (List Doc))
    (hp : ∀ p ∈ posts, p = items) :
    ∀ p ∈ (postBatchesGo http items B starts (u, s, posts, sleeps)).posts, p = items := by
  induction starts generalizing u s posts sleeps with
  | nil => exact hp
  | cons i rest ih =>
    show ∀ p ∈ (match http i 0 with
      | .ok du ds => postBatchesGo http items B rest (u + du, s + ds, posts ++ [items], sleeps)
      | .err => match http i 1 with
        | .ok du ds =>
            postBatchesGo http items B rest (u + du, s + ds, posts ++ [items, items], sleeps + 1)
        | .err => ⟨.queued (items.drop i).length, posts ++ [items, items], sleeps + 1,
            items.drop i, 1⟩).posts, p = items
    have hp2 : ∀ p ∈ posts ++ [items, items], p = items := by
      intro p hm
      rcases List.mem_append.mp hm with h | h
      · exact hp p h
      · rcases List.mem_cons.mp h with h1 | h1
        · exact h1
        · simpa using h1
    cases http i 0 with
    | ok du ds =>
      refine ih _ _ _ _ ?_
      intro p hm
      rcases List.mem_append.mp hm with h | h
      · exact hp p h
      · simpa using h
    | err =>
      cases http i 1 with
      | ok du ds => exact ih _ _ _ _ hp2
      | err => exact hp2

theorem post_batches_posts (http : Nat → Nat → HttpResp) (B : Nat) (items : List Doc) :
    ∀ p ∈ (_post_batches http B items).posts, p = items := by
  unfold _post_batches
  split
  · intro p hm
    simp at hm
  · exact postBatchesGo_posts http items B _ 0 0 0 [] (by intro p hm; simp at hm)

theorem ingest_http_posts (muri : Bool) (http : Nat → Nat → HttpResp) (B : Nat)
    (items : List Doc) :
    ∀ p ∈ (ingest_items .http muri http B items).posts, p = items := by
  cases items with
  | nil => intro p hm; simp [ingest_items] at hm
  | cons r rest =>
    intro p hm
    exact post_batches_posts http B (r :: rest) p hm

/-- C7: in direct-store (mongo) mode the upsert key is chosen by strict
priority — `url_canon` if non-empty, else `content_hash` if non-null, else
the raw stripped `url` if non-empty; a document with none of the three is
skipped (no upsert operation, not counted in `upserts`, which equals the
number of operations issued); each upsert `$set`s the full document while
the `created_at` marker is written only on insert. -/
theorem C7_direct_store_upsert :
    (∀ r : Doc,
      (mongoItem r).2 =
        if mongoCanon r ≠ [] then some ("url_canon".toList, mongoCanon r)
        else
          match mongoHash r with
          | some hv => some ("content_hash".toList, hv)
          | none => if mongoUrl r = [] then none else some ("url".toList, mongoUrl r)) ∧
    (∀ items : List Doc,
        (mongoLoop items).2.2 = (mongoLoop items).2.1.length ∧
        (mongoLoop items).2.1 = items.filterMap fun r =>
          ((mongoItem r).2).map fun kv => UpsertOp.mk kv.1 kv.2 (mongoItem r).1) ∧
    (∀ (st : MStore) (op : UpsertOp), (∀ sd ∈ st, matchesFilter sd op = false) →
        applyUpsert st op = st ++ [⟨applySet [] op.doc, true⟩]) ∧
    (∀ (pre : MStore) (sd : StoredDoc) (post : MStore) (op : UpsertOp),
        (∀ sd' ∈ pre, matchesFilter sd' op = false) → matchesFilter sd op = true →
        applyUpsert (pre ++ sd :: post) op =
          pre ++ ⟨applySet sd.fields op.doc, sd.created_at⟩ :: post) ∧
    (∀ (f r : Doc) (k : Str) (v : Val), dget r k = some v → (r.map Prod.fst).Nodup →
        dget (applySet f r) k = some v) :=
  ⟨mongoItem_snd, fun items => ⟨mongoLoop_count items, mongoLoop_ops items⟩,
   applyUpsert_insert, applyUpsert_update, dget_applySet_mem⟩

/-- Witness for C7 at concrete inputs. -/
theorem C7_direct_store_upsert_witness :
    applyUpsert [sdK] opK = [⟨applySet sdK.fields opK.doc, sdK.created_at⟩] ∧
    applyUpsert [] opK = [⟨applySet [] opK.doc, true⟩] ∧
    dget (applySet [] opK.doc) "title".toList = some (.vStr "t".toList) := by
  refine ⟨?_, ?_, ?_⟩
  · have h := C7_direct_store_upsert.2.2.2.1 [] sdK [] opK (by simp) (by decide)
    simpa using h
  · exact C7_direct_store_upsert.2.2.1 [] opK (by simp)
  · exact C7_direct_store_upsert.2.2.2.2 [] opK.doc "title".toList (.vStr "t".toList)
      (by decide) (by decide)

/-- C5 counterexample: in mongo mode the caller's dict is mutated in place
(`url_canon` is added to it), so the input sequence is not left unchanged. -/
theorem C5_no_mutation_cex :
    (ingest_items .mongo true oracleOk 20 [docM]).itemsAfter ≠ [docM] := by decide

/-- C5 (amended): in remote-sink (http) mode `ingest_items` leaves the
caller's documents unchanged; in direct-store (mongo) mode each document
dict is mutated in place by the augmentation, so after the call the
caller's list holds exactly the augmented documents. -/
theorem C5_mutation_by_mode :
    (∀ (muri : Bool) (http : Nat → Nat → HttpResp) (B : Nat) (items : List Doc),
        (ingest_items .http muri http B items).itemsAfter = items) ∧
    (∀ (http : Nat → Nat → HttpResp) (B : Nat) (items : List Doc),
        (ingest_items .mongo true http B items).itemsAfter =
          items.map fun r => (mongoItem r).1) :=
  ⟨ingest_http_itemsAfter, ingest_mongo_itemsAfter⟩

/-- C1 counterexample: in http mode documents are POSTed exactly as received
— the only payload sent for this one-document batch is the raw document,
which carries a non-empty `url` but no `url_canon` key (and no
`content_hash`), so it was not augmented before the delivery attempt. -/
theorem C1_augment_before_delivery_cex :
    (ingest_items .http true oracleOk 20 [docM]).posts = [[docM]] ∧
    mongoUrl docM ≠ [] ∧
    dget docM "url_canon".toList = none ∧
    dget docM "content_hash".toList = none := by decide

/-- C1 (amended): in mongo mode every document is augmented before its own
upsert — the upserted form always carries `url_canon` (the canonicalised
stripped url, empty when the url is empty) and carries `content_hash`
whenever the content fingerprint is non-null; in http mode every POST
payload is exactly the caller's list, with no augmentation. -/
theorem C1_augmentation_by_mode :
    (∀ r : Doc,
        dget (mongoItem r).1 "url_canon".toList = some (.vStr (mongoCanon r)) ∧
        ∀ hv, mongoHash r = some hv →
          dget (mongoItem r).1 "content_hash".toList = some (.vStr hv)) ∧
    (∀ (muri : Bool) (http : Nat → Nat → HttpResp) (B : Nat) (items : List Doc),
        ∀ p ∈ (ingest_items .http muri http B items).posts, p = items) :=
  ⟨fun r => ⟨mongoItem_url_canon r, fun hv h => mongoItem_content_hash r hv h⟩,
   ingest_http_posts⟩

/-- Witness for C1 (amended) at a concrete document. -/
theorem C1_augmentation_by_mode_witness :
    dget (mongoItem docM).1 "url_canon".toList = some (.vStr (mongoCanon docM)) ∧
    dget (mongoItem docM).1 "content_hash".toList =
      some (.vStr "2d711642b726b04401627ca9fbac32f5c8530fb1903cc4db02258717921a4881".toList) := by
  refine ⟨(C1_augmentation_by_mode.1 docM).1, ?_⟩
  exact (C1_augmentation_by_mode.1 docM).2 _ (by decide)

/-- C2: with `INGEST_BATCH_SIZE = 2` and a batch of three documents, the
loop runs two iterations but every POST body is the **whole** augmented
list (`json=items`), not the current sub-batch (`batch` is computed and
never used) — so each request does not carry exactly the sub-batch's
documents. -/
theorem C2_posts_whole_list :
    (_post_batches oracleOk 2 [docA, docB, docC]).posts =
      [[docA, docB, docC], [docA, docB, docC]] ∧
    ([docA, docB, docC] : List Doc) ≠ [docA, docB] ∧
    ([docA, docB, docC] : List Doc) ≠ [docC] := by decide

/-- C4: with `INGEST_BATCH_SIZE = 2`, four documents and both attempts for
the sub-batch starting at index 2 failing, `_post_batches` appends exactly
the documents from the failed sub-batch to the end (`items[2:]`) to the
outbox, fires one alert and returns not-ok with `queued = 2`; but the two
POST attempts for the failed sub-batch each carried the whole list —
including the already-delivered first sub-batch. -/
theorem C4_fail_fast_preserve :
    _post_batches oracleFailFrom2 2 [docA, docB, docC, docD] =
      ⟨.queued 2,
       [[docA, docB, docC, docD], [docA, docB, docC, docD], [docA, docB, docC, docD]],
       1, [docC, docD], 1⟩ ∧
    docA ∈ ((_post_batches oracleFailFrom2 2 [docA, docB, docC, docD]).posts.getLastD []) := by
  decide

theorem rangeStep_mem (n cs q : Nat) (hcs : 1 ≤ cs) (hq : (q + 1) * cs ≤ n + cs - 1) :
    q * cs ∈ rangeStep n cs := by
  unfold rangeStep
  refine List.mem_map.mpr ⟨q, List.mem_range.mpr ?_, rfl⟩
  have h2 : q + 1 ≤ (n + cs - 1) / cs := (Nat.le_div_iff_mul_le (by omega)).mpr hq
  omega

theorem chunk_cover {α : Type} (cs : Nat) (hcs : 1 ≤ cs) (l : List α) (r : α) (hr : r ∈ l) :
    ∃ i ∈ rangeStep l.length cs, r ∈ (l.drop i).take cs := by
  obtain ⟨j, hj, hget⟩ := List.mem_iff_getElem.mp hr
  obtain ⟨q, m, hm, hqm⟩ : ∃ q m, m < cs ∧ j = q * cs + m :=
    ⟨j / cs, j % cs, Nat.mod_lt j (by omega), by
      rw [Nat.mul_comm]
      exact (Nat.div_add_mod j cs).symm⟩
  subst hqm
  have hrange : (q + 1) * cs ≤ l.length + cs - 1 := by
    have hx : (q + 1) * cs = q * cs + cs := by ring
    omega
  refine ⟨q * cs, rangeStep_mem l.length cs q hcs hrange, ?_⟩
  have hlen : m < ((l.drop (q * cs)).take cs).length := by
    simp only [List.length_take, List.length_drop]
    omega
  refine List.mem_iff_getElem.mpr ⟨m, hlen, ?_⟩
  rw [List.getElem_take, List.getElem_drop]
  exact hget

theorem replay_fold (pending : List Doc) (cs mr : Nat) (ok : Nat → Nat → Bool)
    (starts : List Nat) (d0 : List (List Doc)) (f0 : List Doc) :
    starts.foldl
      (fun (acc : List (List Doc) × List Doc) i =>
        let chunk := (pending.drop i).take cs
        if chunkDelivered ok i mr then (acc.1 ++ [chunk], acc.2)
        else (acc.1, acc.2 ++ chunk))
      (d0, f0) =
    (d0 ++ (starts.filter (fun i => chunkDelivered ok i mr)).map
        (fun i => (pending.drop i).take cs),
     f0 ++ (starts.filter (fun i => ¬ chunkDelivered ok i mr)).flatMap
        (fun i => (pending.drop i).take cs)) := by
  induction starts generalizing d0 f0 with
  | nil => simp
  | cons i rest ih =>
    simp only [List.foldl_cons]
    by_cases hg : chunkDelivered ok i mr
    · rw [if_pos hg, ih]
      rw [List.filter_cons_of_pos (by simp [hg])]
      rw [List.filter_cons_of_neg (by simp [hg])]
      simp [List.append_assoc]
    · rw [if_neg (by simp [hg]), ih]
      rw [List.filter_cons_of_neg (by simp [hg])]
      rw [List.filter_cons_of_pos (by simp [hg])]
      simp [List.append_assoc]

theorem replay_main_eq (cs mr : Nat) (ok : Nat → Nat → Bool) (pending0 : List Doc)
    (hne : pending0 ≠ []) :
    replay_main cs mr ok true pending0 =
      ⟨((rangeStep (_dedupe_by_url pending0).length cs).filter
          (fun i => chunkDelivered ok i mr)).map
          (fun i => ((_dedupe_by_url pending0).drop i).take cs),
        ((rangeStep (_dedupe_by_url pending0).length cs).filter
          (fun i => ¬ chunkDelivered ok i mr)).flatMap
          (fun i => ((_dedupe_by_url pending0).drop i).take cs),
        if ((rangeStep (_dedupe_by_url pending0).length cs).filter
            (fun i => ¬ chunkDelivered ok i mr)).flatMap
            (fun i => ((_dedupe_by_url pending0).drop i).take cs) = [] then 0 else 2⟩ := by
  unfold replay_main
  rw [if_neg (by simp), if_neg hne]
  dsimp only
  rw [replay_fold]
  simp

/-- C3 counterexample: the record `docNoUrl` is successfully parsed from the
claimed outbox (it is the whole pending list), yet the replay neither
delivers any chunk nor requeues anything — the record is silently dropped
by the url-keyed dedupe pass — and the process still exits 0. -/
theorem C3_replay_no_drop_cex :
    replay_main 200 3 replayOk true [docNoUrl] = ⟨[], [], 0⟩ ∧
    ([docNoUrl] : List Doc) ≠ [] := by decide

/-- C3 (amended): every record that survives the dedupe-by-raw-url pass
(which silently drops records whose stripped `url` is empty and keeps only
the last record per url) is either part of a delivered chunk or appended
back to the live outbox; and the process exits 0 exactly when no chunk
remained failed, 2 otherwise. -/
theorem C3_replay_accounting (cs mr : Nat) (ok : Nat → Nat → Bool)
    (pending0 : List Doc) (hcs : 1 ≤ cs) :
    (∀ r ∈ _dedupe_by_url pending0,
        (∃ ch ∈ (replay_main cs mr ok true pending0).delivered, r ∈ ch) ∨
        r ∈ (replay_main cs mr ok true pending0).requeued) ∧
    ((replay_main cs mr ok true pending0).exitCode =
      if (replay_main cs mr ok true pending0).requeued = [] then 0 else 2) := by
  by_cases hne : pending0 = []
  · subst hne
    constructor
    · intro r hr
      simp [_dedupe_by_url] at hr
    · rfl
  · rw [replay_main_eq cs mr ok pending0 hne]
    constructor
    · intro r hr
      obtain ⟨i, hi, hchunk⟩ :=
        chunk_cover cs hcs (_dedupe_by_url pending0) r hr
      by_cases hg : chunkDelivered ok i mr
      · left
        refine ⟨((_dedupe_by_url pending0).drop i).take cs, ?_, hchunk⟩
        exact List.mem_map.mpr ⟨i, List.mem_filter.mpr ⟨hi, hg⟩, rfl⟩
      · right
        refine List.mem_flatMap.mpr ⟨i, ?_, hchunk⟩
        exact List.mem_filter.mpr ⟨hi, by simp [hg]⟩
    · rfl

/-- Witness for C3 (amended) at a concrete one-record outbox. -/
theorem C3_replay_accounting_witness :
    ((∃ ch ∈ (replay_main 1 3 replayOk true [recWww]).delivered, recWww ∈ ch) ∨
      recWww ∈ (replay_main 1 3 replayOk true [recWww]).requeued) ∧
    ((replay_main 1 3 replayOk true [recWww]).exitCode =
      if (replay_main 1 3 replayOk true [recWww]).requeued = [] then 0 else 2) := by
  have h := C3_replay_accounting 1 3 replayOk [recWww] (by decide)
  exact ⟨h.1 recWww (by decide), h.2⟩

theorem mem_firstDedup (x : Str) (l : List Str) : x ∈ firstDedup l ↔ x ∈ l := by
  induction l with
  | nil => simp [firstDedup]
  | cons a l ih =>
    simp only [firstDedup, List.mem_cons]
    constructor
    · rintro (rfl | hx)
      · exact Or.inl rfl
      · exact Or.inr (ih.mp (List.mem_of_mem_filter hx))
    · rintro (rfl | hx)
      · exact Or.inl rfl
      · by_cases hxa : x = a
        · exact Or.inl hxa
        · exact Or.inr (List.mem_filter.mpr ⟨ih.mpr hx, by simpa using hxa⟩)

theorem firstDedup_nodup (l : List Str) : (firstDedup l).Nodup := by
  induction l with
  | nil => simp [firstDedup]
  | cons a l ih =>
    simp only [firstDedup]
    refine List.nodup_cons.mpr ⟨?_, List.Nodup.filter _ ih⟩
    intro ha
    have := (List.mem_filter.mp ha).2
    simp at this

theorem firstDedup_append_singleton (l : List Str) (u : Str) :
    firstDedup (l ++ [u]) = if u ∈ l then firstDedup l else firstDedup l ++ [u] := by
  induction l with
  | nil => simp [firstDedup]
  | cons a l ih =>
    show firstDedup (a :: (l ++ [u])) = _
    simp only [firstDedup]
    rw [ih]
    by_cases hu : u ∈ l
    · rw [if_pos hu, if_pos (by simp [hu])]
    · rw [if_neg hu]
      by_cases hua : u = a
      · subst hua
        rw [if_pos (by simp)]
        simp [List.filter_append]
      · rw [if_neg (by simp [hu, fun e => hua e])]
        simp [List.filter_append, hua]

theorem assocUpd_not_mem {β : Type} (m : List (Str × β)) (k : Str) (v : β)
    (h : k ∉ m.map Prod.fst) : assocUpd m k v = m ++ [(k, v)] := by
  induction m with
  | nil => rfl
  | cons p rest ih =>
    obtain ⟨k0, v0⟩ := p
    have hk : k0 ≠ k := fun e => h (by rw [← e]; exact List.mem_cons_self _ _)
    show assocUpd ((k0, v0) :: rest) k v = _
    simp only [assocUpd, if_neg hk]
    rw [ih (fun hm => h (List.mem_cons_of_mem _ hm))]
    rfl

theorem filterMap_keys (us : List Str) (fv : Str → Option Doc)
    (hsome : ∀ u ∈ us, (fv u).isSome) :
    (us.filterMap fun u => (fv u).map (Prod.mk u)).map Prod.fst = us := by
  induction us with
  | nil => rfl
  | cons a us' ih =>
    obtain ⟨va, hva⟩ := Option.isSome_iff_exists.mp (hsome a (by simp))
    rw [List.filterMap_cons, hva]
    simpa using ih fun u hu => hsome u (by simp [hu])

theorem assocUpd_filterMap (us : List Str) (fv : Str → Option Doc) (u0 : Str) (r : Doc)
    (hnd : us.Nodup) (hsome : ∀ u ∈ us, (fv u).isSome) (hmem : u0 ∈ us) :
    assocUpd (us.filterMap fun u => (fv u).map (Prod.mk u)) u0 r =
      us.filterMap fun u => (if u0 = u then some r else fv u).map (Prod.mk u) := by
  induction us with
  | nil => simp at hmem
  | cons a us' ih =>
    obtain ⟨va, hva⟩ := Option.isSome_iff_exists.mp (hsome a (by simp))
    have hnd' := List.nodup_cons.mp hnd
    by_cases ha : u0 = a
    · subst ha
      rw [List.filterMap_cons, List.filterMap_cons, hva, if_pos rfl]
      dsimp only [Option.map_some']
      simp only [assocUpd, if_true]
      congr 1
      refine List.filterMap_congr ?_
      intro u hu
      rw [if_neg ?_]
      intro e
      subst e
      exact hnd'.1 hu
    · rw [List.filterMap_cons, List.filterMap_cons, hva, if_neg ha]
      dsimp only [Option.map_some']
      simp only [assocUpd]
      rw [if_neg fun e => ha e.symm]
      congr 1
      refine ih hnd'.2 (fun u hu => hsome u (by simp [hu])) ?_
      rcases List.mem_cons.mp hmem with h | h
      · exact absurd h ha
      · exact h

theorem lastFind_isSome (items : List Doc) (u : Str)
    (hu : u ∈ (items.map urlKey).filter (· ≠ [])) :
    (items.reverse.find? fun x => urlKey x == u).isSome := by
  obtain ⟨x, hx, hxu⟩ := List.mem_map.mp (List.mem_of_mem_filter hu)
  refine List.find?_isSome.mpr ⟨x, List.mem_reverse.mpr hx, ?_⟩
  simp [hxu]

theorem mem_urls_ne_nil (items : List Doc) (u : Str)
    (hu : u ∈ (items.map urlKey).filter (· ≠ [])) : u ≠ [] := by
  have := List.of_mem_filter hu
  simpa using this

theorem dedupe_pairs_eq (items : List Doc) :
    items.foldl
      (fun m r =>
        let url := pyStrip (dgetStr r "url".toList)
        if url ≠ [] then assocUpd m url r else m)
      [] =
    (firstDedup ((items.map urlKey).filter (· ≠ []))).filterMap
      (fun u => (items.reverse.find? fun x => urlKey x == u).map (Prod.mk u)) := by
  induction items using List.reverseRecOn with
  | nil => rfl
  | append_singleton items r ih =>
    rw [List.foldl_append, List.foldl_cons, List.foldl_nil, ih]
    have hfold : pyStrip (dgetStr r "url".toList) = urlKey r := rfl
    rw [hfold]
    simp only [List.map_append, List.filter_append, List.reverse_append,
      List.map_cons, List.map_nil, List.filter_cons, List.filter_nil,
      List.reverse_cons, List.reverse_nil, List.nil_append, List.singleton_append]
    by_cases hu0 : urlKey r = []
    · rw [if_neg (by simp [hu0])]
      rw [if_neg (by simp [hu0]), List.append_nil]
      refine List.filterMap_congr ?_
      intro u hu
      have hune : u ≠ [] := mem_urls_ne_nil items u ((mem_firstDedup u _).mp hu)
      rw [List.find?_cons_of_neg]
      rw [hu0]
      simp
      exact hune
    · rw [if_pos (by simp [hu0]), if_pos (by simp [hu0])]
      rw [firstDedup_append_singleton]
      by_cases hmem : urlKey r ∈ (items.map urlKey).filter (· ≠ [])
      · rw [if_pos hmem]
        rw [assocUpd_filterMap _ _ _ _ (firstDedup_nodup _)
          (fun u hu => lastFind_isSome items u ((mem_firstDedup u _).mp hu))
          ((mem_firstDedup _ _).mpr hmem)]
        refine List.filterMap_congr ?_
        intro u hu
        by_cases he : urlKey r = u
        · rw [if_pos he, List.find?_cons_of_pos _ (by simp [he])]
        · rw [if_neg he, List.find?_cons_of_neg]
          simp [he]
      · rw [if_neg hmem]
        rw [assocUpd_not_mem]
        · have hsing : ([urlKey r].filterMap fun u =>
              ((r :: items.reverse).find? fun x => urlKey x == u).map (Prod.mk u)) =
              [(urlKey r, r)] := by
            rw [List.filterMap_cons, List.find?_cons_of_pos _ (by simp)]
            simp
          rw [List.filterMap_append, hsing]
          congr 1
          refine List.filterMap_congr ?_
          intro u hu
          have hne : urlKey r ≠ u := by
            intro e
            exact hmem (e ▸ (mem_firstDedup u _).mp hu)
          rw [List.find?_cons_of_neg]
          simp [hne]
        · rw [filterMap_keys _ _
            (fun u hu => lastFind_isSome items u ((mem_firstDedup u _).mp hu))]
          exact fun hm => hmem ((mem_firstDedup _ _).mp hm)

theorem filterMap_map_snd (us : List Str) (fv : Str → Option Doc) :
    ((us.filterMap fun u => (fv u).map (Prod.mk u)).map (·.2)) = us.filterMap fv := by
  induction us with
  | nil => rfl
  | cons a us' ih =>
    rw [List.filterMap_cons, List.filterMap_cons]
    cases fv a <;> simp [ih]

/-- C6 counterexample: two parsed outbox records whose raw urls differ only
by a `www.` prefix canonicalize to the same key, yet `_dedupe_by_url` keeps
both — the dedupe key is the raw stripped url, not the canonical URL. -/
theorem C6_dedupe_canonical_cex :
    _dedupe_by_url [recWww, recBare] = [recWww, recBare] ∧
    canonicalize_url (urlKey recWww) = canonicalize_url (urlKey recBare) ∧
    urlKey recWww ≠ urlKey recBare := by decide

/-- C6 (amended): replay deduplicates the parsed records by the raw stripped
`url` (records with an empty url are dropped); when several records share
a url the last occurrence in input order is kept, and the survivors are
ordered by the first occurrence of their url. -/
theorem C6_dedupe_raw_url_last_wins (items : List Doc) :
    _dedupe_by_url items = dedupeSpec items := by
  unfold _dedupe_by_url dedupeSpec
  rw [dedupe_pairs_eq, filterMap_map_snd]

theorem pyStrip_all_space (s : Str) (h : ∀ c ∈ s, pyIsSpace c = true) : pyStrip s = [] := by
  unfold pyStrip
  rw [List.dropWhile_eq_nil_iff.mpr h]
  rfl

/-- C9: `content_hash` returns null for whitespace-only (or empty) input,
returns the hex SHA-256 of the UTF-8 encoded trimmed text whenever the
trimmed text is non-empty, and is deterministic — it depends only on the
trimmed text. -/
theorem C9_content_hash (s : Str) :
    ((∀ c ∈ s, pyIsSpace c = true) → content_hash s = none) ∧
    (pyStrip s ≠ [] → content_hash s = some (sha256Hex (utf8Encode (pyStrip s)))) ∧
    (∀ t : Str, pyStrip t = pyStrip s → content_hash t = content_hash s) := by
  refine ⟨?_, ?_, ?_⟩
  · intro h
    simp only [content_hash]
    rw [pyStrip_all_space s h]
    rfl
  · intro h
    simp only [content_hash]
    rw [if_neg h]
  · intro t ht
    simp only [content_hash]
    rw [ht]

/-- Witness for C9: whitespace-only input, the NIST `"abc"` test vector, and
trim-determinism at a concrete pair. -/
theorem C9_content_hash_witness :
    content_hash "  \t ".toList = none ∧
    content_hash "abc".toList =
      some "ba7816bf8f01cfea414140de5dae2223b00361a396177a9cb410ff61f20015ad".toList ∧
    content_hash " abc ".toList = content_hash "abc".toList := by
  refine ⟨(C9_content_hash _).1 (by decide), ?_, (C9_content_hash _).2.2 _ (by decide)⟩
  have h := (C9_content_hash "abc".toList).2.1 (by decide)
  rw [h]
  decide

/-! # Lemmas: character classes and string primitives -/

theorem schemeChar_props (c : Char) (h : isSchemeChar c = true) :
    c ≠ ':' ∧ c ≠ '/' ∧ c ≠ '?' ∧ c ≠ '#' ∧ c ≠ '\t' ∧ c ≠ '\r' ∧ c ≠ '\n' := by
  refine ⟨?_, ?_, ?_, ?_, ?_, ?_, ?_⟩ <;> (intro e; subst e; exact absurd h (by decide))

theorem notUnsafe_of_ne (c : Char) (h1 : c ≠ '\t') (h2 : c ≠ '\r') (h3 : c ≠ '\n') :
    isUnsafeUrlByte c = false := by
  unfold isUnsafeUrlByte
  simp [h1, h2, h3]

theorem asciiAlpha_not_c0 (c : Char) (h : isAsciiAlpha c = true) :
    isC0OrSpace c = false := by
  unfold isAsciiAlpha at h
  unfold isC0OrSpace
  simp only [Bool.or_eq_true, Bool.and_eq_true, decide_eq_true_eq] at h
  simp only [decide_eq_false_iff_not]
  omega

theorem filter_unsafe_eq_self (s : Str) (h : ∀ c ∈ s, isUnsafeUrlByte c = false) :
    (s.filter fun c => ¬ isUnsafeUrlByte c) = s := by
  refine List.filter_eq_self.mpr ?_
  intro c hc
  simp [h c hc]

theorem lstrip_c0_cons (c : Char) (rest : Str) (h : isC0OrSpace c = false) :
    pyLstrip isC0OrSpace (c :: rest) = c :: rest := by
  simp [pyLstrip, List.dropWhile_cons, h]

theorem findIdx?_start_add (p : Char → Bool) (l : Str) (i n : Nat) :
    l.findIdx? p (i + n) = (l.findIdx? p i).map (· + n) := by
  induction l generalizing i with
  | nil => simp
  | cons a l ih =>
    rw [List.findIdx?_cons, List.findIdx?_cons]
    by_cases hp : p a
    · simp [hp]
    · rw [if_neg hp, if_neg hp]
      have h2 : i + n + 1 = (i + 1) + n := by omega
      rw [h2, ih]

theorem findIdx?_append_false (p : Char → Bool) (pre rest : Str) (i : Nat)
    (h : ∀ c ∈ pre, p c = false) :
    (pre ++ rest).findIdx? p i = rest.findIdx? p (i + pre.length) := by
  induction pre generalizing i with
  | nil => simp
  | cons a pre' ih =>
    rw [List.cons_append, List.findIdx?_cons, h a (by simp)]
    rw [ih _ fun c hc => h c (by simp [hc])]
    have h3 : i + (a :: pre').length = (i + 1) + pre'.length := by
      rw [List.length_cons]
      omega
    rw [h3]
    simp

theorem findIdx?_append_skip (p : Char → Bool) (pre rest : Str)
    (h : ∀ c ∈ pre, p c = false) :
    (pre ++ rest).findIdx? p = (rest.findIdx? p).map (· + pre.length) := by
  rw [findIdx?_append_false p pre rest 0 h]
  have : (0 : Nat) + pre.length = 0 + pre.length := rfl
  rw [show (0 : Nat) + pre.length = 0 + pre.length from rfl, findIdx?_start_add]

theorem pyFind_concat (ch : Char) (pre post : Str) (h : ∀ c ∈ pre, c ≠ ch) :
    pyFind ch (pre ++ ch :: post) = some pre.length := by
  unfold pyFind pyFindFrom
  rw [List.drop_zero, findIdx?_append_skip _ _ _ (by intro c hc; simpa using h c hc)]
  rw [List.findIdx?_cons]
  simp

theorem pyFind_none (ch : Char) (s : Str) (h : ∀ c ∈ s, c ≠ ch) :
    pyFind ch s = none := by
  unfold pyFind pyFindFrom
  rw [List.drop_zero]
  rw [show s = s ++ [] from (List.append_nil s).symm,
      findIdx?_append_skip _ _ _ (by intro c hc; simpa using h c (by simpa using hc))]
  simp

theorem pyFindFrom_two (ch : Char) (a b : Char) (t : Str) :
    pyFindFrom ch 2 (a :: b :: t) = (pyFind ch t).map (· + 2) := by
  simp only [pyFind, pyFindFrom, List.drop_zero, List.drop_succ_cons, List.drop_zero]
  cases h : t.findIdx? (· == ch) <;> simp [h, Nat.add_comm]

theorem pyContains_of_all_ne (s : Str) (ch : Char) (h : ∀ c ∈ s, c ≠ ch) :
    pyContains s ch = false := by
  unfold pyContains
  rw [List.contains_eq_any_beq]
  simp only [List.any_eq_false]
  intro c hc
  simpa using Ne.symm (h c hc)

theorem pySplit1_concat (ch : Char) (a b : Str) (h : ∀ c ∈ a, c ≠ ch) :
    pySplit1 ch (a ++ ch :: b) = (a, some b) := by
  unfold pySplit1
  have ht : (a ++ ch :: b).takeWhile (· ≠ ch) = a := by
    induction a with
    | nil => simp [List.takeWhile]
    | cons x a' ih =>
      rw [List.cons_append, List.takeWhile_cons_of_pos (by simpa using h x (by simp))]
      rw [ih fun c hc => h c (by simp [hc])]
  rw [ht]
  rw [if_neg (by simp)]
  congr 1
  rw [show a.length + 1 = (a ++ [ch]).length from by simp]
  rw [show a ++ ch :: b = (a ++ [ch]) ++ b from by simp]
  rw [List.drop_left]

theorem pyFind_skip_block (ch : Char) (N R : Str) (hchN : ∀ c ∈ N, c ≠ ch)
    (hch : ('/' : Char) ≠ ch) :
    pyFind ch (N ++ '/' :: R) = (pyFind ch R).map (· + (N.length + 1)) := by
  unfold pyFind pyFindFrom
  rw [List.drop_zero, List.drop_zero]
  rw [show N ++ '/' :: R = (N ++ ['/']) ++ R from by simp]
  rw [findIdx?_append_skip]
  · cases h : R.findIdx? (· == ch) <;> simp [List.length_append]
  · intro c hc
    rcases List.mem_append.mp hc with h | h
    · simpa using hchN c h
    · simpa using (by simpa using h : c = '/') ▸ hch

theorem splitnetloc_pair (N R : Str) (d : Nat) (hd : d = N.length + 2) :
    ((('/' :: '/' :: (N ++ '/' :: R)).drop 2).take (d - 2),
      ('/' :: '/' :: (N ++ '/' :: R)).drop d) = (N, '/' :: R) := by
  subst hd
  simp only [Prod.mk.injEq]
  constructor
  · rw [List.drop_succ_cons, List.drop_succ_cons, List.drop_zero]
    rw [show N.length + 2 - 2 = N.length from by omega]
    exact List.take_left N ('/' :: R)
  · rw [show N.length + 2 = N.length + 1 + 1 from by omega]
    rw [List.drop_succ_cons, List.drop_succ_cons]
    exact List.drop_left N ('/' :: R)

theorem splitnetloc_eval (N R : Str)
    (hN : ∀ c ∈ N, c ≠ '/' ∧ c ≠ '?' ∧ c ≠ '#') :
    _splitnetloc ('/' :: '/' :: (N ++ '/' :: R)) 2 = (N, '/' :: R) := by
  unfold _splitnetloc
  have hf1 : pyFindFrom '/' 2 ('/' :: '/' :: (N ++ '/' :: R)) = some (N.length + 2) := by
    rw [pyFindFrom_two, pyFind_concat _ _ _ fun c hc => (hN c hc).1]
    rfl
  have hf2 : pyFindFrom '?' 2 ('/' :: '/' :: (N ++ '/' :: R)) =
      ((pyFind '?' R).map (· + (N.length + 1))).map (· + 2) := by
    rw [pyFindFrom_two, pyFind_skip_block _ _ _ (fun c hc => (hN c hc).2.1) (by decide)]
  have hf3 : pyFindFrom '#' 2 ('/' :: '/' :: (N ++ '/' :: R)) =
      ((pyFind '#' R).map (· + (N.length + 1))).map (· + 2) := by
    rw [pyFindFrom_two, pyFind_skip_block _ _ _ (fun c hc => (hN c hc).2.2) (by decide)]
  have hlen : ('/' :: '/' :: (N ++ '/' :: R)).length = N.length + R.length + 3 := by
    simp [List.length_append]
    omega
  have e1 : min (N.length + R.length + 3) (N.length + 2) = N.length + 2 :=
    min_eq_right (by omega)
  have e2 : ∀ j : Nat, min (N.length + 2) (j + (N.length + 1) + 2) = N.length + 2 :=
    fun j => min_eq_left (by omega)
  rw [hf1, hf2, hf3]
  cases h1 : pyFind '?' R <;> cases h2 : pyFind '#' R <;>
    simp only [Option.map_some', Option.map_none'] <;>
    (refine splitnetloc_pair N R _ ?_
     rw [hlen, e1]
     try simp only [e2])

theorem drop_concat_succ (a : Str) (b : Char) (T : Str) :
    (a ++ b :: T).drop (a.length + 1) = T := by
  rw [show a ++ b :: T = (a ++ [b]) ++ T from by simp,
      show a.length + 1 = (a ++ [b]).length from by simp]
  exact List.drop_left _ _

theorem take_concat_len (a : Str) (T : Str) :
    (a ++ T).take a.length = a :=
  List.take_left a T

theorem schemeSplitFn_eval (c : Char) (S T : Str)
    (hc : isAsciiAlpha c = true)
    (hS : ∀ x ∈ c :: S, isSchemeChar x = true) :
    schemeSplitFn ((c :: S) ++ ':' :: T) = (pyLower (c :: S), T) := by
  have hfind : pyFind ':' ((c :: S) ++ ':' :: T) = some (S.length + 1) := by
    rw [pyFind_concat ':' (c :: S) T (fun x hx => (schemeChar_props x (hS x hx)).1)]
    rfl
  have htake : ((c :: S) ++ ':' :: T).take (S.length + 1) = c :: S := by
    simpa using take_concat_len (c :: S) (':' :: T)
  have hdrop : ((c :: S) ++ ':' :: T).drop (S.length + 1 + 1) = T := by
    simpa using drop_concat_succ (c :: S) ':' T
  unfold schemeSplitFn
  rw [hfind]
  simp only [List.cons_append] at htake hdrop ⊢
  rw [htake, hdrop]
  rw [if_pos ⟨Nat.succ_pos S.length, hc, List.all_eq_true.mpr hS⟩]

theorem netlocSplitFn_eval (N R : Str)
    (hN : ∀ x ∈ N, x ≠ '/' ∧ x ≠ '?' ∧ x ≠ '#' ∧ x ≠ '[' ∧ x ≠ ']') :
    netlocSplitFn ('/' :: '/' :: (N ++ '/' :: R)) = some (N, '/' :: R) := by
  unfold netlocSplitFn
  rw [if_pos (show List.take 2 ('/' :: '/' :: (N ++ '/' :: R)) = ['/', '/'] from rfl)]
  rw [splitnetloc_eval N R (fun x hx => ⟨(hN x hx).1, (hN x hx).2.1, (hN x hx).2.2.1⟩)]
  have hbl : N.contains '[' = false := by
    rw [show N.contains '[' = pyContains N '[' from rfl]
    exact pyContains_of_all_ne N '[' (fun x hx => (hN x hx).2.2.2.1)
  have hbr : N.contains ']' = false := by
    rw [show N.contains ']' = pyContains N ']' from rfl]
    exact pyContains_of_all_ne N ']' (fun x hx => (hN x hx).2.2.2.2)
  simp only [hbl, hbr, Bool.false_and, Bool.or_self, Bool.false_eq_true, if_false]

theorem fragSplitFn_eval (u : Str) (h : ∀ x ∈ u, x ≠ '#') :
    fragSplitFn u = (u, []) := by
  unfold fragSplitFn
  rw [pyContains_of_all_ne u '#' h]
  simp

theorem querySplitFn_eval_none (u : Str) (h : ∀ x ∈ u, x ≠ '?') :
    querySplitFn u = (u, []) := by
  unfold querySplitFn
  rw [pyContains_of_all_ne u '?' h]
  simp

theorem querySplitFn_eval_some (a b : Str) (h : ∀ x ∈ a, x ≠ '?') :
    querySplitFn (a ++ '?' :: b) = (a, b) := by
  unfold querySplitFn
  have hc : pyContains (a ++ '?' :: b) '?' = true := by
    unfold pyContains
    rw [List.contains_eq_any_beq]
    simp
  rw [hc, pySplit1_concat '?' a b h]
  rfl

theorem urlsplit_eval_nq (c : Char) (S N P : Str)
    (hc : isAsciiAlpha c = true)
    (hS : ∀ x ∈ c :: S, isSchemeChar x = true)
    (hN : ∀ x ∈ N, x ≠ '/' ∧ x ≠ '?' ∧ x ≠ '#' ∧ x ≠ '[' ∧ x ≠ ']' ∧
      isUnsafeUrlByte x = false)
    (hP : ∀ x ∈ P, x ≠ '?' ∧ x ≠ '#' ∧ isUnsafeUrlByte x = false) :
    urlsplit ((c :: S) ++ ':' :: '/' :: '/' :: (N ++ '/' :: P)) =
      some ⟨pyLower (c :: S), N, '/' :: P, [], []⟩ := by
  have hsafe : ∀ x ∈ c :: (S ++ ':' :: '/' :: '/' :: (N ++ '/' :: P)),
      isUnsafeUrlByte x = false := by
    intro x hx
    simp only [List.mem_cons, List.mem_append] at hx
    rcases hx with rfl | hx | rfl | rfl | rfl | hx | rfl | hx
    · have h := schemeChar_props x (hS x (List.mem_cons_self x S))
      exact notUnsafe_of_ne x h.2.2.2.2.1 h.2.2.2.2.2.1 h.2.2.2.2.2.2
    · have h := schemeChar_props x (hS x (List.mem_cons_of_mem c hx))
      exact notUnsafe_of_ne x h.2.2.2.2.1 h.2.2.2.2.2.1 h.2.2.2.2.2.2
    · decide
    · decide
    · decide
    · exact (hN x hx).2.2.2.2.2
    · decide
    · exact (hP x hx).2.2
  have hss : schemeSplitFn (c :: (S ++ ':' :: '/' :: '/' :: (N ++ '/' :: P))) =
      (pyLower (c :: S), '/' :: '/' :: (N ++ '/' :: P)) := by
    simpa [List.cons_append] using
      schemeSplitFn_eval c S ('/' :: '/' :: (N ++ '/' :: P)) hc hS
  have hss1 : (schemeSplitFn (c :: (S ++ ':' :: '/' :: '/' :: (N ++ '/' :: P)))).1 =
      pyLower (c :: S) := by rw [hss]
  have hss2 : (schemeSplitFn (c :: (S ++ ':' :: '/' :: '/' :: (N ++ '/' :: P)))).2 =
      '/' :: '/' :: (N ++ '/' :: P) := by rw [hss]
  have hnl : netlocSplitFn ('/' :: '/' :: (N ++ '/' :: P)) = some (N, '/' :: P) :=
    netlocSplitFn_eval N P
      (fun x hx => ⟨(hN x hx).1, (hN x hx).2.1, (hN x hx).2.2.1,
        (hN x hx).2.2.2.1, (hN x hx).2.2.2.2.1⟩)
  have hfs : fragSplitFn ('/' :: P) = ('/' :: P, []) := by
    refine fragSplitFn_eval ('/' :: P) ?_
    intro x hx
    rcases List.mem_cons.mp hx with rfl | hx
    · decide
    · exact (hP x hx).2.1
  have hqs : querySplitFn ('/' :: P) = ('/' :: P, []) := by
    refine querySplitFn_eval_none ('/' :: P) ?_
    intro x hx
    rcases List.mem_cons.mp hx with rfl | hx
    · decide
    · exact (hP x hx).1
  unfold urlsplit
  simp only [List.cons_append]
  rw [lstrip_c0_cons c _ (asciiAlpha_not_c0 c hc)]
  rw [filter_unsafe_eq_self _ hsafe]
  rw [hss1, hss2, hnl]
  simp only [hfs, hqs]

theorem urlsplit_eval_q (c : Char) (S N P Q : Str)
    (hc : isAsciiAlpha c = true)
    (hS : ∀ x ∈ c :: S, isSchemeChar x = true)
    (hN : ∀ x ∈ N, x ≠ '/' ∧ x ≠ '?' ∧ x ≠ '#' ∧ x ≠ '[' ∧ x ≠ ']' ∧
      isUnsafeUrlByte x = false)
    (hP : ∀ x ∈ P, x ≠ '?' ∧ x ≠ '#' ∧ isUnsafeUrlByte x = false)
    (hQ : ∀ x ∈ Q, x ≠ '#' ∧ isUnsafeUrlByte x = false) :
    urlsplit ((c :: S) ++ ':' :: '/' :: '/' :: (N ++ '/' :: (P ++ '?' :: Q))) =
      some ⟨pyLower (c :: S), N, '/' :: P, Q, []⟩ := by
  have hsafe : ∀ x ∈ c :: (S ++ ':' :: '/' :: '/' :: (N ++ '/' :: (P ++ '?' :: Q))),
      isUnsafeUrlByte x = false := by
    intro x hx
    simp only [List.mem_cons, List.mem_append] at hx
    rcases hx with rfl | hx | rfl | rfl | rfl | hx | rfl | hx | rfl | hx
    · have h := schemeChar_props x (hS x (List.mem_cons_self x S))
      exact notUnsafe_of_ne x h.2.2.2.2.1 h.2.2.2.2.2.1 h.2.2.2.2.2.2
    · have h := schemeChar_props x (hS x (List.mem_cons_of_mem c hx))
      exact notUnsafe_of_ne x h.2.2.2.2.1 h.2.2.2.2.2.1 h.2.2.2.2.2.2
    · decide
    · decide
    · decide
    · exact (hN x hx).2.2.2.2.2
    · decide
    · exact (hP x hx).2.2
    · decide
    · exact (hQ x hx).2
  have hss : schemeSplitFn (c :: (S ++ ':' :: '/' :: '/' :: (N ++ '/' :: (P ++ '?' :: Q)))) =
      (pyLower (c :: S), '/' :: '/' :: (N ++ '/' :: (P ++ '?' :: Q))) := by
    simpa [List.cons_append] using
      schemeSplitFn_eval c S ('/' :: '/' :: (N ++ '/' :: (P ++ '?' :: Q))) hc hS
  have hss1 : (schemeSplitFn (c :: (S ++ ':' :: '/' :: '/' :: (N ++ '/' :: (P ++ '?' :: Q))))).1 =
      pyLower (c :: S) := by rw [hss]
  have hss2 : (schemeSplitFn (c :: (S ++ ':' :: '/' :: '/' :: (N ++ '/' :: (P ++ '?' :: Q))))).2 =
      '/' :: '/' :: (N ++ '/' :: (P ++ '?' :: Q)) := by rw [hss]
  have hnl : netlocSplitFn ('/' :: '/' :: (N ++ '/' :: (P ++ '?' :: Q))) =
      some (N, '/' :: (P ++ '?' :: Q)) :=
    netlocSplitFn_eval N (P ++ '?' :: Q)
      (fun x hx => ⟨(hN x hx).1, (hN x hx).2.1, (hN x hx).2.2.1,
        (hN x hx).2.2.2.1, (hN x hx).2.2.2.2.1⟩)
  have hfs : fragSplitFn ('/' :: (P ++ '?' :: Q)) = ('/' :: (P ++ '?' :: Q), []) := by
    refine fragSplitFn_eval ('/' :: (P ++ '?' :: Q)) ?_
    intro x hx
    rcases List.mem_cons.mp hx with rfl | hx
    · decide
    · rcases List.mem_append.mp hx with hx | hx
      · exact (hP x hx).2.1
      · rcases List.mem_cons.mp hx with rfl | hx
        · decide
        · exact (hQ x hx).1
  have hqs : querySplitFn ('/' :: (P ++ '?' :: Q)) = ('/' :: P, Q) := by
    have h := querySplitFn_eval_some ('/' :: P) Q (by
      intro x hx
      rcases List.mem_cons.mp hx with rfl | hx
      · decide
      · exact (hP x hx).1)
    simpa [List.cons_append] using h
  unfold urlsplit
  simp only [List.cons_append]
  rw [lstrip_c0_cons c _ (asciiAlpha_not_c0 c hc)]
  rw [filter_unsafe_eq_self _ hsafe]
  rw [hss1, hss2, hnl]
  simp only [hfs, hqs]

theorem dropWhile_all_false (p : Char → Bool) (s : Str) (h : ∀ x ∈ s, p x = false) :
    s.dropWhile p = s := by
  cases s with
  | nil => rfl
  | cons a t => simp [List.dropWhile_cons, h a (List.mem_cons_self a t)]

theorem pyStrip_eq_self (s : Str) (h : ∀ x ∈ s, pyIsSpace x = false) :
    pyStrip s = s := by
  unfold pyStrip
  rw [dropWhile_all_false _ _ h,
      dropWhile_all_false _ _ (fun x hx => h x (List.mem_reverse.mp hx)),
      List.reverse_reverse]

theorem takeWhile_all_ne (ch : Char) (s : Str) (h : ∀ x ∈ s, x ≠ ch) :
    s.takeWhile (· ≠ ch) = s := by
  induction s with
  | nil => rfl
  | cons a t ih =>
    rw [List.takeWhile_cons, if_pos (by simpa using h a (List.mem_cons_self a t)),
        ih (fun x hx => h x (List.mem_cons_of_mem a hx))]

theorem pyPartition_none (ch : Char) (s : Str) (h : ∀ x ∈ s, x ≠ ch) :
    pyPartition ch s = (s, false, []) := by
  unfold pyPartition
  rw [takeWhile_all_ne ch s h]
  simp

theorem takeWhile_concat_ne (ch : Char) (a b : Str) (h : ∀ x ∈ a, x ≠ ch) :
    (a ++ ch :: b).takeWhile (· ≠ ch) = a := by
  induction a with
  | nil => rw [List.nil_append, List.takeWhile_cons, if_neg (by simp)]
  | cons x t ih =>
    rw [List.cons_append, List.takeWhile_cons,
        if_pos (by simpa using h x (List.mem_cons_self x t)),
        ih (fun y hy => h y (List.mem_cons_of_mem x hy))]

theorem pyPartition_some (ch : Char) (a b : Str) (h : ∀ x ∈ a, x ≠ ch) :
    pyPartition ch (a ++ ch :: b) = (a, true, b) := by
  unfold pyPartition
  rw [takeWhile_concat_ne ch a b h]
  have hlt : a.length ≠ (a ++ ch :: b).length := by
    simp only [List.length_append, List.length_cons]
    omega
  have hd : (a ++ ch :: b).drop (a.length + 1) = b := drop_concat_succ a ch b
  rw [if_neg hlt, hd]

theorem pyRpartition_none (ch : Char) (s : Str) (h : ∀ x ∈ s, x ≠ ch) :
    pyRpartition ch s = ([], false, s) := by
  unfold pyRpartition
  rw [pyPartition_none ch s.reverse (fun x hx => h x (List.mem_reverse.mp hx))]
  simp

theorem pyRpartition_last (ch : Char) (a b : Str) (h : ∀ x ∈ b, x ≠ ch) :
    pyRpartition ch (a ++ ch :: b) = (a, true, b) := by
  unfold pyRpartition
  have hrev : (a ++ ch :: b).reverse = b.reverse ++ ch :: a.reverse := by
    simp
  rw [hrev, pyPartition_some ch b.reverse a.reverse
    (fun x hx => h x (List.mem_reverse.mp hx))]
  simp

theorem toNat_ofNat_small (m : Nat) (h : m < 55296) : (Char.ofNat m).toNat = m := by
  unfold Char.ofNat
  rw [dif_pos (Or.inl h)]
  rfl

theorem asciiLower_idem (c : Char) : asciiLower (asciiLower c) = asciiLower c := by
  unfold asciiLower
  by_cases h : 65 ≤ c.toNat ∧ c.toNat ≤ 90
  · rw [if_pos h]
    have htn : (Char.ofNat (c.toNat + 32)).toNat = c.toNat + 32 :=
      toNat_ofNat_small _ (by omega)
    have hno : ¬ (65 ≤ (Char.ofNat (c.toNat + 32)).toNat ∧
        (Char.ofNat (c.toNat + 32)).toNat ≤ 90) := by
      rw [htn]; omega
    rw [if_neg hno]
  · rw [if_neg h, if_neg h]

theorem pyLower_idem (s : Str) : pyLower (pyLower s) = pyLower s := by
  unfold pyLower
  rw [List.map_map]
  exact List.map_congr_left (fun c _ => asciiLower_idem c)

theorem hostinfoHostname_up_port (U H PORT : Str)
    (hH : ∀ x ∈ H, x ≠ '@' ∧ x ≠ '[' ∧ x ≠ ':')
    (hPORT : ∀ x ∈ PORT, x ≠ '@' ∧ x ≠ '[') :
    hostinfoHostname (U ++ '@' :: (H ++ ':' :: PORT)) = H := by
  have hnoat : ∀ x ∈ H ++ ':' :: PORT, x ≠ '@' := by
    intro x hx
    rcases List.mem_append.mp hx with hx | hx
    · exact (hH x hx).1
    · rcases List.mem_cons.mp hx with rfl | hx
      · decide
      · exact (hPORT x hx).1
  have h1 : (pyRpartition '@' (U ++ '@' :: (H ++ ':' :: PORT))).2.2 = H ++ ':' :: PORT := by
    rw [pyRpartition_last '@' U (H ++ ':' :: PORT) hnoat]
  have hnobr : ∀ x ∈ H ++ ':' :: PORT, x ≠ '[' := by
    intro x hx
    rcases List.mem_append.mp hx with hx | hx
    · exact (hH x hx).2.1
    · rcases List.mem_cons.mp hx with rfl | hx
      · decide
      · exact (hPORT x hx).2
  have h2 : (pyPartition '[' (H ++ ':' :: PORT)).2.1 = false := by
    rw [pyPartition_none '[' _ hnobr]
  have h3 : (pyPartition ':' (H ++ ':' :: PORT)).1 = H := by
    rw [pyPartition_some ':' H PORT (fun x hx => (hH x hx).2.2)]
  simp only [hostinfoHostname]
  rw [h1, h2, h3]
  simp

theorem hostinfoHostname_plain (H : Str)
    (hH : ∀ x ∈ H, x ≠ '@' ∧ x ≠ '[' ∧ x ≠ ':') :
    hostinfoHostname H = H := by
  have h1 : (pyRpartition '@' H).2.2 = H := by
    rw [pyRpartition_none '@' H (fun x hx => (hH x hx).1)]
  have h2 : (pyPartition '[' H).2.1 = false := by
    rw [pyPartition_none '[' H (fun x hx => (hH x hx).2.1)]
  have h3 : (pyPartition ':' H).1 = H := by
    rw [pyPartition_none ':' H (fun x hx => (hH x hx).2.2)]
  simp only [hostinfoHostname]
  rw [h1, h2, h3]
  simp

theorem hostinfoHostname_port (H PORT : Str)
    (hH : ∀ x ∈ H, x ≠ '@' ∧ x ≠ '[' ∧ x ≠ ':')
    (hPORT : ∀ x ∈ PORT, x ≠ '@' ∧ x ≠ '[') :
    hostinfoHostname (H ++ ':' :: PORT) = H := by
  have hnoat : ∀ x ∈ H ++ ':' :: PORT, x ≠ '@' := by
    intro x hx
    rcases List.mem_append.mp hx with hx | hx
    · exact (hH x hx).1
    · rcases List.mem_cons.mp hx with rfl | hx
      · decide
      · exact (hPORT x hx).1
  have hnobr : ∀ x ∈ H ++ ':' :: PORT, x ≠ '[' := by
    intro x hx
    rcases List.mem_append.mp hx with hx | hx
    · exact (hH x hx).2.1
    · rcases List.mem_cons.mp hx with rfl | hx
      · decide
      · exact (hPORT x hx).2
  have h1 : (pyRpartition '@' (H ++ ':' :: PORT)).2.2 = H ++ ':' :: PORT := by
    rw [pyRpartition_none '@' _ hnoat]
  have h2 : (pyPartition '[' (H ++ ':' :: PORT)).2.1 = false := by
    rw [pyPartition_none '[' _ hnobr]
  have h3 : (pyPartition ':' (H ++ ':' :: PORT)).1 = H := by
    rw [pyPartition_some ':' H PORT (fun x hx => (hH x hx).2.2)]
  simp only [hostinfoHostname]
  rw [h1, h2, h3]
  simp

theorem hostinfoHostname_up (U H : Str)
    (hH : ∀ x ∈ H, x ≠ '@' ∧ x ≠ '[' ∧ x ≠ ':') :
    hostinfoHostname (U ++ '@' :: H) = H := by
  have h1 : (pyRpartition '@' (U ++ '@' :: H)).2.2 = H := by
    rw [pyRpartition_last '@' U H (fun x hx => (hH x hx).1)]
  have h2 : (pyPartition '[' H).2.1 = false := by
    rw [pyPartition_none '[' H (fun x hx => (hH x hx).2.1)]
  have h3 : (pyPartition ':' H).1 = H := by
    rw [pyPartition_none ':' H (fun x hx => (hH x hx).2.2)]
  simp only [hostinfoHostname]
  rw [h1, h2, h3]
  simp

theorem hostnameOrEmpty_of (netloc H : Str) (hh : hostinfoHostname netloc = H)
    (hne : H ≠ []) (hpc : ∀ x ∈ H, x ≠ '%') :
    hostnameOrEmpty netloc = pyLower H := by
  simp only [hostnameOrEmpty]
  rw [hh]
  have hp1 : (pyPartition '%' H).1 = H := by rw [pyPartition_none '%' H hpc]
  have hp2 : (pyPartition '%' H).2.1 = false := by rw [pyPartition_none '%' H hpc]
  rw [if_neg hne, hp1, hp2]
  simp

theorem pyIsSpace_false_of_print (c : Char) (h1 : 33 ≤ c.toNat) (h2 : c.toNat ≤ 126) :
    pyIsSpace c = false := by
  cases hb : pyIsSpace c with
  | false => rfl
  | true =>
    exfalso
    simp only [pyIsSpace, Bool.or_eq_true, Bool.and_eq_true, beq_iff_eq,
      decide_eq_true_eq] at hb
    omega

theorem schemeChar_print (c : Char) (h : isSchemeChar c = true) :
    33 ≤ c.toNat ∧ c.toNat ≤ 126 := by
  unfold isSchemeChar at h
  simp only [Bool.or_eq_true, Bool.and_eq_true, beq_iff_eq, decide_eq_true_eq] at h
  rcases h with ((((h | h) | h) | h) | h) | h
  · omega
  · omega
  · omega
  · subst h; decide
  · subst h; decide
  · subst h; decide

theorem schemeChar_not_space (c : Char) (h : isSchemeChar c = true) :
    pyIsSpace c = false :=
  pyIsSpace_false_of_print c (schemeChar_print c h).1 (schemeChar_print c h).2

/-- Generic netloc collapse: any authority string `N` (free of the
characters `urlsplit` cuts on) whose `hostname` part is `H` canonicalizes
to the same URL as the bare host `H`, because `canonicalize_url` rebuilds
the netloc from the lower-cased hostname alone. -/
theorem canon_collapse_netloc (c : Char) (S N H P : Str)
    (hc : isAsciiAlpha c = true)
    (hS : ∀ x ∈ c :: S, isSchemeChar x = true)
    (hN : ∀ x ∈ N, x ≠ '/' ∧ x ≠ '?' ∧ x ≠ '#' ∧ x ≠ '[' ∧ x ≠ ']' ∧
      isUnsafeUrlByte x = false ∧ pyIsSpace x = false)
    (hH : ∀ x ∈ H, x ≠ '/' ∧ x ≠ '?' ∧ x ≠ '#' ∧ x ≠ '[' ∧ x ≠ ']' ∧ x ≠ '@' ∧
      x ≠ ':' ∧ x ≠ '%' ∧ isUnsafeUrlByte x = false ∧ pyIsSpace x = false)
    (hP : ∀ x ∈ P, x ≠ '?' ∧ x ≠ '#' ∧ isUnsafeUrlByte x = false ∧ pyIsSpace x = false)
    (hHne : H ≠ [])
    (hhi : hostinfoHostname N = H) :
    canonicalize_url ((c :: S) ++ ':' :: '/' :: '/' :: (N ++ '/' :: P)) =
      canonicalize_url ((c :: S) ++ ':' :: '/' :: '/' :: (H ++ '/' :: P)) := by
  have hstrip1 : ∀ x ∈ (c :: S) ++ ':' :: '/' :: '/' :: (N ++ '/' :: P),
      pyIsSpace x = false := by
    intro x hx
    rcases List.mem_append.mp hx with hx | hx
    · exact schemeChar_not_space x (hS x hx)
    · rcases List.mem_cons.mp hx with rfl | hx
      · decide
      · rcases List.mem_cons.mp hx with rfl | hx
        · decide
        · rcases List.mem_cons.mp hx with rfl | hx
          · decide
          · rcases List.mem_append.mp hx with hx | hx
            · exact (hN x hx).2.2.2.2.2.2
            · rcases List.mem_cons.mp hx with rfl | hx
              · decide
              · exact (hP x hx).2.2.2
  have hstrip2 : ∀ x ∈ (c :: S) ++ ':' :: '/' :: '/' :: (H ++ '/' :: P),
      pyIsSpace x = false := by
    intro x hx
    rcases List.mem_append.mp hx with hx | hx
    · exact schemeChar_not_space x (hS x hx)
    · rcases List.mem_cons.mp hx with rfl | hx
      · decide
      · rcases List.mem_cons.mp hx with rfl | hx
        · decide
        · rcases List.mem_cons.mp hx with rfl | hx
          · decide
          · rcases List.mem_append.mp hx with hx | hx
            · exact (hH x hx).2.2.2.2.2.2.2.2.2
            · rcases List.mem_cons.mp hx with rfl | hx
              · decide
              · exact (hP x hx).2.2.2
  have hsplit1 : urlsplit ((c :: S) ++ ':' :: '/' :: '/' :: (N ++ '/' :: P)) =
      some ⟨pyLower (c :: S), N, '/' :: P, [], []⟩ :=
    urlsplit_eval_nq c S N P hc hS
      (fun x hx => ⟨(hN x hx).1, (hN x hx).2.1, (hN x hx).2.2.1,
        (hN x hx).2.2.2.1, (hN x hx).2.2.2.2.1, (hN x hx).2.2.2.2.2.1⟩)
      (fun x hx => ⟨(hP x hx).1, (hP x hx).2.1, (hP x hx).2.2.1⟩)
  have hsplit2 : urlsplit ((c :: S) ++ ':' :: '/' :: '/' :: (H ++ '/' :: P)) =
      some ⟨pyLower (c :: S), H, '/' :: P, [], []⟩ :=
    urlsplit_eval_nq c S H P hc hS
      (fun x hx => ⟨(hH x hx).1, (hH x hx).2.1, (hH x hx).2.2.1,
        (hH x hx).2.2.2.1, (hH x hx).2.2.2.2.1, (hH x hx).2.2.2.2.2.2.2.2.1⟩)
      (fun x hx => ⟨(hP x hx).1, (hP x hx).2.1, (hP x hx).2.2.1⟩)
  have hhib : hostinfoHostname H = H :=
    hostinfoHostname_plain H
      (fun x hx => ⟨(hH x hx).2.2.2.2.2.1, (hH x hx).2.2.2.1, (hH x hx).2.2.2.2.2.2.1⟩)
  have hpc : ∀ x ∈ H, x ≠ '%' := fun x hx => (hH x hx).2.2.2.2.2.2.2.1
  have hhc : hostCanon N = hostCanon H := by
    unfold hostCanon
    rw [hostnameOrEmpty_of N H hhi hHne hpc, hostnameOrEmpty_of H H hhib hHne hpc]
  simp only [canonicalize_url]
  rw [pyStrip_eq_self _ hstrip1, pyStrip_eq_self _ hstrip2, hsplit1, hsplit2]
  simp only [canonicalizeParts, hhc]

/-- C10: a URL whose authority carries an explicit port, a userinfo
component, or both (`scheme://user@host:port/path`, `scheme://host:port/path`,
`scheme://user@host/path`), canonicalizes to the same key as the bare-host
URL `scheme://host/path`: `canonicalize_url` rebuilds the netloc from the
lower-cased hostname alone, so the port and any user:password component are
removed and all such URLs collapse to one dedupe key. -/
theorem C10_userinfo_port_collapse (c : Char) (S U H PORT P : Str)
    (hc : isAsciiAlpha c = true)
    (hS : ∀ x ∈ c :: S, isSchemeChar x = true)
    (hU : ∀ x ∈ U, x ≠ '/' ∧ x ≠ '?' ∧ x ≠ '#' ∧ x ≠ '[' ∧ x ≠ ']' ∧
      isUnsafeUrlByte x = false ∧ pyIsSpace x = false)
    (hH : ∀ x ∈ H, x ≠ '/' ∧ x ≠ '?' ∧ x ≠ '#' ∧ x ≠ '[' ∧ x ≠ ']' ∧ x ≠ '@' ∧
      x ≠ ':' ∧ x ≠ '%' ∧ isUnsafeUrlByte x = false ∧ pyIsSpace x = false)
    (hPORT : ∀ x ∈ PORT, x ≠ '/' ∧ x ≠ '?' ∧ x ≠ '#' ∧ x ≠ '[' ∧ x ≠ ']' ∧ x ≠ '@' ∧
      isUnsafeUrlByte x = false ∧ pyIsSpace x = false)
    (hP : ∀ x ∈ P, x ≠ '?' ∧ x ≠ '#' ∧ isUnsafeUrlByte x = false ∧ pyIsSpace x = false)
    (hHne : H ≠ []) :
    canonicalize_url ((c :: S) ++ ':' :: '/' :: '/' ::
        ((U ++ '@' :: (H ++ ':' :: PORT)) ++ '/' :: P)) =
      canonicalize_url ((c :: S) ++ ':' :: '/' :: '/' :: (H ++ '/' :: P)) ∧
    canonicalize_url ((c :: S) ++ ':' :: '/' :: '/' ::
        ((H ++ ':' :: PORT) ++ '/' :: P)) =
      canonicalize_url ((c :: S) ++ ':' :: '/' :: '/' :: (H ++ '/' :: P)) ∧
    canonicalize_url ((c :: S) ++ ':' :: '/' :: '/' ::
        ((U ++ '@' :: H) ++ '/' :: P)) =
      canonicalize_url ((c :: S) ++ ':' :: '/' :: '/' :: (H ++ '/' :: P)) := by
  have hHb : ∀ x ∈ H, x ≠ '@' ∧ x ≠ '[' ∧ x ≠ ':' := fun x hx =>
    ⟨(hH x hx).2.2.2.2.2.1, (hH x hx).2.2.2.1, (hH x hx).2.2.2.2.2.2.1⟩
  have hPb : ∀ x ∈ PORT, x ≠ '@' ∧ x ≠ '[' := fun x hx =>
    ⟨(hPORT x hx).2.2.2.2.2.1, (hPORT x hx).2.2.2.1⟩
  have hHn : ∀ x ∈ H, x ≠ '/' ∧ x ≠ '?' ∧ x ≠ '#' ∧ x ≠ '[' ∧ x ≠ ']' ∧
      isUnsafeUrlByte x = false ∧ pyIsSpace x = false := fun x hx =>
    ⟨(hH x hx).1, (hH x hx).2.1, (hH x hx).2.2.1, (hH x hx).2.2.2.1,
      (hH x hx).2.2.2.2.1, (hH x hx).2.2.2.2.2.2.2.2.1, (hH x hx).2.2.2.2.2.2.2.2.2⟩
  have hN1 : ∀ x ∈ U ++ '@' :: (H ++ ':' :: PORT),
      x ≠ '/' ∧ x ≠ '?' ∧ x ≠ '#' ∧ x ≠ '[' ∧ x ≠ ']' ∧
      isUnsafeUrlByte x = false ∧ pyIsSpace x = false := by
    intro x hx
    rcases List.mem_append.mp hx with hx | hx
    · exact hU x hx
    · rcases List.mem_cons.mp hx with rfl | hx
      · refine ⟨by decide, by decide, by decide, by decide, by decide, by decide,
          by decide⟩
      · rcases List.mem_append.mp hx with hx | hx
        · exact hHn x hx
        · rcases List.mem_cons.mp hx with rfl | hx
          · refine ⟨by decide, by decide, by decide, by decide, by decide, by decide,
              by decide⟩
          · have h := hPORT x hx
            exact ⟨h.1, h.2.1, h.2.2.1, h.2.2.2.1, h.2.2.2.2.1, h.2.2.2.2.2.2.1,
              h.2.2.2.2.2.2.2⟩
  have hN2 : ∀ x ∈ H ++ ':' :: PORT,
      x ≠ '/' ∧ x ≠ '?' ∧ x ≠ '#' ∧ x ≠ '[' ∧ x ≠ ']' ∧
      isUnsafeUrlByte x = false ∧ pyIsSpace x = false := by
    intro x hx
    rcases List.mem_append.mp hx with hx | hx
    · exact hHn x hx
    · rcases List.mem_cons.mp hx with rfl | hx
      · refine ⟨by decide, by decide, by decide, by decide, by decide, by decide,
          by decide⟩
      · have h := hPORT x hx
        exact ⟨h.1, h.2.1, h.2.2.1, h.2.2.2.1, h.2.2.2.2.1, h.2.2.2.2.2.2.1,
          h.2.2.2.2.2.2.2⟩
  have hN3 : ∀ x ∈ U ++ '@' :: H,
      x ≠ '/' ∧ x ≠ '?' ∧ x ≠ '#' ∧ x ≠ '[' ∧ x ≠ ']' ∧
      isUnsafeUrlByte x = false ∧ pyIsSpace x = false := by
    intro x hx
    rcases List.mem_append.mp hx with hx | hx
    · exact hU x hx
    · rcases List.mem_cons.mp hx with rfl | hx
      · refine ⟨by decide, by decide, by decide, by decide, by decide, by decide,
          by decide⟩
      · exact hHn x hx
  exact ⟨canon_collapse_netloc c S _ H P hc hS hN1 hH hP hHne
      (hostinfoHostname_up_port U H PORT hHb hPb),
    canon_collapse_netloc c S _ H P hc hS hN2 hH hP hHne
      (hostinfoHostname_port H PORT hHb hPb),
    canon_collapse_netloc c S _ H P hc hS hN3 hH hP hHne
      (hostinfoHostname_up U H hHb)⟩

theorem C10_userinfo_port_collapse_witness :
    canonicalize_url (('h' :: "ttps".toList) ++ ':' :: '/' :: '/' ::
        (("user:pw".toList ++ '@' :: ("example.com".toList ++ ':' :: "8080".toList)) ++
          '/' :: "x".toList)) =
      canonicalize_url (('h' :: "ttps".toList) ++ ':' :: '/' :: '/' ::
        ("example.com".toList ++ '/' :: "x".toList)) ∧
    canonicalize_url (('h' :: "ttps".toList) ++ ':' :: '/' :: '/' ::
        (("example.com".toList ++ ':' :: "8080".toList) ++ '/' :: "x".toList)) =
      canonicalize_url (('h' :: "ttps".toList) ++ ':' :: '/' :: '/' ::
        ("example.com".toList ++ '/' :: "x".toList)) ∧
    canonicalize_url (('h' :: "ttps".toList) ++ ':' :: '/' :: '/' ::
        (("user:pw".toList ++ '@' :: "example.com".toList) ++ '/' :: "x".toList)) =
      canonicalize_url (('h' :: "ttps".toList) ++ ':' :: '/' :: '/' ::
        ("example.com".toList ++ '/' :: "x".toList)) :=
  C10_userinfo_port_collapse 'h' "ttps".toList "user:pw".toList "example.com".toList
    "8080".toList "x".toList (by decide) (by decide) (by decide) (by decide) (by decide)
    (by decide) (by decide)

theorem replaceChar_id (old new : Char) (s : Str) (h : ∀ x ∈ s, x ≠ old) :
    pyReplaceChar old new s = s := by
  unfold pyReplaceChar
  rw [List.map_congr_left (fun x hx => by rw [if_neg (h x hx)])]
  exact List.map_id s

theorem hexUpper_toNat (n : Nat) (h : n < 16) :
    (hexUpperDigit n).toNat = if n < 10 then 48 + n else 55 + n := by
  unfold hexUpperDigit
  by_cases h10 : n < 10
  · rw [if_pos h10, if_pos h10, toNat_ofNat_small _ (by omega)]
  · rw [if_neg h10, if_neg h10, toNat_ofNat_small _ (by omega)]

theorem hexUpper_roundtrip (n : Nat) (h : n < 16) :
    hexByteVal (hexUpperDigit n).toNat = some n := by
  rw [hexUpper_toNat n h]
  unfold hexByteVal
  by_cases h10 : n < 10
  · rw [if_pos h10, if_pos (by omega)]
    simp
  · rw [if_neg h10, if_neg (by omega), if_neg (by omega), if_pos (by omega)]
    simp only [Option.some.injEq]
    omega

theorem utf8Encode_ascii (s : Str) (h : ∀ x ∈ s, x.toNat < 128) :
    utf8Encode s = s.map Char.toNat := by
  induction s with
  | nil => rfl
  | cons a t ih =>
    have ha : a.toNat < 128 := h a (List.mem_cons_self a t)
    unfold utf8Encode at *
    rw [List.flatMap_cons, ih (fun x hx => h x (List.mem_cons_of_mem a hx)),
        List.map_cons]
    unfold utf8EncodeChar
    rw [if_pos (by omega)]
    rfl

theorem utf8DecodeGo_ascii (bs : Bytes) (fuel : Nat) (hf : bs.length ≤ fuel)
    (h : ∀ b ∈ bs, b < 128) :
    utf8DecodeGo fuel bs = bs.map Char.ofNat := by
  induction bs generalizing fuel with
  | nil => cases fuel <;> rfl
  | cons b t ih =>
    cases fuel with
    | zero => simp at hf
    | succ f =>
      unfold utf8DecodeGo
      rw [if_pos (by simpa using h b (List.mem_cons_self b t))]
      rw [ih f (by simpa using hf) (fun x hx => h x (List.mem_cons_of_mem b hx))]
      rfl

theorem utf8Decode_ascii (bs : Bytes) (h : ∀ b ∈ bs, b < 128) :
    utf8DecodeReplace bs = bs.map Char.ofNat :=
  utf8DecodeGo_ascii bs bs.length le_rfl h

theorem asciiRuns_ascii (s : Str) (hne : s ≠ []) (h : ∀ x ∈ s, x.toNat < 128) :
    asciiRuns s = ([], [(s, [])]) := by
  induction s with
  | nil => exact absurd rfl hne
  | cons a t ih =>
    unfold asciiRuns
    have ha : a.toNat ≤ 127 := by
      have := h a (List.mem_cons_self a t)
      omega
    cases t with
    | nil =>
      rw [if_pos (by simpa using ha)]
      rfl
    | cons b u =>
      rw [ih (by simp) (fun x hx => h x (List.mem_cons_of_mem a hx)),
          if_pos (by simpa using ha)]

theorem flatMap_safe_map (bs : Bytes) (safe : List Nat)
    (h : ∀ b ∈ bs, (alwaysSafeByte b || safe.contains b) = true) :
    (bs.flatMap fun b =>
      if alwaysSafeByte b || safe.contains b then [Char.ofNat b] else percentEscape b) =
      bs.map Char.ofNat := by
  induction bs with
  | nil => rfl
  | cons b t ih =>
    rw [List.flatMap_cons, ih (fun x hx => h x (List.mem_cons_of_mem b hx)),
        if_pos (h b (List.mem_cons_self b t))]
    rfl

theorem quote_from_bytes_eq (bs : Bytes) (safe : List Nat) :
    quote_from_bytes bs safe = bs.flatMap fun b =>
      if alwaysSafeByte b || safe.contains b then [Char.ofNat b] else percentEscape b := by
  unfold quote_from_bytes
  by_cases hbs : bs = []
  · subst hbs
    simp
  · rw [if_neg hbs]
    by_cases hall : bs.all (fun b => alwaysSafeByte b || safe.contains b) = true
    · rw [if_pos hall, flatMap_safe_map bs safe (List.all_eq_true.mp hall)]
    · rw [if_neg hall]

theorem char_ne_of_toNat_ne (a b : Char) (h : a.toNat ≠ b.toNat) : a ≠ b :=
  fun e => h (congrArg Char.toNat e)

theorem safeByte_facts (b : Nat) (h : alwaysSafeByte b = true) :
    33 ≤ b ∧ b ≤ 126 ∧ b ≠ 32 ∧ b ≠ 43 ∧ b ≠ 37 ∧ b ≠ 38 ∧ b ≠ 61 ∧ b ≠ 35 ∧
    b ≠ 63 ∧ b ≠ 47 ∧ b ≠ 9 ∧ b ≠ 13 ∧ b ≠ 10 ∧ b ≠ 64 ∧ b ≠ 91 ∧ b ≠ 93 := by
  unfold alwaysSafeByte at h
  simp only [Bool.or_eq_true, Bool.and_eq_true, beq_iff_eq, decide_eq_true_eq] at h
  omega

theorem pesc_mem_toNat (b : Nat) (hb : b < 256) (x : Char) (hx : x ∈ percentEscape b) :
    x.toNat = 37 ∨ (48 ≤ x.toNat ∧ x.toNat ≤ 57) ∨ (65 ≤ x.toNat ∧ x.toNat ≤ 70) := by
  unfold percentEscape at hx
  have h1 : b / 16 < 16 := by omega
  have h2 : b % 16 < 16 := by omega
  rcases List.mem_cons.mp hx with rfl | hx
  · left; rfl
  · rcases List.mem_cons.mp hx with rfl | hx
    · rw [hexUpper_toNat _ h1]
      by_cases hlt : b / 16 < 10
      · rw [if_pos hlt]; omega
      · rw [if_neg hlt]; omega
    · rcases List.mem_cons.mp hx with rfl | hx
      · rw [hexUpper_toNat _ h2]
        by_cases hlt : b % 16 < 10
        · rw [if_pos hlt]; omega
        · rw [if_neg hlt]; omega
      · simp at hx

theorem decPlusByte_mem_toNat (b : Nat) (hb : b < 256) (x : Char)
    (hx : x ∈ decPlusByte b) :
    (alwaysSafeByte b = true ∧ x = Char.ofNat b) ∨ x.toNat = 32 ∨ x.toNat = 37 ∨
    (48 ≤ x.toNat ∧ x.toNat ≤ 57) ∨ (65 ≤ x.toNat ∧ x.toNat ≤ 70) := by
  unfold decPlusByte at hx
  by_cases hs : alwaysSafeByte b = true
  · rw [if_pos hs] at hx
    rcases List.mem_cons.mp hx with rfl | hx
    · exact Or.inl ⟨hs, rfl⟩
    · simp at hx
  · rw [if_neg hs] at hx
    by_cases h32 : b = 32
    · rw [if_pos h32] at hx
      rcases List.mem_cons.mp hx with rfl | hx
      · right; left; rfl
      · simp at hx
    · rw [if_neg h32] at hx
      rcases pesc_mem_toNat b hb x hx with h | h | h
      · right; right; left; exact h
      · right; right; right; left; exact h
      · right; right; right; right; exact h

theorem replace_flatMap (old new : Char) (l : List Nat) (f : Nat → Str) :
    pyReplaceChar old new (l.flatMap f) =
      l.flatMap fun b => (f b).map (fun c => if c = old then new else c) := by
  unfold pyReplaceChar
  exact List.map_flatMap _ _ _

theorem quote_plus_eq (s : Str) (hA : ∀ x ∈ s, x.toNat < 128) :
    pyReplaceChar '+' ' ' (quote_plus s []) =
      (s.map Char.toNat).flatMap decPlusByte := by
  have hxs : ∀ b ∈ s.map Char.toNat, b < 128 := by
    intro b hb
    obtain ⟨c, hc, rfl⟩ := List.mem_map.mp hb
    exact hA c hc
  unfold quote_plus
  by_cases hsp : pyContains s ' ' = true
  · rw [if_neg (by simpa using hsp)]
    have hs0 : s ≠ [] := by
      intro e
      subst e
      simp [pyContains] at hsp
    unfold pyQuote
    rw [if_neg hs0]
    have hsl : (((([] : Str) ++ [' ']).filter (fun c => c.toNat < 128)).map Char.toNat) =
        [32] := by decide
    rw [hsl, utf8Encode_ascii s hA, quote_from_bytes_eq]
    rw [replace_flatMap ' ' '+' (s.map Char.toNat), replace_flatMap '+' ' ' (s.map Char.toNat)]
    refine List.flatMap_congr ?_
    intro b hb
    have hb128 : b < 128 := hxs b hb
    by_cases hsafe : alwaysSafeByte b = true
    · have hf := safeByte_facts b hsafe
      have hcond : (alwaysSafeByte b || List.contains [32] b) = true := by
        rw [hsafe]; rfl
      rw [hcond]
      have htn : (Char.ofNat b).toNat = b := toNat_ofNat_small b (by omega)
      have hne1 : Char.ofNat b ≠ ' ' := char_ne_of_toNat_ne _ _ (by rw [htn]; exact hf.2.2.1)
      have hne2 : Char.ofNat b ≠ '+' := char_ne_of_toNat_ne _ _ (by rw [htn]; exact hf.2.2.2.1)
      simp only [if_true, List.map_cons, List.map_nil, if_neg hne1, if_neg hne2]
      rw [decPlusByte, if_pos hsafe]
    · by_cases h32 : b = 32
      · subst h32
        have hcond : (alwaysSafeByte 32 || List.contains [32] 32) = true := by decide
        rw [hcond]
        simp only [if_true, List.map_cons, List.map_nil]
        decide
      · have hcond : (alwaysSafeByte b || List.contains [32] b) = false := by
          rw [Bool.or_eq_false_iff]
          refine ⟨by simpa using hsafe, ?_⟩
          simp [h32]
        rw [hcond]
        simp only [Bool.false_eq_true, if_false]
        have hmap1 : (percentEscape b).map (fun c => if c = ' ' then '+' else c) =
            percentEscape b := by
          refine List.map_congr_left ?_ |>.trans (List.map_id _)
          intro x hx
          rcases pesc_mem_toNat b (by omega) x hx with h | h | h <;>
            exact if_neg (char_ne_of_toNat_ne _ _ (by
              have e1 : (' ' : Char).toNat = 32 := rfl
              have e2 : ('+' : Char).toNat = 43 := rfl
              omega))
        have hmap2 : (percentEscape b).map (fun c => if c = '+' then ' ' else c) =
            percentEscape b := by
          refine List.map_congr_left ?_ |>.trans (List.map_id _)
          intro x hx
          rcases pesc_mem_toNat b (by omega) x hx with h | h | h <;>
            exact if_neg (char_ne_of_toNat_ne _ _ (by
              have e1 : (' ' : Char).toNat = 32 := rfl
              have e2 : ('+' : Char).toNat = 43 := rfl
              omega))
        rw [hmap1, hmap2, decPlusByte, if_neg hsafe, if_neg h32]
  · rw [if_pos (by simpa using hsp)]
    have hnosp : ∀ x ∈ s, x ≠ ' ' := by
      intro x hx e
      subst e
      apply hsp
      unfold pyContains
      rw [List.contains_eq_any_beq]
      refine List.any_eq_true.mpr ⟨' ', hx, by simp⟩
    unfold pyQuote
    by_cases hs0 : s = []
    · subst hs0
      simp [pyReplaceChar]
    · rw [if_neg hs0]
      have hsl : ((([] : Str).filter (fun c => c.toNat < 128)).map Char.toNat) =
          [] := rfl
      rw [hsl, utf8Encode_ascii s hA, quote_from_bytes_eq]
      rw [replace_flatMap '+' ' ' (s.map Char.toNat)]
      refine List.flatMap_congr ?_
      intro b hb
      have hb128 : b < 128 := hxs b hb
      have hb32 : b ≠ 32 := by
        obtain ⟨c, hc, rfl⟩ := List.mem_map.mp hb
        intro e
        exact hnosp c hc (by
          have := Char.ofNat_toNat c
          rw [e] at this
          rw [← this])
      have hnil : List.contains ([] : List Nat) b = false := rfl
      rw [hnil, Bool.or_false]
      by_cases hsafe : alwaysSafeByte b = true
      · have hf := safeByte_facts b hsafe
        have htn : (Char.ofNat b).toNat = b := toNat_ofNat_small b (by omega)
        have hne2 : Char.ofNat b ≠ '+' := char_ne_of_toNat_ne _ _ (by rw [htn]; exact hf.2.2.2.1)
        rw [if_pos hsafe]
        simp only [List.map_cons, List.map_nil, if_neg hne2]
        rw [decPlusByte, if_pos hsafe]
      · rw [if_neg hsafe]
        have hmap2 : (percentEscape b).map (fun c => if c = '+' then ' ' else c) =
            percentEscape b := by
          refine List.map_congr_left ?_ |>.trans (List.map_id _)
          intro x hx
          rcases pesc_mem_toNat b (by omega) x hx with h | h | h <;>
            exact if_neg (char_ne_of_toNat_ne _ _ (by
              have e1 : (' ' : Char).toNat = 32 := rfl
              have e2 : ('+' : Char).toNat = 43 := rfl
              omega))
        rw [hmap2, decPlusByte, if_neg hsafe, if_neg hb32]

theorem go_cons_ne_1 (x : Nat) (xs : Bytes) (hx : x ≠ 37) :
    (bytesSplitPercent.go (x :: xs)).1 = x :: (bytesSplitPercent.go xs).1 := by
  rw [bytesSplitPercent.go]
  simp [hx]

theorem go_cons_ne_2 (x : Nat) (xs : Bytes) (hx : x ≠ 37) :
    (bytesSplitPercent.go (x :: xs)).2 = (bytesSplitPercent.go xs).2 := by
  rw [bytesSplitPercent.go]
  simp [hx]

theorem go_cons_pct_1 (xs : Bytes) :
    (bytesSplitPercent.go (37 :: xs)).1 = [] := by
  rw [bytesSplitPercent.go]
  rfl

theorem go_cons_pct_2 (xs : Bytes) :
    (bytesSplitPercent.go (37 :: xs)).2 =
      (bytesSplitPercent.go xs).1 :: (bytesSplitPercent.go xs).2 := by
  rw [bytesSplitPercent.go]
  rfl

theorem hexDigitByte_ne_pct (n : Nat) (h : n < 16) : (hexUpperDigit n).toNat ≠ 37 := by
  rw [hexUpper_toNat n h]
  by_cases h10 : n < 10
  · rw [if_pos h10]; omega
  · rw [if_neg h10]; omega

theorem unquoteItem_hex (h1 h2 : Nat) (r : Bytes) (v1 v2 : Nat)
    (e1 : hexByteVal h1 = some v1) (e2 : hexByteVal h2 = some v2) :
    unquoteItem (h1 :: h2 :: r) = (v1 * 16 + v2) :: r := by
  simp only [unquoteItem]
  rw [e1, e2]

theorem go_decPlus (xs : Bytes) (h : ∀ b ∈ xs, b < 256) :
    (bytesSplitPercent.go (xs.flatMap decPlusBytes)).1 ++
      (bytesSplitPercent.go (xs.flatMap decPlusBytes)).2.flatMap unquoteItem = xs := by
  induction xs with
  | nil => rfl
  | cons b rest ih =>
    have hb : b < 256 := h b (List.mem_cons_self b rest)
    have ihr := ih (fun x hx => h x (List.mem_cons_of_mem b hx))
    rw [List.flatMap_cons]
    rw [decPlusBytes]
    by_cases hsafe : alwaysSafeByte b = true
    · rw [if_pos hsafe, List.cons_append, List.nil_append,
          go_cons_ne_1 b _ (safeByte_facts b hsafe).2.2.2.2.1,
          go_cons_ne_2 b _ (safeByte_facts b hsafe).2.2.2.2.1,
          List.cons_append, ihr]
    · rw [if_neg hsafe]
      by_cases h32 : b = 32
      · rw [if_pos h32]
        subst h32
        rw [List.cons_append, List.nil_append, go_cons_ne_1 32 _ (by omega),
            go_cons_ne_2 32 _ (by omega), List.cons_append, ihr]
      · rw [if_neg h32]
        have h1 : b / 16 < 16 := by omega
        have h2 : b % 16 < 16 := by omega
        rw [List.cons_append, List.cons_append, List.cons_append, List.nil_append,
            go_cons_pct_1, go_cons_pct_2,
            go_cons_ne_1 _ _ (hexDigitByte_ne_pct _ h1),
            go_cons_ne_2 _ _ (hexDigitByte_ne_pct _ h1),
            go_cons_ne_1 _ _ (hexDigitByte_ne_pct _ h2),
            go_cons_ne_2 _ _ (hexDigitByte_ne_pct _ h2),
            List.nil_append, List.flatMap_cons,
            unquoteItem_hex _ _ _ _ _ (hexUpper_roundtrip _ h1) (hexUpper_roundtrip _ h2),
            show b / 16 * 16 + b % 16 = b from by omega,
            List.cons_append, ihr]

theorem go_join (bs : Bytes) :
    (bytesSplitPercent.go bs).1 ++
      (bytesSplitPercent.go bs).2.flatMap (fun i => 37 :: i) = bs := by
  induction bs with
  | nil => rfl
  | cons x xs ih =>
    by_cases hx : x = 37
    · subst hx
      rw [go_cons_pct_1, go_cons_pct_2, List.nil_append, List.flatMap_cons,
          List.cons_append, ih]
    · rw [go_cons_ne_1 x _ hx, go_cons_ne_2 x _ hx, List.cons_append, ih]

theorem decPlusByte_ascii (b : Nat) (hb : b < 128) (x : Char) (hx : x ∈ decPlusByte b) :
    x.toNat < 128 := by
  rcases decPlusByte_mem_toNat b (by omega) x hx with ⟨hs, rfl⟩ | h | h | h | h
  · rw [toNat_ofNat_small b (by omega)]
    exact hb
  · omega
  · omega
  · omega
  · omega

theorem utf8Encode_decPlus (xs : Bytes) (h : ∀ b ∈ xs, b < 128) :
    utf8Encode (xs.flatMap decPlusByte) = xs.flatMap decPlusBytes := by
  rw [utf8Encode_ascii _ (by
    intro x hx
    obtain ⟨b, hb, hxb⟩ := List.mem_flatMap.mp hx
    exact decPlusByte_ascii b (h b hb) x hxb)]
  rw [List.map_flatMap]
  refine List.flatMap_congr ?_
  intro b hb
  have hb128 : b < 128 := h b hb
  rw [decPlusByte, decPlusBytes]
  by_cases hsafe : alwaysSafeByte b = true
  · rw [if_pos hsafe, if_pos hsafe, List.map_cons, List.map_nil,
        toNat_ofNat_small b (by omega)]
  · rw [if_neg hsafe, if_neg hsafe]
    by_cases h32 : b = 32
    · rw [if_pos h32, if_pos h32]
      rfl
    · rw [if_neg h32, if_neg h32]
      rfl

theorem unquote_to_bytes_decPlus (xs : Bytes) (h : ∀ b ∈ xs, b < 128) :
    unquote_to_bytes (xs.flatMap decPlusByte) = xs := by
  simp only [unquote_to_bytes]
  rw [utf8Encode_decPlus xs h]
  have hrec := go_decPlus xs (fun b hb => by have := h b hb; omega)
  rw [show bytesSplitPercent (xs.flatMap decPlusBytes) =
      (bytesSplitPercent.go (xs.flatMap decPlusBytes)).1 ::
      (bytesSplitPercent.go (xs.flatMap decPlusBytes)).2 from rfl]
  cases hgo : (bytesSplitPercent.go (xs.flatMap decPlusBytes)).2 with
  | nil =>
    have hj := go_join (xs.flatMap decPlusBytes)
    rw [hgo] at hj hrec
    simp only [List.flatMap_nil, List.append_nil] at hj hrec
    rw [← hj, hrec]
  | cons i is =>
    rw [hgo] at hrec
    exact hrec

theorem unquote_replace_quote (s : Str) (hA : ∀ x ∈ s, x.toNat < 128) :
    pyUnquote (pyReplaceChar '+' ' ' (quote_plus s [])) = s := by
  rw [quote_plus_eq s hA]
  have hxs : ∀ b ∈ s.map Char.toNat, b < 128 := by
    intro b hb
    obtain ⟨c, hc, rfl⟩ := List.mem_map.mp hb
    exact hA c hc
  unfold pyUnquote
  by_cases hp : pyContains ((s.map Char.toNat).flatMap decPlusByte) '%' = true
  · rw [if_neg (by simpa using hp)]
    have hne : (s.map Char.toNat).flatMap decPlusByte ≠ [] := by
      intro e
      rw [e] at hp
      simp [pyContains] at hp
    rw [asciiRuns_ascii _ hne (by
      intro x hx
      obtain ⟨b, hb, hxb⟩ := List.mem_flatMap.mp hx
      exact decPlusByte_ascii b (hxs b hb) x hxb)]
    show ([] : Str) ++ [((List.map Char.toNat s).flatMap decPlusByte, ([] : Str))].flatMap
        (fun ar => utf8DecodeReplace (unquote_to_bytes ar.1) ++ ar.2) = s
    rw [List.flatMap_cons, List.flatMap_nil, List.nil_append, List.append_nil,
        List.append_nil]
    rw [unquote_to_bytes_decPlus _ hxs]
    rw [utf8Decode_ascii _ hxs, List.map_map]
    refine (List.map_congr_left ?_).trans (List.map_id s)
    intro c _
    exact Char.ofNat_toNat c
  · rw [if_pos (by simpa using hp)]
    have hid : ∀ c ∈ s, decPlusByte c.toNat = [c] := by
      intro c hc
      by_cases hsafe : alwaysSafeByte c.toNat = true
      · rw [decPlusByte, if_pos hsafe, Char.ofNat_toNat]
      · by_cases h32 : c.toNat = 32
        · rw [decPlusByte, if_neg hsafe, if_pos h32]
          have : c = ' ' := by
            have := Char.ofNat_toNat c
            rw [h32] at this
            rw [← this]
          rw [this]
        · exfalso
          apply hp
          unfold pyContains
          rw [List.contains_eq_any_beq]
          refine List.any_eq_true.mpr ⟨'%', ?_, by simp⟩
          refine List.mem_flatMap.mpr ⟨c.toNat, List.mem_map_of_mem Char.toNat hc, ?_⟩
          rw [decPlusByte, if_neg hsafe, if_neg h32]
          exact List.mem_cons_self '%' _
    rw [List.flatMap_map]
    have hcg : (s.flatMap fun a => decPlusByte a.toNat) = s.flatMap (fun c => [c]) :=
      List.flatMap_congr (fun c hc => hid c hc)
    rw [hcg]
    exact List.flatMap_singleton' s

theorem char_eq_of_toNat (x : Char) (n : Nat) (h : x.toNat = n) : x = Char.ofNat n := by
  rw [← h, Char.ofNat_toNat]

theorem quotedChar_of_toNat (x : Char)
    (h : alwaysSafeByte x.toNat = true ∨ x.toNat = 43 ∨ x.toNat = 37 ∨
      (48 ≤ x.toNat ∧ x.toNat ≤ 57) ∨ (65 ≤ x.toNat ∧ x.toNat ≤ 70)) :
    quotedChar x = true := by
  unfold quotedChar
  simp only [Bool.or_eq_true, Bool.and_eq_true, beq_iff_eq, decide_eq_true_eq]
  rcases h with h | h | h | h | h
  · exact Or.inl (Or.inl (Or.inl (Or.inl h)))
  · exact Or.inl (Or.inl (Or.inl (Or.inr (by rw [char_eq_of_toNat x _ h]))))
  · exact Or.inl (Or.inl (Or.inr (by rw [char_eq_of_toNat x _ h])))
  · exact Or.inl (Or.inr h)
  · exact Or.inr h

theorem quotedChar_facts (x : Char) (h : quotedChar x = true) :
    33 ≤ x.toNat ∧ x.toNat ≤ 126 ∧ x ≠ '=' ∧ x ≠ '&' ∧ x ≠ '#' ∧ x ≠ '?' ∧
    x ≠ '/' ∧ x ≠ '@' ∧ x ≠ '[' ∧ x ≠ ']' ∧ isUnsafeUrlByte x = false ∧
    pyIsSpace x = false := by
  have hrange : 33 ≤ x.toNat ∧ x.toNat ≤ 126 ∧ x.toNat ≠ 61 ∧ x.toNat ≠ 38 ∧
      x.toNat ≠ 35 ∧ x.toNat ≠ 63 ∧ x.toNat ≠ 47 ∧ x.toNat ≠ 64 ∧ x.toNat ≠ 91 ∧
      x.toNat ≠ 93 ∧ x.toNat ≠ 9 ∧ x.toNat ≠ 13 ∧ x.toNat ≠ 10 := by
    by_cases hsafe : alwaysSafeByte x.toNat = true
    · have hsf := safeByte_facts _ hsafe
      omega
    · have hf : alwaysSafeByte x.toNat = false := by simpa using hsafe
      unfold quotedChar at h
      rw [hf] at h
      simp only [Bool.false_or, Bool.or_eq_true, Bool.and_eq_true, beq_iff_eq,
        decide_eq_true_eq] at h
      rcases h with ((h | h) | h) | h
      · subst h; refine ⟨by decide, by decide, by decide, by decide, by decide,
          by decide, by decide, by decide, by decide, by decide, by decide,
          by decide, by decide⟩
      · subst h; refine ⟨by decide, by decide, by decide, by decide, by decide,
          by decide, by decide, by decide, by decide, by decide, by decide,
          by decide, by decide⟩
      · omega
      · omega
  refine ⟨hrange.1, hrange.2.1,
    char_ne_of_toNat_ne _ _ (by have e : ('=' : Char).toNat = 61 := rfl; omega),
    char_ne_of_toNat_ne _ _ (by have e : ('&' : Char).toNat = 38 := rfl; omega),
    char_ne_of_toNat_ne _ _ (by have e : ('#' : Char).toNat = 35 := rfl; omega),
    char_ne_of_toNat_ne _ _ (by have e : ('?' : Char).toNat = 63 := rfl; omega),
    char_ne_of_toNat_ne _ _ (by have e : ('/' : Char).toNat = 47 := rfl; omega),
    char_ne_of_toNat_ne _ _ (by have e : ('@' : Char).toNat = 64 := rfl; omega),
    char_ne_of_toNat_ne _ _ (by have e : ('[' : Char).toNat = 91 := rfl; omega),
    char_ne_of_toNat_ne _ _ (by have e : (']' : Char).toNat = 93 := rfl; omega),
    notUnsafe_of_ne _
      (char_ne_of_toNat_ne _ _ (by have e : ('\t' : Char).toNat = 9 := rfl; omega))
      (char_ne_of_toNat_ne _ _ (by have e : ('\r' : Char).toNat = 13 := rfl; omega))
      (char_ne_of_toNat_ne _ _ (by have e : ('\n' : Char).toNat = 10 := rfl; omega)),
    pyIsSpace_false_of_print x hrange.1 hrange.2.1⟩

theorem quote_plus_mem (s : Str) (hA : ∀ x ∈ s, x.toNat < 128) :
    ∀ x ∈ quote_plus s [], quotedChar x = true := by
  have hxs : ∀ b ∈ s.map Char.toNat, b < 128 := by
    intro b hb
    obtain ⟨c, hc, rfl⟩ := List.mem_map.mp hb
    exact hA c hc
  intro x hx
  unfold quote_plus at hx
  by_cases hsp : pyContains s ' ' = true
  · rw [if_neg (by simpa using hsp)] at hx
    have hs0 : s ≠ [] := by
      intro e
      subst e
      simp [pyContains] at hsp
    unfold pyReplaceChar at hx
    obtain ⟨y, hy, rfl⟩ := List.mem_map.mp hx
    unfold pyQuote at hy
    rw [if_neg hs0] at hy
    have hsl : (((([] : Str) ++ [' ']).filter (fun c => c.toNat < 128)).map
        Char.toNat) = [32] := by decide
    rw [hsl, utf8Encode_ascii s hA, quote_from_bytes_eq] at hy
    obtain ⟨b, hb, hyb⟩ := List.mem_flatMap.mp hy
    have hb128 : b < 128 := hxs b hb
    by_cases hsafe : alwaysSafeByte b = true
    · have hcond : (alwaysSafeByte b || List.contains [32] b) = true := by
        rw [hsafe]; rfl
      rw [hcond, if_pos rfl] at hyb
      rcases List.mem_cons.mp hyb with rfl | hyb
      · have hf := safeByte_facts b hsafe
        have htn : (Char.ofNat b).toNat = b := toNat_ofNat_small b (by omega)
        rw [if_neg (char_ne_of_toNat_ne _ _ (by
          rw [htn]
          have e : (' ' : Char).toNat = 32 := rfl
          omega))]
        exact quotedChar_of_toNat _ (Or.inl (by rw [htn]; exact hsafe))
      · simp at hyb
    · by_cases h32 : b = 32
      · subst h32
        have hcond : (alwaysSafeByte 32 || List.contains [32] 32) = true := by decide
        rw [hcond, if_pos rfl] at hyb
        rcases List.mem_cons.mp hyb with rfl | hyb
        · rw [show Char.ofNat 32 = ' ' from rfl, if_pos rfl]
          decide
        · simp at hyb
      · have hcond : (alwaysSafeByte b || List.contains [32] b) = false := by
          rw [Bool.or_eq_false_iff]
          refine ⟨by simpa using hsafe, by simp [h32]⟩
        rw [hcond] at hyb
        simp only [Bool.false_eq_true, if_false] at hyb
        have hcls := pesc_mem_toNat b (by omega) y hyb
        have hys : y ≠ ' ' := char_ne_of_toNat_ne _ _ (by
          have e : (' ' : Char).toNat = 32 := rfl
          rcases hcls with h | h | h <;> omega)
        rw [if_neg hys]
        refine quotedChar_of_toNat _ ?_
        rcases hcls with h | h | h
        · exact Or.inr (Or.inr (Or.inl h))
        · exact Or.inr (Or.inr (Or.inr (Or.inl h)))
        · exact Or.inr (Or.inr (Or.inr (Or.inr h)))
  · rw [if_pos (by simpa using hsp)] at hx
    unfold pyQuote at hx
    by_cases hs0 : s = []
    · subst hs0
      rw [if_pos rfl] at hx
      simp at hx
    · rw [if_neg hs0] at hx
      have hsl : ((([] : Str).filter (fun c => c.toNat < 128)).map Char.toNat) =
          [] := rfl
      rw [hsl, utf8Encode_ascii s hA, quote_from_bytes_eq] at hx
      obtain ⟨b, hb, hxb⟩ := List.mem_flatMap.mp hx
      have hb128 : b < 128 := hxs b hb
      have hnil : List.contains ([] : List Nat) b = false := rfl
      rw [hnil, Bool.or_false] at hxb
      by_cases hsafe : alwaysSafeByte b = true
      · rw [if_pos hsafe] at hxb
        rcases List.mem_cons.mp hxb with rfl | hxb
        · have htn : (Char.ofNat b).toNat = b := toNat_ofNat_small b (by omega)
          exact quotedChar_of_toNat _ (Or.inl (by rw [htn]; exact hsafe))
        · simp at hxb
      · rw [if_neg hsafe] at hxb
        have hcls := pesc_mem_toNat b (by omega) x hxb
        refine quotedChar_of_toNat _ ?_
        rcases hcls with h | h | h
        · exact Or.inr (Or.inr (Or.inl h))
        · exact Or.inr (Or.inr (Or.inr (Or.inl h)))
        · exact Or.inr (Or.inr (Or.inr (Or.inr h)))

theorem splitAllGo_cons_ne (c x : Char) (xs : Str) (hx : x ≠ c) :
    pySplitAllGo c (x :: xs) =
      (x :: (pySplitAllGo c xs).1, (pySplitAllGo c xs).2) := by
  rw [pySplitAllGo]
  simp [hx]

theorem splitAllGo_cons_sep (c : Char) (xs : Str) :
    pySplitAllGo c (c :: xs) =
      ([], (pySplitAllGo c xs).1 :: (pySplitAllGo c xs).2) := by
  rw [pySplitAllGo]
  simp

theorem splitAllGo_nosep (c : Char) (p : Str) (h : ∀ x ∈ p, x ≠ c) :
    pySplitAllGo c p = (p, []) := by
  induction p with
  | nil => rfl
  | cons x xs ih =>
    rw [splitAllGo_cons_ne c x xs (h x (List.mem_cons_self x xs)),
        ih (fun y hy => h y (List.mem_cons_of_mem x hy))]

theorem splitAllGo_concat (c : Char) (a T : Str) (h : ∀ x ∈ a, x ≠ c) :
    pySplitAllGo c (a ++ c :: T) =
      (a, (pySplitAllGo c T).1 :: (pySplitAllGo c T).2) := by
  induction a with
  | nil =>
    rw [List.nil_append, splitAllGo_cons_sep]
  | cons x xs ih =>
    rw [List.cons_append, splitAllGo_cons_ne c x _ (h x (List.mem_cons_self x xs)),
        ih (fun y hy => h y (List.mem_cons_of_mem x hy))]

theorem splitAll_join (c : Char) (p : Str) (ps : List Str)
    (h : ∀ q ∈ p :: ps, ∀ x ∈ q, x ≠ c) :
    pySplitAll c (pyJoin c (p :: ps)) = p :: ps := by
  induction ps generalizing p with
  | nil =>
    unfold pySplitAll pyJoin
    rw [splitAllGo_nosep c p (h p (List.mem_cons_self p []))]
  | cons q rest ih =>
    unfold pySplitAll
    rw [show pyJoin c (p :: q :: rest) = p ++ c :: pyJoin c (q :: rest) from rfl]
    rw [splitAllGo_concat c p _ (h p (List.mem_cons_self p _))]
    have := ih q (fun r hr => h r (List.mem_cons_of_mem p hr))
    unfold pySplitAll at this
    rw [show ((pySplitAllGo c (pyJoin c (q :: rest))).1, (pySplitAllGo c
      (pyJoin c (q :: rest))).2).1 = (pySplitAllGo c (pyJoin c (q :: rest))).1
      from rfl]
    rw [List.cons.injEq] at this
    rw [show (pySplitAllGo c (pyJoin c (q :: rest))).1 :: (pySplitAllGo c
      (pyJoin c (q :: rest))).2 = q :: rest from by
        rw [this.1]
        rw [List.cons.injEq]
        exact ⟨rfl, this.2⟩]

theorem parseQslSegment_enc (k v : Str)
    (hk : ∀ x ∈ k, x.toNat < 128) (hv : ∀ x ∈ v, x.toNat < 128) :
    parseQslSegment (quote_plus k [] ++ '=' :: quote_plus v []) = [(k, v)] := by
  have hne : quote_plus k [] ++ '=' :: quote_plus v [] ≠ [] := by
    intro e
    cases hq : quote_plus k [] with
    | nil => rw [hq] at e; simp at e
    | cons a t => rw [hq] at e; simp at e
  unfold parseQslSegment
  rw [if_neg hne]
  rw [pySplit1_concat '=' _ _ (fun x hx => (quotedChar_facts x
    (quote_plus_mem k hk x hx)).2.2.1)]
  show [(pyUnquote (pyReplaceChar '+' ' ' (quote_plus k [])),
    pyUnquote (pyReplaceChar '+' ' ' (quote_plus v [])))] = [(k, v)]
  rw [unquote_replace_quote k hk, unquote_replace_quote v hv]

theorem flatMap_segments (L : List (Str × Str))
    (hA : ∀ kv ∈ L, (∀ x ∈ kv.1, x.toNat < 128) ∧ (∀ x ∈ kv.2, x.toNat < 128)) :
    (L.map (fun kv => quote_plus kv.1 [] ++ '=' :: quote_plus kv.2 [])).flatMap
      parseQslSegment = L := by
  induction L with
  | nil => rfl
  | cons q rest ih =>
    rw [List.map_cons, List.flatMap_cons,
        parseQslSegment_enc q.1 q.2 (hA q (List.mem_cons_self q rest)).1
          (hA q (List.mem_cons_self q rest)).2,
        ih (fun kv hkv => hA kv (List.mem_cons_of_mem q hkv))]
    rfl

theorem parse_qsl_urlencode (L : List (Str × Str))
    (hA : ∀ kv ∈ L, (∀ x ∈ kv.1, x.toNat < 128) ∧ (∀ x ∈ kv.2, x.toNat < 128)) :
    parse_qsl (urlencode L) = L := by
  cases L with
  | nil => rfl
  | cons p rest =>
    unfold urlencode parse_qsl
    have hsegne : ∀ q ∈ (quote_plus p.1 [] ++ '=' :: quote_plus p.2 []) ::
        rest.map (fun kv => quote_plus kv.1 [] ++ '=' :: quote_plus kv.2 []),
        ∀ x ∈ q, x ≠ '&' := by
      intro q hq x hx
      have hq' : q ∈ (p :: rest).map (fun kv =>
          quote_plus kv.1 [] ++ '=' :: quote_plus kv.2 []) := by
        rw [List.map_cons]
        exact hq
      obtain ⟨kv, hkv, rfl⟩ := List.mem_map.mp hq'
      rcases List.mem_append.mp hx with hx | hx
      · exact (quotedChar_facts x (quote_plus_mem kv.1 (hA kv hkv).1 x hx)).2.2.2.1
      · rcases List.mem_cons.mp hx with rfl | hx
        · decide
        · exact (quotedChar_facts x (quote_plus_mem kv.2 (hA kv hkv).2 x hx)).2.2.2.1
    have hjne : pyJoin '&' ((p :: rest).map (fun kv =>
        quote_plus kv.1 [] ++ '=' :: quote_plus kv.2 [])) ≠ [] := by
      cases rest with
      | nil =>
        show quote_plus p.1 [] ++ '=' :: quote_plus p.2 [] ≠ []
        intro e
        cases hq : quote_plus p.1 [] with
        | nil => rw [hq] at e; simp at e
        | cons a t => rw [hq] at e; simp at e
      | cons q rest' =>
        show quote_plus p.1 [] ++ '=' :: quote_plus p.2 [] ++ '&' :: _ ≠ []
        intro e
        cases hq : quote_plus p.1 [] with
        | nil => rw [hq] at e; simp at e
        | cons a t => rw [hq] at e; simp at e
    rw [if_neg hjne, List.map_cons, splitAll_join '&' _ _ hsegne,
        List.flatMap_cons,
        parseQslSegment_enc p.1 p.2 (hA p (List.mem_cons_self p rest)).1
          (hA p (List.mem_cons_self p rest)).2,
        flatMap_segments rest (fun kv hkv => hA kv (List.mem_cons_of_mem p hkv))]
    rfl

theorem strLt_irrefl (a : Str) : strLt a a = false := by
  induction a with
  | nil => rfl
  | cons x xs ih =>
    rw [strLt]
    simp only [lt_irrefl, if_false, if_pos rfl]
    exact ih

theorem strLt_trans (a b c : Str) (h1 : strLt a b = true) (h2 : strLt b c = true) :
    strLt a c = true := by
  induction a generalizing b c with
  | nil =>
    cases b with
    | nil => rw [strLt] at h1; exact absurd h1 (by simp)
    | cons y ys =>
      cases c with
      | nil => rw [strLt] at h2; exact absurd h2 (by simp)
      | cons z zs => rfl
  | cons x xs ih =>
    cases b with
    | nil => rw [strLt] at h1; exact absurd h1 (by simp)
    | cons y ys =>
      cases c with
      | nil => rw [strLt] at h2; exact absurd h2 (by simp)
      | cons z zs =>
        rw [strLt] at h1 h2 ⊢
        by_cases hxy : x.toNat < y.toNat
        · by_cases hyz : y.toNat < z.toNat
          · rw [if_pos (by omega)]
          · rw [if_neg hyz] at h2
            by_cases heyz : y.toNat = z.toNat
            · rw [if_pos (by omega)]
            · rw [if_neg heyz] at h2
              exact absurd h2 (by simp)
        · rw [if_neg hxy] at h1
          by_cases hexy : x.toNat = y.toNat
          · rw [if_pos hexy] at h1
            by_cases hyz : y.toNat < z.toNat
            · rw [if_pos (by omega)]
            · rw [if_neg hyz] at h2
              by_cases heyz : y.toNat = z.toNat
              · rw [if_neg (by omega), if_pos (by omega)]
                rw [if_pos heyz] at h2
                exact ih ys zs h1 h2
              · rw [if_neg heyz] at h2
                exact absurd h2 (by simp)
          · rw [if_neg hexy] at h1
            exact absurd h1 (by simp)

theorem strLt_asym (a b : Str) (h : strLt a b = true) : strLt b a = false := by
  cases hba : strLt b a with
  | false => rfl
  | true =>
    have := strLt_trans a b a h hba
    rw [strLt_irrefl] at this
    exact absurd this (by simp)

theorem qslKeyLt_irrefl (x : Str × Str) : qslKeyLt x x = false := by
  unfold qslKeyLt
  rw [strLt_irrefl, strLt_irrefl]
  simp

theorem qslKeyLt_trans (x y z : Str × Str) (h1 : qslKeyLt x y = true)
    (h2 : qslKeyLt y z = true) : qslKeyLt x z = true := by
  unfold qslKeyLt at h1 h2 ⊢
  simp only [Bool.or_eq_true, Bool.and_eq_true, beq_iff_eq] at h1 h2 ⊢
  rcases h1 with h1 | ⟨he1, hv1⟩
  · rcases h2 with h2 | ⟨he2, hv2⟩
    · exact Or.inl (strLt_trans _ _ _ h1 h2)
    · rw [he2] at h1
      exact Or.inl h1
  · rcases h2 with h2 | ⟨he2, hv2⟩
    · rw [← he1] at h2
      exact Or.inl h2
    · exact Or.inr ⟨he1.trans he2, strLt_trans _ _ _ hv1 hv2⟩

theorem qslKeyLt_asym (x y : Str × Str) (h : qslKeyLt x y = true) :
    qslKeyLt y x = false := by
  cases hba : qslKeyLt y x with
  | false => rfl
  | true =>
    have := qslKeyLt_trans x y x h hba
    rw [qslKeyLt_irrefl] at this
    exact absurd this (by simp)

theorem mem_insertSorted (x y : Str × Str) (l : List (Str × Str)) :
    y ∈ pyInsertSorted x l ↔ y = x ∨ y ∈ l := by
  induction l with
  | nil => simp [pyInsertSorted]
  | cons z zs ih =>
    rw [pyInsertSorted]
    by_cases hlt : qslKeyLt x z = true
    · rw [if_pos hlt]
      simp only [List.mem_cons]
    · rw [if_neg hlt]
      simp only [List.mem_cons, ih]
      tauto

theorem insert_pairwise (x : Str × Str) (l : List (Str × Str))
    (hl : l.Pairwise (fun a b => qslKeyLt b a = false)) :
    (pyInsertSorted x l).Pairwise (fun a b => qslKeyLt b a = false) := by
  induction l with
  | nil => simp [pyInsertSorted]
  | cons y ys ih =>
    rw [List.pairwise_cons] at hl
    rw [pyInsertSorted]
    by_cases hlt : qslKeyLt x y = true
    · rw [if_pos hlt]
      rw [List.pairwise_cons]
      refine ⟨?_, List.pairwise_cons.mpr hl⟩
      intro z hz
      rcases List.mem_cons.mp hz with rfl | hz
      · exact qslKeyLt_asym x z hlt
      · cases hzx : qslKeyLt z x with
        | false => rfl
        | true =>
          have := qslKeyLt_trans z x y hzx hlt
          rw [hl.1 z hz] at this
          exact absurd this (by simp)
    · rw [if_neg hlt]
      rw [List.pairwise_cons]
      refine ⟨?_, ih hl.2⟩
      intro z hz
      rcases (mem_insertSorted x z ys).mp hz with rfl | hz
      · exact Bool.of_not_eq_true hlt
      · exact hl.1 z hz

theorem sortGo_pairwise (l acc : List (Str × Str))
    (hacc : acc.Pairwise (fun a b => qslKeyLt b a = false)) :
    (l.foldl (fun acc x => pyInsertSorted x acc) acc).Pairwise
      (fun a b => qslKeyLt b a = false) := by
  induction l generalizing acc with
  | nil => exact hacc
  | cons x xs ih =>
    rw [List.foldl_cons]
    exact ih _ (insert_pairwise x acc hacc)

theorem sort_pairwise (l : List (Str × Str)) :
    (pySortQsl l).Pairwise (fun a b => qslKeyLt b a = false) :=
  sortGo_pairwise l [] (List.Pairwise.nil)

theorem insert_append_of_all (x : Str × Str) (l : List (Str × Str))
    (h : ∀ y ∈ l, qslKeyLt x y = false) : pyInsertSorted x l = l ++ [x] := by
  induction l with
  | nil => rfl
  | cons y ys ih =>
    rw [pyInsertSorted, if_neg (by
      rw [h y (List.mem_cons_self y ys)]
      simp), ih (fun z hz => h z (List.mem_cons_of_mem y hz))]
    rfl

theorem sortGo_of_sorted (l acc : List (Str × Str))
    (hcross : ∀ x ∈ l, ∀ y ∈ acc, qslKeyLt x y = false)
    (hl : l.Pairwise (fun a b => qslKeyLt b a = false)) :
    l.foldl (fun acc x => pyInsertSorted x acc) acc = acc ++ l := by
  induction l generalizing acc with
  | nil => simp
  | cons x xs ih =>
    rw [List.pairwise_cons] at hl
    rw [List.foldl_cons,
        insert_append_of_all x acc (hcross x (List.mem_cons_self x xs)),
        ih (acc ++ [x]) (by
          intro z hz y hy
          rcases List.mem_append.mp hy with hy | hy
          · exact hcross z (List.mem_cons_of_mem x hz) y hy
          · rcases List.mem_cons.mp hy with rfl | hy
            · exact hl.1 z hz
            · simp at hy) hl.2]
    simp

theorem sort_of_sorted (l : List (Str × Str))
    (hl : l.Pairwise (fun a b => qslKeyLt b a = false)) :
    pySortQsl l = l := by
  unfold pySortQsl
  rw [sortGo_of_sorted l [] (by intro x _ y hy; simp at hy) hl]
  simp

theorem sortGo_mem (l acc : List (Str × Str)) (x : Str × Str) :
    x ∈ l.foldl (fun acc x => pyInsertSorted x acc) acc ↔ x ∈ acc ∨ x ∈ l := by
  induction l generalizing acc with
  | nil => simp
  | cons y ys ih =>
    rw [List.foldl_cons, ih, mem_insertSorted]
    simp only [List.mem_cons]
    tauto

theorem mem_sort (l : List (Str × Str)) (x : Str × Str) :
    x ∈ pySortQsl l ↔ x ∈ l := by
  unfold pySortQsl
  rw [sortGo_mem]
  simp

theorem sort_idem (l : List (Str × Str)) : pySortQsl (pySortQsl l) = pySortQsl l :=
  sort_of_sorted (pySortQsl l) (sort_pairwise l)

theorem pyUnquote_nopct (s : Str) (h : ∀ x ∈ s, x ≠ '%') : pyUnquote s = s := by
  unfold pyUnquote
  rw [if_pos (by
    rw [pyContains_of_all_ne s '%' h]
    simp)]

theorem pySplit1_sub (ch : Char) (s n : Str) (o : Option Str)
    (h : pySplit1 ch s = (n, o)) :
    (∀ x ∈ n, x ∈ s) ∧ (∀ v, o = some v → ∀ x ∈ v, x ∈ s) := by
  unfold pySplit1 at h
  by_cases hlen : (s.takeWhile (· ≠ ch)).length = s.length
  · rw [if_pos hlen] at h
    obtain ⟨rfl, rfl⟩ := Prod.mk.injEq .. |>.mp h
    exact ⟨fun x hx => hx, fun v hv => by simp at hv⟩
  · rw [if_neg hlen] at h
    obtain ⟨rfl, rfl⟩ := Prod.mk.injEq .. |>.mp h
    refine ⟨fun x hx => (List.takeWhile_prefix _).subset hx, ?_⟩
    intro v hv x hx
    rw [Option.some.injEq] at hv
    subst hv
    exact List.mem_of_mem_drop hx

theorem splitAllGo_chars (c : Char) (s : Str) :
    (∀ x ∈ (pySplitAllGo c s).1, x ∈ s) ∧
    (∀ q ∈ (pySplitAllGo c s).2, ∀ x ∈ q, x ∈ s) := by
  induction s with
  | nil =>
    have he : pySplitAllGo c [] = (([] : Str), ([] : List Str)) := rfl
    rw [he]
    exact ⟨fun x hx => by simp at hx, fun q hq => by simp at hq⟩
  | cons y ys ih =>
    by_cases hy : y = c
    · subst hy
      rw [splitAllGo_cons_sep]
      refine ⟨fun x hx => by simp at hx, ?_⟩
      intro q hq x hx
      rcases List.mem_cons.mp hq with rfl | hq
      · exact List.mem_cons_of_mem y (ih.1 x hx)
      · exact List.mem_cons_of_mem y (ih.2 q hq x hx)
    · rw [splitAllGo_cons_ne c y ys hy]
      refine ⟨?_, ?_⟩
      · intro x hx
        rcases List.mem_cons.mp hx with rfl | hx
        · exact List.mem_cons_self x ys
        · exact List.mem_cons_of_mem y (ih.1 x hx)
      · intro q hq x hx
        exact List.mem_cons_of_mem y (ih.2 q hq x hx)

theorem pySplitAll_chars (c : Char) (s : Str) :
    ∀ q ∈ pySplitAll c s, ∀ x ∈ q, x ∈ s := by
  intro q hq x hx
  unfold pySplitAll at hq
  rcases List.mem_cons.mp hq with rfl | hq
  · exact (splitAllGo_chars c s).1 x hx
  · exact (splitAllGo_chars c s).2 q hq x hx

theorem replacePlus_chars (t : Str) (x : Char) (hx : x ∈ pyReplaceChar '+' ' ' t) :
    x = ' ' ∨ x ∈ t := by
  unfold pyReplaceChar at hx
  obtain ⟨y, hy, rfl⟩ := List.mem_map.mp hx
  by_cases hp : y = '+'
  · rw [if_pos hp]
    exact Or.inl rfl
  · rw [if_neg hp]
    exact Or.inr hy

theorem parse_qsl_mem (Q : Str) (hno : ∀ x ∈ Q, x ≠ '%') (kv : Str × Str)
    (hkv : kv ∈ parse_qsl Q) :
    (∀ x ∈ kv.1, x = ' ' ∨ x ∈ Q) ∧ (∀ x ∈ kv.2, x = ' ' ∨ x ∈ Q) := by
  unfold parse_qsl at hkv
  by_cases hQ0 : Q = []
  · rw [if_pos hQ0] at hkv
    simp at hkv
  · rw [if_neg hQ0] at hkv
    obtain ⟨seg, hseg, hkvseg⟩ := List.mem_flatMap.mp hkv
    have hsub : ∀ x ∈ seg, x ∈ Q := pySplitAll_chars '&' Q seg hseg
    unfold parseQslSegment at hkvseg
    by_cases hseg0 : seg = []
    · rw [if_pos hseg0] at hkvseg
      simp at hkvseg
    · rw [if_neg hseg0] at hkvseg
      have hU : ∀ t : Str, (∀ x ∈ t, x ∈ seg) →
          ∀ x ∈ pyUnquote (pyReplaceChar '+' ' ' t), x = ' ' ∨ x ∈ Q := by
        intro t ht x hx
        rw [pyUnquote_nopct _ (by
          intro z hz
          rcases replacePlus_chars t z hz with rfl | hz
          · decide
          · exact hno z (hsub z (ht z hz)))] at hx
        rcases replacePlus_chars t x hx with rfl | hx
        · exact Or.inl rfl
        · exact Or.inr (hsub x (ht x hx))
      cases hsp : pySplit1 '=' seg with
      | mk n o =>
        have hnsub := (pySplit1_sub '=' seg n o hsp).1
        cases o with
        | some v =>
          rw [hsp] at hkvseg
          rcases List.mem_cons.mp hkvseg with rfl | hkvseg
          · exact ⟨hU n hnsub, hU v ((pySplit1_sub '=' seg n _ hsp).2 v rfl)⟩
          · simp at hkvseg
        | none =>
          rw [hsp] at hkvseg
          rcases List.mem_cons.mp hkvseg with rfl | hkvseg
          · refine ⟨hU n hnsub, ?_⟩
            intro x hx
            have hrepl : pyReplaceChar '+' ' ' ([] : Str) = [] := rfl
            rw [hrepl, pyUnquote_nopct [] (by intro z hz; simp at hz)] at hx
            simp at hx
          · simp at hkvseg

theorem qCanon_mem_ascii (Q : Str) (hQ : ∀ x ∈ Q, x ≠ '%' ∧ x.toNat < 128) :
    ∀ kv ∈ qCanon Q, (∀ x ∈ kv.1, x.toNat < 128) ∧ (∀ x ∈ kv.2, x.toNat < 128) := by
  intro kv hkv
  unfold qCanon at hkv
  have hp : kv ∈ parse_qsl Q :=
    List.mem_of_mem_filter ((mem_sort _ kv).mp hkv)
  have hm := parse_qsl_mem Q (fun x hx => (hQ x hx).1) kv hp
  refine ⟨?_, ?_⟩
  · intro x hx
    rcases hm.1 x hx with rfl | hx
    · decide
    · exact (hQ x hx).2
  · intro x hx
    rcases hm.2 x hx with rfl | hx
    · decide
    · exact (hQ x hx).2

theorem qCanon_sorted (Q : Str) :
    (qCanon Q).Pairwise (fun a b => qslKeyLt b a = false) := by
  unfold qCanon
  exact sort_pairwise _

theorem qCanon_pred (Q : Str) :
    ∀ kv ∈ qCanon Q,
      decide (¬ TRACKING_PARAMS.contains (pyLower kv.1) = true) = true := by
  intro kv hkv
  unfold qCanon at hkv
  exact (List.mem_filter.mp ((mem_sort _ kv).mp hkv)).2

theorem qCanon_roundtrip (Q : Str) (hQ : ∀ x ∈ Q, x ≠ '%' ∧ x.toNat < 128) :
    qCanon (urlencode (qCanon Q)) = qCanon Q := by
  conv_lhs => rw [qCanon]
  rw [parse_qsl_urlencode (qCanon Q) (qCanon_mem_ascii Q hQ)]
  rw [List.filter_eq_self.mpr (qCanon_pred Q)]
  exact sort_of_sorted _ (qCanon_sorted Q)

theorem head_dropWhile_false (p : Char → Bool) (l : Str) (x : Char)
    (h : (l.dropWhile p).head? = some x) : p x = false := by
  induction l with
  | nil => simp at h
  | cons a t ih =>
    rw [List.dropWhile_cons] at h
    by_cases hp : p a = true
    · rw [if_pos hp] at h
      exact ih h
    · rw [if_neg hp] at h
      rw [List.head?_cons, Option.some.injEq] at h
      subst h
      exact Bool.of_not_eq_true hp

theorem suffix_getLast (s l : Str) (hs : s <:+ l) (hne : s ≠ []) :
    s.getLast? = l.getLast? := by
  obtain ⟨pre, rfl⟩ := hs
  rw [List.getLast?_append]
  cases hg : s.getLast? with
  | none => exact absurd (List.getLast?_eq_none.mp hg) hne
  | some y => rfl

theorem rstrip_getLast_ne (s : Str) (y : Char)
    (h : (pyRstrip (· == '/') s).getLast? = some y) : y ≠ '/' := by
  unfold pyRstrip at h
  rw [List.getLast?_reverse] at h
  have := head_dropWhile_false _ _ _ h
  simpa using this

theorem rstrip_head_slash (P : Str) (hne : pyRstrip (· == '/') ('/' :: P) ≠ []) :
    (pyRstrip (· == '/') ('/' :: P)).head? = some '/' := by
  unfold pyRstrip at *
  rw [List.head?_reverse]
  have hsuf : (('/' :: P).reverse.dropWhile (· == '/')) <:+ ('/' :: P).reverse :=
    List.dropWhile_suffix _
  have hne' : ('/' :: P).reverse.dropWhile (· == '/') ≠ [] := by
    intro e
    rw [e] at hne
    simp at hne
  rw [suffix_getLast _ _ hsuf hne']
  rw [show ('/' :: P).reverse = P.reverse ++ ['/'] from by simp]
  rw [List.getLast?_append]
  rfl

theorem rstrip_mem (s : Str) (x : Char) (hx : x ∈ pyRstrip (· == '/') s) : x ∈ s := by
  unfold pyRstrip at hx
  rw [List.mem_reverse] at hx
  exact List.mem_reverse.mp ((List.dropWhile_suffix _).subset hx)

theorem pathCanon_props (P : Str) (hne : pathCanon ('/' :: P) ≠ []) :
    (∃ P', pathCanon ('/' :: P) = '/' :: P') ∧
    pathCanon (pathCanon ('/' :: P)) = pathCanon ('/' :: P) ∧
    (∀ x ∈ pathCanon ('/' :: P), x ∈ '/' :: P) := by
  have hc0 : ('/' :: P) ≠ [] := by simp
  by_cases hcond : ('/' :: P) ≠ ['/'] ∧ pyEndswith '/' ('/' :: P) = true
  · have he1 : pathCanon ('/' :: P) = pyRstrip (· == '/') ('/' :: P) := by
      unfold pathCanon
      rw [if_neg hc0, if_pos hcond]
    rw [he1] at hne ⊢
    have hh := rstrip_head_slash P hne
    obtain ⟨a, t, hat⟩ : ∃ a t, pyRstrip (· == '/') ('/' :: P) = a :: t := by
      cases hR : pyRstrip (· == '/') ('/' :: P) with
      | nil => exact absurd hR hne
      | cons a t => exact ⟨a, t, rfl⟩
    rw [hat] at hh ⊢
    rw [List.head?_cons, Option.some.injEq] at hh
    subst hh
    refine ⟨⟨t, rfl⟩, ?_, ?_⟩
    · have hglast : ∃ y, ('/' :: t).getLast? = some y := ⟨('/' :: t).getLast (by simp),
        List.getLast?_eq_getLast _ (by simp)⟩
      obtain ⟨y, hy⟩ := hglast
      have hyne : y ≠ '/' := by
        rw [← hat] at hy
        exact rstrip_getLast_ne _ y hy
      have hn1 : ¬('/' :: t = []) := by simp
      have hn2 : ¬('/' :: t ≠ ['/'] ∧ pyEndswith '/' ('/' :: t) = true) := by
        intro hco
        have h2 := hco.2
        unfold pyEndswith at h2
        rw [hy] at h2
        simp only [beq_iff_eq, Option.some.injEq, decide_eq_true_eq] at h2
        exact hyne h2
      unfold pathCanon
      rw [if_neg hn1, if_neg hn2]
    · intro x hx
      rw [← hat] at hx
      exact rstrip_mem _ x hx
  · have he1 : pathCanon ('/' :: P) = '/' :: P := by
      unfold pathCanon
      rw [if_neg hc0, if_neg hcond]
    rw [he1]
    refine ⟨⟨P, rfl⟩, ?_, fun x hx => hx⟩
    unfold pathCanon
    rw [if_neg hc0, if_neg hcond]

theorem asciiLower_toNat_eq (c : Char) :
    (asciiLower c).toNat =
      if 65 ≤ c.toNat ∧ c.toNat ≤ 90 then c.toNat + 32 else c.toNat := by
  unfold asciiLower
  by_cases h : 65 ≤ c.toNat ∧ c.toNat ≤ 90
  · rw [if_pos h, if_pos h, toNat_ofNat_small _ (by omega)]
  · rw [if_neg h, if_neg h]

theorem pyIsSpace_congr (a b : Char) (h : a.toNat = b.toNat) :
    pyIsSpace a = pyIsSpace b := by
  unfold pyIsSpace
  rw [h]

theorem asciiLower_not_space (c : Char) (h : pyIsSpace c = false) :
    pyIsSpace (asciiLower c) = false := by
  by_cases hr : 65 ≤ c.toNat ∧ c.toNat ≤ 90
  · refine pyIsSpace_false_of_print _ ?_ ?_ <;> (rw [asciiLower_toNat_eq, if_pos hr]; omega)
  · rw [pyIsSpace_congr _ c (by rw [asciiLower_toNat_eq, if_neg hr])]
    exact h

theorem unsafe_false_toNat (c : Char) (h : isUnsafeUrlByte c = false) :
    c.toNat ≠ 9 ∧ c.toNat ≠ 13 ∧ c.toNat ≠ 10 := by
  refine ⟨?_, ?_, ?_⟩ <;> (intro e
                           rw [char_eq_of_toNat c _ e] at h
                           exact absurd h (by decide))

theorem asciiLower_ne_toNat (c : Char) (t : Nat) (ht : t < 97 ∨ 122 < t)
    (h : c.toNat ≠ t) : (asciiLower c).toNat ≠ t := by
  rw [asciiLower_toNat_eq]
  by_cases hr : 65 ≤ c.toNat ∧ c.toNat ≤ 90
  · rw [if_pos hr]; omega
  · rw [if_neg hr]; exact h

theorem asciiLower_not_unsafe (c : Char) (h : isUnsafeUrlByte c = false) :
    isUnsafeUrlByte (asciiLower c) = false := by
  have hf := unsafe_false_toNat c h
  exact notUnsafe_of_ne _
    (char_ne_of_toNat_ne _ _ (by
      have e : ('\t' : Char).toNat = 9 := rfl
      rw [e]; exact asciiLower_ne_toNat c 9 (by omega) hf.1))
    (char_ne_of_toNat_ne _ _ (by
      have e : ('\r' : Char).toNat = 13 := rfl
      rw [e]; exact asciiLower_ne_toNat c 13 (by omega) hf.2.1))
    (char_ne_of_toNat_ne _ _ (by
      have e : ('\n' : Char).toNat = 10 := rfl
      rw [e]; exact asciiLower_ne_toNat c 10 (by omega) hf.2.2))

theorem alpha_toNat_iff (c : Char) :
    isAsciiAlpha c = true ↔
      (97 ≤ c.toNat ∧ c.toNat ≤ 122) ∨ (65 ≤ c.toNat ∧ c.toNat ≤ 90) := by
  unfold isAsciiAlpha
  simp only [Bool.or_eq_true, Bool.and_eq_true, decide_eq_true_eq]

theorem schemeChar_toNat_iff (c : Char) :
    isSchemeChar c = true ↔
      (97 ≤ c.toNat ∧ c.toNat ≤ 122) ∨ (65 ≤ c.toNat ∧ c.toNat ≤ 90) ∨
      (48 ≤ c.toNat ∧ c.toNat ≤ 57) ∨ c.toNat = 43 ∨ c.toNat = 45 ∨ c.toNat = 46 := by
  unfold isSchemeChar
  simp only [Bool.or_eq_true, Bool.and_eq_true, beq_iff_eq, decide_eq_true_eq]
  constructor
  · intro h
    rcases h with ((((h | h) | h) | h) | h) | h
    · exact Or.inl h
    · exact Or.inr (Or.inl h)
    · exact Or.inr (Or.inr (Or.inl h))
    · subst h; exact Or.inr (Or.inr (Or.inr (Or.inl rfl)))
    · subst h; exact Or.inr (Or.inr (Or.inr (Or.inr (Or.inl rfl))))
    · subst h; exact Or.inr (Or.inr (Or.inr (Or.inr (Or.inr rfl))))
  · intro h
    rcases h with h | h | h | h | h | h
    · exact Or.inl (Or.inl (Or.inl (Or.inl (Or.inl h))))
    · exact Or.inl (Or.inl (Or.inl (Or.inl (Or.inr h))))
    · exact Or.inl (Or.inl (Or.inl (Or.inr h)))
    · exact Or.inl (Or.inl (Or.inr (by rw [char_eq_of_toNat c _ h])))
    · exact Or.inl (Or.inr (by rw [char_eq_of_toNat c _ h]))
    · exact Or.inr (by rw [char_eq_of_toNat c _ h])

theorem asciiLower_alpha (c : Char) (h : isAsciiAlpha c = true) :
    isAsciiAlpha (asciiLower c) = true := by
  rw [alpha_toNat_iff] at h ⊢
  rw [asciiLower_toNat_eq]
  by_cases hr : 65 ≤ c.toNat ∧ c.toNat ≤ 90
  · rw [if_pos hr]; omega
  · rw [if_neg hr]; omega

theorem asciiLower_schemeChar (c : Char) (h : isSchemeChar c = true) :
    isSchemeChar (asciiLower c) = true := by
  rw [schemeChar_toNat_iff] at h ⊢
  rw [asciiLower_toNat_eq]
  by_cases hr : 65 ≤ c.toNat ∧ c.toNat ≤ 90
  · rw [if_pos hr]; omega
  · rw [if_neg hr]; omega

theorem urlunsplit_eval (sch host P' E : Str) (hs : sch ≠ []) (hh : host ≠ []) :
    urlunsplit ⟨sch, host, '/' :: P', E, []⟩ =
      (sch ++ ':' :: '/' :: '/' :: (host ++ '/' :: P')) ++
        (if E = [] then [] else '?' :: E) := by
  simp only [urlunsplit]
  rw [if_pos (Or.inl hh)]
  rw [if_neg (show ¬('/' :: P' ≠ [] ∧ ('/' :: P').take 1 ≠ ['/']) from by
    intro hco
    exact hco.2 rfl)]
  rw [if_pos hs]
  by_cases hE : E = []
  · subst hE
    rw [if_neg (by simp), if_neg (by simp), if_pos rfl, List.append_nil]
  · rw [if_pos hE, if_neg (by simp), if_neg hE]

theorem pyJoin_chars (c : Char) (parts : List Str) (x : Char)
    (hx : x ∈ pyJoin c parts) : x = c ∨ ∃ q ∈ parts, x ∈ q := by
  induction parts with
  | nil => simp [pyJoin] at hx
  | cons s rest ih =>
    cases rest with
    | nil =>
      rw [show pyJoin c [s] = s from rfl] at hx
      exact Or.inr ⟨s, List.mem_cons_self s [], hx⟩
    | cons q rest' =>
      rw [show pyJoin c (s :: q :: rest') = s ++ c :: pyJoin c (q :: rest')
        from rfl] at hx
      rcases List.mem_append.mp hx with hx | hx
      · exact Or.inr ⟨s, List.mem_cons_self s _, hx⟩
      · rcases List.mem_cons.mp hx with rfl | hx
        · exact Or.inl rfl
        · rcases ih hx with h | ⟨p, hp, hxp⟩
          · exact Or.inl h
          · exact Or.inr ⟨p, List.mem_cons_of_mem s hp, hxp⟩

theorem urlencode_chars (L : List (Str × Str))
    (hA : ∀ kv ∈ L, (∀ x ∈ kv.1, x.toNat < 128) ∧ (∀ x ∈ kv.2, x.toNat < 128)) :
    ∀ x ∈ urlencode L, (33 ≤ x.toNat ∧ x.toNat ≤ 126) ∧ x ≠ '#' ∧ x ≠ '?' ∧
      isUnsafeUrlByte x = false ∧ pyIsSpace x = false := by
  intro x hx
  unfold urlencode at hx
  rcases pyJoin_chars '&' _ x hx with rfl | ⟨q, hq, hxq⟩
  · exact ⟨⟨by decide, by decide⟩, by decide, by decide, by decide, by decide⟩
  · obtain ⟨kv, hkv, rfl⟩ := List.mem_map.mp hq
    rcases List.mem_append.mp hxq with hxs | hxs
    · have hqf := quotedChar_facts x (quote_plus_mem kv.1 (hA kv hkv).1 x hxs)
      exact ⟨⟨hqf.1, hqf.2.1⟩, hqf.2.2.2.2.1, hqf.2.2.2.2.2.1, hqf.2.2.2.2.2.2.2.2.2.2.1,
        hqf.2.2.2.2.2.2.2.2.2.2.2⟩
    · rcases List.mem_cons.mp hxs with rfl | hxs
      · exact ⟨⟨by decide, by decide⟩, by decide, by decide, by decide, by decide⟩
      · have hqf := quotedChar_facts x (quote_plus_mem kv.2 (hA kv hkv).2 x hxs)
        exact ⟨⟨hqf.1, hqf.2.1⟩, hqf.2.2.2.2.1, hqf.2.2.2.2.2.1, hqf.2.2.2.2.2.2.2.2.2.2.1,
          hqf.2.2.2.2.2.2.2.2.2.2.2⟩

theorem urlencode_ne_nil (p : Str × Str) (rest : List (Str × Str)) :
    urlencode (p :: rest) ≠ [] := by
  unfold urlencode
  rw [List.map_cons]
  cases hrest : rest.map (fun kv => quote_plus kv.1 [] ++ '=' :: quote_plus kv.2 []) with
  | nil =>
    show quote_plus p.1 [] ++ '=' :: quote_plus p.2 [] ≠ []
    intro e
    cases hq : quote_plus p.1 [] with
    | nil => rw [hq] at e; simp at e
    | cons a t => rw [hq] at e; simp at e
  | cons q rest' =>
    show quote_plus p.1 [] ++ '=' :: quote_plus p.2 [] ++ '&' :: _ ≠ []
    intro e
    cases hq : quote_plus p.1 [] with
    | nil => rw [hq] at e; simp at e
    | cons a t => rw [hq] at e; simp at e

theorem hostCanon_unfold (X : Str) :
    hostCanon X = (if pyStartswith "www.".toList (pyLower (hostnameOrEmpty X)) = true
      then (pyLower (hostnameOrEmpty X)).drop 4
      else pyLower (hostnameOrEmpty X)) := by
  simp only [hostCanon]

theorem hostCanon_eval (H : Str)
    (hH : ∀ x ∈ H, x ≠ '@' ∧ x ≠ '[' ∧ x ≠ ':' ∧ x ≠ '%') (hne : H ≠ []) :
    hostCanon H = (if pyStartswith "www.".toList (pyLower H) = true
      then (pyLower H).drop 4 else pyLower H) := by
  rw [hostCanon_unfold H]
  rw [hostnameOrEmpty_of H H
    (hostinfoHostname_plain H (fun x hx => ⟨(hH x hx).1, (hH x hx).2.1, (hH x hx).2.2.1⟩))
    hne (fun x hx => (hH x hx).2.2.2), pyLower_idem]

theorem hostCanon_mem (H : Str)
    (hH : ∀ x ∈ H, x ≠ '@' ∧ x ≠ '[' ∧ x ≠ ':' ∧ x ≠ '%') (hne : H ≠ []) :
    ∀ x ∈ hostCanon H, ∃ y ∈ H, x = asciiLower y := by
  intro x hx
  rw [hostCanon_eval H hH hne] at hx
  by_cases hw : pyStartswith "www.".toList (pyLower H) = true
  · rw [if_pos hw] at hx
    have hx' : x ∈ pyLower H := List.mem_of_mem_drop hx
    obtain ⟨y, hy, rfl⟩ := List.mem_map.mp hx'
    exact ⟨y, hy, rfl⟩
  · rw [if_neg hw] at hx
    obtain ⟨y, hy, rfl⟩ := List.mem_map.mp hx
    exact ⟨y, hy, rfl⟩

theorem hostCanon_lower (H : Str)
    (hH : ∀ x ∈ H, x ≠ '@' ∧ x ≠ '[' ∧ x ≠ ':' ∧ x ≠ '%') (hne : H ≠ []) :
    pyLower (hostCanon H) = hostCanon H := by
  rw [hostCanon_eval H hH hne]
  by_cases hw : pyStartswith "www.".toList (pyLower H) = true
  · rw [if_pos hw]
    show pyLower (List.drop 4 (pyLower H)) = List.drop 4 (pyLower H)
    unfold pyLower
    rw [List.map_drop]
    rw [show List.drop 4 (List.map asciiLower (List.map asciiLower H)) =
      List.drop 4 (pyLower (pyLower H)) from rfl, pyLower_idem]
    rfl
  · rw [if_neg hw]
    exact pyLower_idem H

theorem hostCanon_idem (H : Str)
    (hH : ∀ x ∈ H, x ≠ '@' ∧ x ≠ '[' ∧ x ≠ ':' ∧ x ≠ '%') (hne : H ≠ [])
    (hHC : hostCanon H ≠ [])
    (hWW : pyStartswith "www.".toList (hostCanon H) = false) :
    hostCanon (hostCanon H) = hostCanon H := by
  have hmem := hostCanon_mem H hH hne
  have hconds : ∀ x ∈ hostCanon H, x ≠ '@' ∧ x ≠ '[' ∧ x ≠ ':' ∧ x ≠ '%' := by
    intro x hx
    obtain ⟨y, hy, rfl⟩ := hmem x hx
    have hyf := hH y hy
    have hc1 : asciiLower y ≠ '@' := by
      refine char_ne_of_toNat_ne _ _ ?_
      have e1 : ('@' : Char).toNat = 64 := rfl
      rw [e1]
      refine asciiLower_ne_toNat y 64 (by omega) ?_
      intro e
      exact hyf.1 (by rw [char_eq_of_toNat y _ e])
    have hc2 : asciiLower y ≠ '[' := by
      refine char_ne_of_toNat_ne _ _ ?_
      have e2 : ('[' : Char).toNat = 91 := rfl
      rw [e2]
      refine asciiLower_ne_toNat y 91 (by omega) ?_
      intro e
      exact hyf.2.1 (by rw [char_eq_of_toNat y _ e])
    have hc3 : asciiLower y ≠ ':' := by
      refine char_ne_of_toNat_ne _ _ ?_
      have e3 : (':' : Char).toNat = 58 := rfl
      rw [e3]
      refine asciiLower_ne_toNat y 58 (by omega) ?_
      intro e
      exact hyf.2.2.1 (by rw [char_eq_of_toNat y _ e])
    have hc4 : asciiLower y ≠ '%' := by
      refine char_ne_of_toNat_ne _ _ ?_
      have e4 : ('%' : Char).toNat = 37 := rfl
      rw [e4]
      refine asciiLower_ne_toNat y 37 (by omega) ?_
      intro e
      exact hyf.2.2.2 (by rw [char_eq_of_toNat y _ e])
    exact ⟨hc1, hc2, hc3, hc4⟩
  rw [hostCanon_unfold (hostCanon H)]
  rw [hostnameOrEmpty_of (hostCanon H) (hostCanon H)
    (hostinfoHostname_plain _ (fun x hx =>
      ⟨(hconds x hx).1, (hconds x hx).2.1, (hconds x hx).2.2.1⟩))
    hHC (fun x hx => (hconds x hx).2.2.2)]
  rw [hostCanon_lower H hH hne, hostCanon_lower H hH hne]
  rw [if_neg (by rw [hWW]; simp)]

/-- C8: `canonicalize_url` is deterministic and total (it is a pure function
of its input), but NOT idempotent in general (see
`C8_canonicalize_idempotent_cex`).  Restricted idempotence: on well-formed
absolute URLs `scheme://host/path?query` whose host needs no bracket/NFKC
handling and is not reduced to `www.`-free emptiness, whose path does not
collapse to nothing under trailing-slash stripping, and whose query is
ASCII and percent-free, a second canonicalization is the identity. -/
theorem C8_canonicalize_idempotent_restricted
    (c : Char) (S H P Q : Str)
    (hc : isAsciiAlpha c = true)
    (hS : ∀ x ∈ c :: S, isSchemeChar x = true)
    (hH : ∀ x ∈ H, x ≠ '/' ∧ x ≠ '?' ∧ x ≠ '#' ∧ x ≠ '[' ∧ x ≠ ']' ∧ x ≠ '@' ∧
      x ≠ ':' ∧ x ≠ '%' ∧ isUnsafeUrlByte x = false ∧ pyIsSpace x = false)
    (hP : ∀ x ∈ P, x ≠ '?' ∧ x ≠ '#' ∧ isUnsafeUrlByte x = false ∧
      pyIsSpace x = false)
    (hQ : ∀ x ∈ Q, x ≠ '#' ∧ x ≠ '%' ∧ x.toNat < 128 ∧ isUnsafeUrlByte x = false ∧
      pyIsSpace x = false)
    (hHne : H ≠ [])
    (hHC : hostCanon H ≠ [])
    (hWW : pyStartswith "www.".toList (hostCanon H) = false)
    (hPC : pathCanon ('/' :: P) ≠ []) :
    canonicalize_url (canonicalize_url
      ((c :: S) ++ ':' :: '/' :: '/' :: (H ++ '/' :: (P ++ '?' :: Q)))) =
    canonicalize_url ((c :: S) ++ ':' :: '/' :: '/' :: (H ++ '/' :: (P ++ '?' :: Q))) := by
  -- First pass.
  have hstrip1 : ∀ x ∈ (c :: S) ++ ':' :: '/' :: '/' :: (H ++ '/' :: (P ++ '?' :: Q)),
      pyIsSpace x = false := by
    intro x hx
    rcases List.mem_append.mp hx with hx | hx
    · exact schemeChar_not_space x (hS x hx)
    · rcases List.mem_cons.mp hx with rfl | hx
      · decide
      · rcases List.mem_cons.mp hx with rfl | hx
        · decide
        · rcases List.mem_cons.mp hx with rfl | hx
          · decide
          · rcases List.mem_append.mp hx with hx | hx
            · exact (hH x hx).2.2.2.2.2.2.2.2.2
            · rcases List.mem_cons.mp hx with rfl | hx
              · decide
              · rcases List.mem_append.mp hx with hx | hx
                · exact (hP x hx).2.2.2
                · rcases List.mem_cons.mp hx with rfl | hx
                  · decide
                  · exact (hQ x hx).2.2.2.2
  have hsplit1 : urlsplit ((c :: S) ++ ':' :: '/' :: '/' :: (H ++ '/' :: (P ++ '?' :: Q))) =
      some ⟨pyLower (c :: S), H, '/' :: P, Q, []⟩ :=
    urlsplit_eval_q c S H P Q hc hS
      (fun x hx => ⟨(hH x hx).1, (hH x hx).2.1, (hH x hx).2.2.1, (hH x hx).2.2.2.1,
        (hH x hx).2.2.2.2.1, (hH x hx).2.2.2.2.2.2.2.2.1⟩)
      (fun x hx => ⟨(hP x hx).1, (hP x hx).2.1, (hP x hx).2.2.1⟩)
      (fun x hx => ⟨(hQ x hx).1, (hQ x hx).2.2.2.1⟩)
  have hfirst : canonicalize_url
      ((c :: S) ++ ':' :: '/' :: '/' :: (H ++ '/' :: (P ++ '?' :: Q))) =
      urlunsplit ⟨pyLower (c :: S), hostCanon H, pathCanon ('/' :: P),
        urlencode (qCanon Q), []⟩ := by
    simp only [canonicalize_url]
    rw [pyStrip_eq_self _ hstrip1, hsplit1]
    simp only [canonicalizeParts]
  -- Shapes of the canonical output.
  obtain ⟨⟨P', hP'⟩, hpidem, hpmem⟩ := pathCanon_props P hPC
  have hschcons : pyLower (c :: S) = asciiLower c :: pyLower S := rfl
  have hu1 : canonicalize_url
      ((c :: S) ++ ':' :: '/' :: '/' :: (H ++ '/' :: (P ++ '?' :: Q))) =
      (pyLower (c :: S) ++ ':' :: '/' :: '/' :: (hostCanon H ++ '/' :: P')) ++
        (if urlencode (qCanon Q) = [] then [] else '?' :: urlencode (qCanon Q)) := by
    rw [hfirst, hP', urlunsplit_eval _ _ _ _ (by rw [hschcons]; simp) hHC]
  -- Character facts for the second pass.
  have hHQ : ∀ x ∈ Q, x ≠ '%' ∧ x.toNat < 128 := fun x hx => ⟨(hQ x hx).2.1, (hQ x hx).2.2.1⟩
  have hEchars := urlencode_chars (qCanon Q) (qCanon_mem_ascii Q hHQ)
  have hhostm := hostCanon_mem H
    (fun x hx => ⟨(hH x hx).2.2.2.2.2.1, (hH x hx).2.2.2.1, (hH x hx).2.2.2.2.2.2.1,
      (hH x hx).2.2.2.2.2.2.2.1⟩) hHne
  have hN2 : ∀ x ∈ hostCanon H, x ≠ '/' ∧ x ≠ '?' ∧ x ≠ '#' ∧ x ≠ '[' ∧ x ≠ ']' ∧
      isUnsafeUrlByte x = false := by
    intro x hx
    obtain ⟨y, hy, rfl⟩ := hhostm x hx
    have hyf := hH y hy
    refine ⟨?_, ?_, ?_, ?_, ?_, asciiLower_not_unsafe y hyf.2.2.2.2.2.2.2.2.1⟩
    · refine char_ne_of_toNat_ne _ _ ?_
      have e : ('/' : Char).toNat = 47 := rfl
      rw [e]
      refine asciiLower_ne_toNat y 47 (by omega) ?_
      intro e2
      exact hyf.1 (by rw [char_eq_of_toNat y _ e2])
    · refine char_ne_of_toNat_ne _ _ ?_
      have e : ('?' : Char).toNat = 63 := rfl
      rw [e]
      refine asciiLower_ne_toNat y 63 (by omega) ?_
      intro e2
      exact hyf.2.1 (by rw [char_eq_of_toNat y _ e2])
    · refine char_ne_of_toNat_ne _ _ ?_
      have e : ('#' : Char).toNat = 35 := rfl
      rw [e]
      refine asciiLower_ne_toNat y 35 (by omega) ?_
      intro e2
      exact hyf.2.2.1 (by rw [char_eq_of_toNat y _ e2])
    · refine char_ne_of_toNat_ne _ _ ?_
      have e : ('[' : Char).toNat = 91 := rfl
      rw [e]
      refine asciiLower_ne_toNat y 91 (by omega) ?_
      intro e2
      exact hyf.2.2.2.1 (by rw [char_eq_of_toNat y _ e2])
    · refine char_ne_of_toNat_ne _ _ ?_
      have e : (']' : Char).toNat = 93 := rfl
      rw [e]
      refine asciiLower_ne_toNat y 93 (by omega) ?_
      intro e2
      exact hyf.2.2.2.2.1 (by rw [char_eq_of_toNat y _ e2])
  have hN2s : ∀ x ∈ hostCanon H, pyIsSpace x = false := by
    intro x hx
    obtain ⟨y, hy, rfl⟩ := hhostm x hx
    exact asciiLower_not_space y (hH y hy).2.2.2.2.2.2.2.2.2
  have hP2 : ∀ x ∈ P', x ≠ '?' ∧ x ≠ '#' ∧ isUnsafeUrlByte x = false ∧
      pyIsSpace x = false := by
    intro x hx
    have hx0 : x ∈ pathCanon ('/' :: P) := by
      rw [hP']
      exact List.mem_cons_of_mem '/' hx
    rcases List.mem_cons.mp (hpmem x hx0) with rfl | hx'
    · exact ⟨by decide, by decide, by decide, by decide⟩
    · exact hP x hx'
  have hc2 : isAsciiAlpha (asciiLower c) = true := asciiLower_alpha c hc
  have hS2 : ∀ x ∈ asciiLower c :: pyLower S, isSchemeChar x = true := by
    intro x hx
    have hx' : x ∈ pyLower (c :: S) := by rw [hschcons]; exact hx
    obtain ⟨y, hy, rfl⟩ := List.mem_map.mp hx'
    exact asciiLower_schemeChar y (hS y hy)
  have hsch2 : pyLower (asciiLower c :: pyLower S) = asciiLower c :: pyLower S := by
    rw [← hschcons, pyLower_idem]
  have hHb : ∀ x ∈ H, x ≠ '@' ∧ x ≠ '[' ∧ x ≠ ':' ∧ x ≠ '%' := fun x hx =>
    ⟨(hH x hx).2.2.2.2.2.1, (hH x hx).2.2.2.1, (hH x hx).2.2.2.2.2.2.1,
      (hH x hx).2.2.2.2.2.2.2.1⟩
  by_cases hE : urlencode (qCanon Q) = []
  · -- the canonical output has no query part
    have hL0 : qCanon Q = [] := by
      cases hL : qCanon Q with
      | nil => rfl
      | cons p rest =>
        rw [hL] at hE
        exact absurd hE (urlencode_ne_nil p rest)
    rw [hu1, hE, if_pos rfl, List.append_nil, hschcons]
    have hstrip2 : ∀ x ∈ (asciiLower c :: pyLower S) ++ ':' :: '/' :: '/' ::
        (hostCanon H ++ '/' :: P'), pyIsSpace x = false := by
      intro x hx
      rcases List.mem_append.mp hx with hx | hx
      · exact schemeChar_not_space x (hS2 x hx)
      · rcases List.mem_cons.mp hx with rfl | hx
        · decide
        · rcases List.mem_cons.mp hx with rfl | hx
          · decide
          · rcases List.mem_cons.mp hx with rfl | hx
            · decide
            · rcases List.mem_append.mp hx with hx | hx
              · exact hN2s x hx
              · rcases List.mem_cons.mp hx with rfl | hx
                · decide
                · exact (hP2 x hx).2.2.2
    have hsplit2 : urlsplit ((asciiLower c :: pyLower S) ++ ':' :: '/' :: '/' ::
        (hostCanon H ++ '/' :: P')) =
        some ⟨pyLower (asciiLower c :: pyLower S), hostCanon H, '/' :: P', [], []⟩ :=
      urlsplit_eval_nq (asciiLower c) (pyLower S) (hostCanon H) P' hc2 hS2 hN2
        (fun x hx => ⟨(hP2 x hx).1, (hP2 x hx).2.1, (hP2 x hx).2.2.1⟩)
    simp only [canonicalize_url]
    rw [pyStrip_eq_self _ hstrip2, hsplit2]
    simp only [canonicalizeParts]
    rw [hsch2, hostCanon_idem H hHb hHne hHC hWW, ← hP', hpidem, hP']
    rw [show qCanon ([] : Str) = ([] : List (Str × Str)) from rfl]
    rw [show urlencode ([] : List (Str × Str)) = ([] : Str) from rfl]
    rw [urlunsplit_eval _ _ _ _ (by simp) hHC]
    rw [if_pos rfl, List.append_nil]
  · -- the canonical output carries `?` and the encoded query
    rw [hu1, if_neg hE, hschcons]
    have hshape : ((asciiLower c :: pyLower S) ++ ':' :: '/' :: '/' ::
          (hostCanon H ++ '/' :: P')) ++ '?' :: urlencode (qCanon Q) =
        (asciiLower c :: pyLower S) ++ ':' :: '/' :: '/' ::
          (hostCanon H ++ '/' :: (P' ++ '?' :: urlencode (qCanon Q))) := by
      simp [List.append_assoc, List.cons_append]
    rw [hshape]
    have hstrip2 : ∀ x ∈ (asciiLower c :: pyLower S) ++ ':' :: '/' :: '/' ::
        (hostCanon H ++ '/' :: (P' ++ '?' :: urlencode (qCanon Q))),
        pyIsSpace x = false := by
      intro x hx
      rcases List.mem_append.mp hx with hx | hx
      · exact schemeChar_not_space x (hS2 x hx)
      · rcases List.mem_cons.mp hx with rfl | hx
        · decide
        · rcases List.mem_cons.mp hx with rfl | hx
          · decide
          · rcases List.mem_cons.mp hx with rfl | hx
            · decide
            · rcases List.mem_append.mp hx with hx | hx
              · exact hN2s x hx
              · rcases List.mem_cons.mp hx with rfl | hx
                · decide
                · rcases List.mem_append.mp hx with hx | hx
                  · exact (hP2 x hx).2.2.2
                  · rcases List.mem_cons.mp hx with rfl | hx
                    · decide
                    · exact (hEchars x hx).2.2.2.2
    have hsplit2 : urlsplit ((asciiLower c :: pyLower S) ++ ':' :: '/' :: '/' ::
        (hostCanon H ++ '/' :: (P' ++ '?' :: urlencode (qCanon Q)))) =
        some ⟨pyLower (asciiLower c :: pyLower S), hostCanon H, '/' :: P',
          urlencode (qCanon Q), []⟩ :=
      urlsplit_eval_q (asciiLower c) (pyLower S) (hostCanon H) P'
        (urlencode (qCanon Q)) hc2 hS2 hN2
        (fun x hx => ⟨(hP2 x hx).1, (hP2 x hx).2.1, (hP2 x hx).2.2.1⟩)
        (fun x hx => ⟨(hEchars x hx).2.1, (hEchars x hx).2.2.2.1⟩)
    simp only [canonicalize_url]
    rw [pyStrip_eq_self _ hstrip2, hsplit2]
    simp only [canonicalizeParts]
    rw [hsch2, hostCanon_idem H hHb hHne hHC hWW, ← hP', hpidem, hP']
    rw [qCanon_roundtrip Q hHQ]
    rw [urlunsplit_eval _ _ _ _ (by simp) hHC]
    rw [if_neg hE]
    rw [hshape]

theorem C8_canonicalize_idempotent_cex :
    canonicalize_url (canonicalize_url "http://host//".toList) ≠
      canonicalize_url "http://host//".toList := by decide

theorem C8_canonicalize_idempotent_restricted_witness :
    canonicalize_url (canonicalize_url
      (('h' :: "ttp".toList) ++ ':' :: '/' :: '/' ::
        ("Example.com".toList ++ '/' ::
          ("a/b".toList ++ '?' :: "b=2&a=1+3&utm_source=x".toList)))) =
    canonicalize_url (('h' :: "ttp".toList) ++ ':' :: '/' :: '/' ::
      ("Example.com".toList ++ '/' ::
        ("a/b".toList ++ '?' :: "b=2&a=1+3&utm_source=x".toList))) :=
  C8_canonicalize_idempotent_restricted 'h' "ttp".toList "Example.com".toList
    "a/b".toList "b=2&a=1+3&utm_source=x".toList (by decide) (by decide) (by decide)
    (by decide) (by decide) (by decide) (by decide) (by decide) (by decide)
